import Mathlib

/-!
# Verification of the `algo-analysis` sorting repository

Shallow embedding of the four sort engines (`quickSort.py`, `heapSort.py`,
`margeSort.py`, `bucketSort.py`) and the step-event recorders of the
animation scripts (`quicksort_animation.py`, `heapsort_animation.py`,
`bucketsort_animation.py`), together with proofs of the specification's
claims about them.

Modelling conventions:
* Python lists of comparable values become `List α` for a type `α` with a
  decidable total preorder (rationals `ℚ` for the bucket sort, whose
  algorithm needs `⌊n·v⌋`).
* Python `for`/`while` loops become structural recursion over an explicit
  iteration counter.  For `for x in range(a, b)` the counter is the exact
  iteration count `(b - a)`; for `while` loops and recursion whose depth is
  data-dependent (`heapify`, `quickSort`, `mergeSort`) the counter is a fuel
  value instantiated at the top-level call with a bound that the correctness
  proofs below show is sufficient (were it not, the sortedness and
  permutation theorems proved about the top-level entry points could not
  hold).
* Python indexing `arr[i]` / `arr[i] = v` becomes `pyGet` / `pySet`, which
  reproduce Python's negative-index wraparound.  An access that Python would
  reject with `IndexError` is modelled with `Option` at the one place a
  claim depends on it (the bucket-sort scatter loop, which is handed raw
  input values); everywhere else the algorithms are proved to stay in
  bounds.
* Python's `int()` truncates toward zero: `pyInt`.
* Python's `//` is floor division: `Int.fdiv`.
-/

set_option linter.unusedSectionVars false

namespace AlgoAnalysis

/-- Python index resolution: a negative index counts from the end. -/
def pyIdx (n : ℕ) (i : ℤ) : ℤ :=
  if i < 0 then i + n else i

/-- Python `arr[i]` (read). In-range reads (after wraparound) match Python;
out-of-range reads return `default` and never occur on the traces proved
about below, except where modelled by `Option`. -/
def pyGet {α : Type} [Inhabited α] (l : List α) (i : ℤ) : α :=
  l.getD (pyIdx l.length i).toNat default

/-- Python `arr[i] = v` (write). -/
def pySet {α : Type} (l : List α) (i : ℤ) (v : α) : List α :=
  l.set (pyIdx l.length i).toNat v

/-- `src/quickSort.py`, `swap`: `arr[i], arr[j] = arr[j], arr[i]`. -/
def swap {α : Type} [Inhabited α] (arr : List α) (i j : ℤ) : List α :=
  let vi := pyGet arr i
  let vj := pyGet arr j
  pySet (pySet arr i vj) j vi

/-- The same simultaneous swap for code whose indices are natural numbers
(`heapSort.py` only ever indexes with values proved non-negative). -/
def natSwap {α : Type} [Inhabited α] (arr : List α) (i j : ℕ) : List α :=
  let vi := arr.getD i default
  let vj := arr.getD j default
  (arr.set i vj).set j vi

/-- Python `int(q)`: truncation toward zero. -/
def pyInt (q : ℚ) : ℤ :=
  if 0 ≤ q then ⌊q⌋ else ⌈q⌉

section Engines

variable {α : Type} [Inhabited α] [Preorder α]
variable [DecidableRel ((· ≤ ·) : α → α → Prop)]
variable [DecidableRel ((· < ·) : α → α → Prop)]

/-! ## `src/quickSort.py` -/

/-- The scan `for j in range(low, high): if arr[j] < pivot: i += 1;
swap(arr, i, j)` of `partition`.  `k` counts the remaining iterations
(`k = high - j` at every call), `i` and `j` are the loop's variables. -/
def partitionLoop (pivot : α) : ℕ → List α → ℤ → ℤ → List α × ℤ
  | 0, arr, i, _ => (arr, i)
  | k + 1, arr, i, j =>
    if pyGet arr j < pivot then
      partitionLoop pivot k (swap arr (i + 1) j) (i + 1) (j + 1)
    else
      partitionLoop pivot k arr i (j + 1)

/-- `partition(arr, low, high)` of `src/quickSort.py` (Lomuto, last-element
pivot).  Returns the rearranged list and the returned index `i + 1`. -/
def partition (arr : List α) (low high : ℤ) : List α × ℤ :=
  let pivot := pyGet arr high
  let p := partitionLoop pivot (high - low).toNat arr (low - 1) low
  (swap p.1 (p.2 + 1) high, p.2 + 1)

/-- `quickSort(arr, low, high)` with fuel: the recursion depth is bounded by
the range size `high - low + 1`, which the top-level `quickSort` supplies. -/
def quickSortF : ℕ → List α → ℤ → ℤ → List α
  | 0, arr, _, _ => arr
  | f + 1, arr, low, high =>
    if low < high then
      let p := partition arr low high
      quickSortF f (quickSortF f p.1 low (p.2 - 1)) (p.2 + 1) high
    else arr

/-- `quickSort(arr, low, high)` of `src/quickSort.py`. -/
def quickSort (arr : List α) (low high : ℤ) : List α :=
  quickSortF (high - low + 1).toNat arr low high

/-! ## `src/heapSort.py` -/

/-- `heapify(arr, n, i)` of `src/heapSort.py` with fuel: the recursion
`heapify(arr, n, largest)` strictly increases `i` below `n`, so depth is
bounded by `n`, which `heapify` supplies. -/
def heapifyF : ℕ → List α → ℕ → ℕ → List α
  | 0, arr, _, _ => arr
  | f + 1, arr, n, i =>
    let l := 2 * i + 1
    let r := 2 * i + 2
    let largest := i
    let largest := if l < n ∧ arr.getD l default > arr.getD largest default then l else largest
    let largest := if r < n ∧ arr.getD r default > arr.getD largest default then r else largest
    if largest ≠ i then heapifyF f (natSwap arr i largest) n largest else arr

/-- `heapify(arr, n, i)` of `src/heapSort.py`. -/
def heapify (arr : List α) (n i : ℕ) : List α :=
  heapifyF n arr n i

/-- `for i in range(n // 2 - 1, -1, -1): heapify(arr, n, i)` — the counter
`k` runs from `n / 2` down, processing index `k - 1` each step. -/
def buildLoop (n : ℕ) : ℕ → List α → List α
  | 0, arr => arr
  | k + 1, arr => buildLoop n k (heapify arr n k)

/-- `for i in range(n - 1, 0, -1): arr[0], arr[i] = arr[i], arr[0];
heapify(arr, i, 0)` — the counter runs from `n - 1` down to `1`. -/
def extractLoop : ℕ → List α → List α
  | 0, arr => arr
  | i + 1, arr => extractLoop i (heapify (natSwap arr 0 (i + 1)) (i + 1) 0)

/-- `heapSort(arr)` of `src/heapSort.py`. -/
def heapSort (arr : List α) : List α :=
  let n := arr.length
  extractLoop (n - 1) (buildLoop n (n / 2) arr)

/-! ## `src/margeSort.py` -/

/-- The copy loops `L[i] = arr[left + i]` / `R[j] = arr[mid + 1 + j]` of
`merge`: the segment of `arr` starting at `s` of length `cnt`. -/
def copySeg (arr : List α) (s : ℤ) (cnt : ℕ) : List α :=
  (List.range cnt).map fun t : ℕ => pyGet arr (s + (t : ℤ))

/-- The two-pointer loop `while i < n1 and j < n2` of `merge`.  State is
`(arr, i, j, k)`; fuel `n1 + n2` bounds the iteration count since `i + j`
grows each step. -/
def mergeLoop (L R : List α) : ℕ → List α → ℕ → ℕ → ℤ → List α × ℕ × ℕ × ℤ
  | 0, arr, i, j, k => (arr, i, j, k)
  | f + 1, arr, i, j, k =>
    if i < L.length ∧ j < R.length then
      if L.getD i default ≤ R.getD j default then
        mergeLoop L R f (pySet arr k (L.getD i default)) (i + 1) j (k + 1)
      else
        mergeLoop L R f (pySet arr k (R.getD j default)) i (j + 1) (k + 1)
    else (arr, i, j, k)

/-- A drain loop `while i < n1: arr[k] = L[i]; i += 1; k += 1`: copies the
`cnt = n1 - i` remaining entries of `src` from position `i` to `arr` at `k`. -/
def drainLoop (src : List α) : ℕ → List α → ℕ → ℤ → List α
  | 0, arr, _, _ => arr
  | c + 1, arr, i, k => drainLoop src c (pySet arr k (src.getD i default)) (i + 1) (k + 1)

/-- `merge(arr, left, mid, right)` of `src/margeSort.py`: stable two-pointer
merge of the segments `[left, mid]` and `[mid+1, right]`. -/
def merge (arr : List α) (left mid right : ℤ) : List α :=
  let n1 := (mid - left + 1).toNat
  let n2 := (right - mid).toNat
  let L := copySeg arr left n1
  let R := copySeg arr (mid + 1) n2
  let m := mergeLoop L R (n1 + n2) arr 0 0 left
  let a1 := drainLoop L (n1 - m.2.1) m.1 m.2.1 m.2.2.2
  drainLoop R (n2 - m.2.2.1) a1 m.2.2.1 (m.2.2.2 + (n1 - m.2.1 : ℕ))

/-- `mergeSort(arr, left, right)` with fuel bounded by the range size.
`(left + right) // 2` is Python floor division, `Int.fdiv`. -/
def mergeSortF : ℕ → List α → ℤ → ℤ → List α
  | 0, arr, _, _ => arr
  | f + 1, arr, left, right =>
    if left < right then
      let mid := Int.fdiv (left + right) 2
      let a1 := mergeSortF f arr left mid
      let a2 := mergeSortF f a1 (mid + 1) right
      merge a2 left mid right
    else arr

/-- `mergeSort(arr, left, right)` of `src/margeSort.py`. -/
def mergeSort (arr : List α) (left right : ℤ) : List α :=
  mergeSortF (right - left + 1).toNat arr left right

/-! ## `src/bucketSort.py` -/

/-- The inner `while j >= 0 and bucket[j] > key` loop of `insertion_sort`.
The counter `jj` mirrors `j + 1` (so `jj = 0` is the exit `j = -1`); returns
the list after the shifts together with the placement index `j + 1`. -/
def insLoop (key : α) : List α → ℕ → List α × ℕ
  | b, 0 => (b, 0)
  | b, t + 1 =>
    if b.getD t default > key then
      insLoop key ((b.set (t + 1) (b.getD t default))) t
    else (b, t + 1)

/-- The outer `for i in range(1, len(bucket))` loop of `insertion_sort`;
`c` counts remaining iterations, `i` is the loop variable. -/
def insOuter : ℕ → ℕ → List α → List α
  | 0, _, b => b
  | c + 1, i, b =>
    let key := b.getD i default
    let p := insLoop key b i
    insOuter c (i + 1) (p.1.set p.2 key)

/-- `insertion_sort(bucket)` of `src/bucketSort.py`. -/
def insertion_sort (b : List α) : List α :=
  insOuter (b.length - 1) 1 b

end Engines

/-- The bucket index `min(int(n * val), n - 1)` of `src/bucketSort.py`. -/
def bucketIndex (n : ℕ) (v : ℚ) : ℤ :=
  min (pyInt (n * v)) ((n : ℤ) - 1)

/-- The scatter loop `for val in arr: bi = min(int(n * val), n - 1);
buckets[bi].append(val)`.  `buckets[bi]` raises `IndexError` (modelled as
`none`) when `bi` falls outside `[-n, n)`; otherwise a negative `bi` wraps
around, exactly as in Python. -/
def scatterLoop (n : ℕ) : List ℚ → List (List ℚ) → Option (List (List ℚ))
  | [], buckets => some buckets
  | v :: rest, buckets =>
    let bi := pyIdx buckets.length (bucketIndex n v)
    if 0 ≤ bi ∧ bi < (buckets.length : ℤ) then
      scatterLoop n rest (buckets.set bi.toNat ((buckets.getD bi.toNat []) ++ [v]))
    else none

/-- The write-back of one bucket: `for val in bucket: arr[index] = val;
index += 1`. -/
def gatherOne (arr : List ℚ) (idx : ℕ) : List ℚ → List ℚ × ℕ
  | [] => (arr, idx)
  | v :: vs => gatherOne (arr.set idx v) (idx + 1) vs

/-- The concatenation loop `for bucket in buckets: for val in bucket: ...`
of `bucket_sort`. -/
def gatherAll (arr : List ℚ) (idx : ℕ) : List (List ℚ) → List ℚ
  | [] => arr
  | b :: bs =>
    let p := gatherOne arr idx b
    gatherAll p.1 p.2 bs

/-- `bucket_sort(arr)` of `src/bucketSort.py`.  `none` models the
`IndexError` Python raises when a (sufficiently far out-of-domain) value
produces a bucket index outside `[-n, n)`. -/
def bucket_sort (arr : List ℚ) : Option (List ℚ) :=
  let n := arr.length
  match scatterLoop n arr (List.replicate n []) with
  | none => none
  | some buckets => some (gatherAll arr 0 (buckets.map insertion_sort))

/-! ## Proof-side functional models (derived, not diffed against source) -/

section Models

variable {α : Type} [Inhabited α] [Preorder α]
variable [DecidableRel ((· ≤ ·) : α → α → Prop)]
variable [DecidableRel ((· < ·) : α → α → Prop)]

/-- Writing the values `vs` into consecutive positions of `arr` starting at
`idx` (the list-level meaning of the index-walking write loops). -/
def setSeq (arr : List α) (idx : ℕ) : List α → List α
  | [] => arr
  | v :: vs => setSeq (arr.set idx v) (idx + 1) vs

/-- The `largest` index computed by one pass of `heapify`'s body (the two
child comparisons of the source). -/
def heapLargest (arr : List α) (n i : ℕ) : ℕ :=
  let l := 2 * i + 1
  let r := 2 * i + 2
  let largest := i
  let largest := if l < n ∧ arr.getD l default > arr.getD largest default then l else largest
  if r < n ∧ arr.getD r default > arr.getD largest default then r else largest

/-- The value-level recursion computed by the in-place `mergeSort` on a
segment: split after `(len - 1) / 2 + 1` elements (the size of
`[left, (left+right)//2]`), sort both halves, merge with the
left-biased `≤` test. -/
def SegSort (s : List α) : List α :=
  if s.length ≤ 1 then s
  else
    let h2 := (s.length - 1) / 2 + 1
    List.merge (SegSort (s.take h2)) (SegSort (s.drop h2)) fun a b => decide (a ≤ b)
termination_by s.length
decreasing_by
  · simp only [List.length_take]
    omega
  · simp only [List.length_drop]
    omega

end Models

/-- Descendant relation in the implicit binary heap: `Desc i m` holds when
`m` lies in the subtree rooted at `i` (children `2j+1`, `2j+2`). -/
inductive Desc : ℕ → ℕ → Prop where
  | refl (i : ℕ) : Desc i i
  | left {i m : ℕ} : Desc i m → Desc i (2 * m + 1)
  | right {i m : ℕ} : Desc i m → Desc i (2 * m + 2)

/-- The local max-heap property of node `j` in the heap prefix of size `n`. -/
def LocalHeapAt {α : Type} [Inhabited α] [Preorder α] (l : List α) (n j : ℕ) : Prop :=
  (2 * j + 1 < n → l.getD (2 * j + 1) default ≤ l.getD j default) ∧
  (2 * j + 2 < n → l.getD (2 * j + 2) default ≤ l.getD j default)

/-! ## `src/quicksort_animation.py` — the quicksort step recorder -/

/-- One event of the quicksort recorder.  Each carries the snapshot
`data[:]` that `push` stores; the presentation-only `msg` strings are
omitted.  `sortedSet` models the Python `set` `sorted_set.copy()`. -/
inductive QSEvent (α : Type) where
  | pivot (dataSnap : List α) (lo hi pividx : ℤ)
  | compare (dataSnap : List α) (lo hi pividx j : ℤ)
  | swap (dataSnap : List α) (lo hi pividx a b : ℤ)
  | sortedIdx (dataSnap : List α) (lo hi idx : ℤ) (sortedSet : Finset ℤ)
  | done (dataSnap : List α) (sortedSet : Finset ℤ)
deriving DecidableEq

/-- The recorder's state: the caller's list object `original` (never
written — the source's only assignment to it would be aliasing, and
`data = original[:]` copies), the working copy `data`, the growing
`sorted_set` and the event log. -/
structure QSState (α : Type) where
  original : List α
  data : List α
  sset : Finset ℤ
  events : List (QSEvent α)

/-- `push(kind, **kw)` of the quicksort recorder. -/
def qsPush {α : Type} (st : QSState α) (e : QSEvent α) : QSState α :=
  { st with events := st.events ++ [e] }

section QSRec

variable {α : Type} [Inhabited α] [Preorder α]
variable [DecidableRel ((· ≤ ·) : α → α → Prop)]
variable [DecidableRel ((· < ·) : α → α → Prop)]

/-- The `for j in range(lo, hi)` scan of the recorder's `partition`: pushes
a `compare` for every `j` and, when `data[j] < pivot` and the incremented
`i` differs from `j`, a `swap` event followed by the actual swap. -/
def qsPartLoop (pivot : α) (lo hi : ℤ) : ℕ → QSState α → ℤ → ℤ → QSState α × ℤ
  | 0, st, i, _ => (st, i)
  | k + 1, st, i, j =>
    let st1 := qsPush st (QSEvent.compare st.data lo hi hi j)
    if pyGet st1.data j < pivot then
      if i + 1 ≠ j then
        let st2 := qsPush st1 (QSEvent.swap st1.data lo hi hi (i + 1) j)
        qsPartLoop pivot lo hi k { st2 with data := swap st2.data (i + 1) j } (i + 1) (j + 1)
      else
        qsPartLoop pivot lo hi k st1 (i + 1) (j + 1)
    else
      qsPartLoop pivot lo hi k st1 i (j + 1)

/-- `partition(lo, hi)` of the quicksort recorder. -/
def qsPartition (st : QSState α) (lo hi : ℤ) : QSState α × ℤ :=
  let pivot := pyGet st.data hi
  let st0 := qsPush st (QSEvent.pivot st.data lo hi hi)
  let p := qsPartLoop pivot lo hi (hi - lo).toNat st0 (lo - 1) lo
  let pi := p.2 + 1
  let st2 :=
    if pi ≠ hi then
      let stp := qsPush p.1 (QSEvent.swap p.1.data lo hi hi pi hi)
      { stp with data := swap stp.data pi hi }
    else p.1
  let st3 := { st2 with sset := insert pi st2.sset }
  (qsPush st3 (QSEvent.sortedIdx st3.data lo hi pi st3.sset), pi)

/-- `qs(lo, hi)` of the quicksort recorder, with the same range-size fuel
as `quickSortF`. -/
def qsRun : ℕ → QSState α → ℤ → ℤ → QSState α
  | 0, st, _, _ => st
  | f + 1, st, lo, hi =>
    if lo < hi then
      let p := qsPartition st lo hi
      qsRun f (qsRun f p.1 lo (p.2 - 1)) (p.2 + 1) hi
    else if lo = hi then
      let st1 := { st with sset := insert lo st.sset }
      qsPush st1 (QSEvent.sortedIdx st1.data lo hi lo st1.sset)
    else st

end QSRec

namespace QSAnim

/-- `record_events(original)` of `src/quicksort_animation.py`:
`data = original[:]`, run the instrumented quicksort, push `done`. -/
def record_events {α : Type} [Inhabited α] [Preorder α]
    [DecidableRel ((· ≤ ·) : α → α → Prop)] [DecidableRel ((· < ·) : α → α → Prop)]
    (original : List α) : QSState α :=
  let st0 : QSState α := ⟨original, original, ∅, []⟩
  let hi : ℤ := (original.length : ℤ) - 1
  let st1 := qsRun (hi - 0 + 1).toNat st0 0 hi
  qsPush st1 (QSEvent.done st1.data st1.sset)

end QSAnim

/-- Replaying one quicksort-recorder event onto an array: only `swap`
records mutate (`data[a], data[b] = data[b], data[a]`). -/
def qsReplayStep {α : Type} [Inhabited α] (c : List α) : QSEvent α → List α
  | QSEvent.swap _ _ _ _ a b => swap c a b
  | _ => c

/-- Replaying a quicksort-recorder event log onto a copy of the input. -/
def qsReplay {α : Type} [Inhabited α] (c : List α) (evts : List (QSEvent α)) : List α :=
  evts.foldl qsReplayStep c

/-! ## `src/heapsort_animation.py` — the heapsort step recorder -/

/-- One event of the heapsort recorder (snapshots `arr[:]` kept, `msg`
omitted).  In `compare`, `l`/`r` are `-1` when the child is outside the
heap, as in the source. -/
inductive HSEvent (α : Type) where
  | phase (arrSnap : List α) (extractPhase : Bool)
  | startHeapify (arrSnap : List α) (n i : ℕ)
  | compare (arrSnap : List α) (n i : ℕ) (l r : ℤ) (largest : ℕ)
  | largestFound (arrSnap : List α) (n i largest : ℕ)
  | swap (arrSnap : List α) (n a b : ℕ)
  | afterSwap (arrSnap : List α) (n a b : ℕ)
  | heapifyDone (arrSnap : List α) (n i : ℕ)
  | heapReady (arrSnap : List α)
  | extract (arrSnap : List α) (n idx : ℕ)
  | afterExtract (arrSnap : List α) (n idx : ℕ)
  | done (arrSnap : List α)
deriving DecidableEq

/-- Heapsort recorder state: caller's object `original` (the source never
writes it; `arr = original[:]`), the working copy `arr`, the event log. -/
structure HSState (α : Type) where
  original : List α
  arr : List α
  events : List (HSEvent α)

/-- `push(kind, **kw)` of the heapsort recorder. -/
def hsPush {α : Type} (st : HSState α) (e : HSEvent α) : HSState α :=
  { st with events := st.events ++ [e] }

section HSRec

variable {α : Type} [Inhabited α] [Preorder α]
variable [DecidableRel ((· ≤ ·) : α → α → Prop)]
variable [DecidableRel ((· < ·) : α → α → Prop)]

/-- The `while True` loop of the recorder's `heapify` (same fuel scheme as
`heapifyF`: depth is bounded by `n`). -/
def hsHeapifyF : ℕ → HSState α → ℕ → ℕ → HSState α
  | 0, st, _, _ => st
  | f + 1, st, n, i =>
    let l := 2 * i + 1
    let r := 2 * i + 2
    let st1 := hsPush st
      (HSEvent.compare st.arr n i (if l < n then (l : ℤ) else -1) (if r < n then (r : ℤ) else -1) i)
    let largest := i
    let largest := if l < n ∧ st1.arr.getD l default > st1.arr.getD largest default then l else largest
    let largest := if r < n ∧ st1.arr.getD r default > st1.arr.getD largest default then r else largest
    let st2 := hsPush st1 (HSEvent.largestFound st1.arr n i largest)
    if largest ≠ i then
      let st3 := hsPush st2 (HSEvent.swap st2.arr n i largest)
      let st4 := { st3 with arr := natSwap st3.arr i largest }
      let st5 := hsPush st4 (HSEvent.afterSwap st4.arr n i largest)
      hsHeapifyF f st5 n largest
    else
      hsPush st2 (HSEvent.heapifyDone st2.arr n i)

/-- Build phase `for i in range(n // 2 - 1, -1, -1)` of the recorder, with
its `start_heapify` pushes. -/
def hsBuild (n : ℕ) : ℕ → HSState α → HSState α
  | 0, st => st
  | k + 1, st =>
    let st1 := hsPush st (HSEvent.startHeapify st.arr n k)
    hsBuild n k (hsHeapifyF n st1 n k)

/-- Extract phase `for size in range(n - 1, 0, -1)` of the recorder: the
counter value is `size`; note the mutation after the `extract` push is a
swap of positions `0` and `size`, and `heapify` is guarded by `size > 1`. -/
def hsExtract : ℕ → HSState α → HSState α
  | 0, st => st
  | s + 1, st =>
    let st1 := hsPush st (HSEvent.extract st.arr (s + 2) (s + 1))
    let st2 := { st1 with arr := natSwap st1.arr 0 (s + 1) }
    let st3 := hsPush st2 (HSEvent.afterExtract st2.arr (s + 1) (s + 1))
    let st4 := if 1 < s + 1 then hsHeapifyF (s + 1) st3 (s + 1) 0 else st3
    hsExtract s st4

end HSRec

namespace HSAnim

/-- `record_events(original)` of `src/heapsort_animation.py`. -/
def record_events {α : Type} [Inhabited α] [Preorder α]
    [DecidableRel ((· ≤ ·) : α → α → Prop)] [DecidableRel ((· < ·) : α → α → Prop)]
    (original : List α) : HSState α :=
  let st0 : HSState α := ⟨original, original, []⟩
  let n := original.length
  let st1 := hsPush st0 (HSEvent.phase st0.arr false)
  let st2 := hsBuild n (n / 2) st1
  let st3 := hsPush st2 (HSEvent.heapReady st2.arr)
  let st4 := hsPush st3 (HSEvent.phase st3.arr true)
  let st5 := hsExtract (n - 1) st4
  hsPush st5 (HSEvent.done st5.arr)

end HSAnim

/-- Replay step for the heapsort log under the claim's reading: only `swap`
records are applied. -/
def hsReplaySwapStep {α : Type} [Inhabited α] (c : List α) : HSEvent α → List α
  | HSEvent.swap _ _ a b => natSwap c a b
  | _ => c

/-- Replay of only the `swap` records of a heapsort log. -/
def hsReplaySwapOnly {α : Type} [Inhabited α] (c : List α) (evts : List (HSEvent α)) : List α :=
  evts.foldl hsReplaySwapStep c

/-- Replay step for the heapsort log including the `extract` records, whose
mutation is the swap `arr[0], arr[size] = arr[size], arr[0]` of position `0`
with the recorded `idx`. -/
def hsReplayStep {α : Type} [Inhabited α] (c : List α) : HSEvent α → List α
  | HSEvent.swap _ _ a b => natSwap c a b
  | HSEvent.extract _ _ idx => natSwap c 0 idx
  | _ => c

/-- Replay of all mutation-bearing (`swap` and `extract`) records of a
heapsort log. -/
def hsReplay {α : Type} [Inhabited α] (c : List α) (evts : List (HSEvent α)) : List α :=
  evts.foldl hsReplayStep c

/-! ## `src/bucketsort_animation.py` — the bucket sort step recorder -/

/-- One event of the bucket sort recorder (no array snapshots in the
source's `push`; `msg` omitted).  `oi` fields are original indices into the
input — the stable identity of §4.2 of the spec. -/
inductive BSEvent where
  | scatter (oi : ℕ) (val : ℚ) (bi : ℤ)
  | bucketDone (bi : ℕ)
  | isortStart (bi count : ℕ)
  | isortKey (bi slot oi : ℕ)
  | isortCompare (bi slotj oij keyOi : ℕ) (key cmpv : ℚ)
  | isortShift (bi fromSlot toSlot oi : ℕ)
  | isortPlace (bi slot oi : ℕ)
  | gatherStart
  | gather (bi slot oi dest : ℕ)
  | done
deriving DecidableEq

/-- Bucket recorder state: the caller's list (read everywhere, written
nowhere) and the per-bucket lists of original indices. -/
structure BSState where
  caller : List ℚ
  buckets : List (List ℕ)
  events : List BSEvent

/-- `push(kind, **kw)` of the bucket sort recorder. -/
def bsPush (st : BSState) (e : BSEvent) : BSState :=
  { st with events := st.events ++ [e] }

/-- The scatter loop `for oi, val in enumerate(arr)` of the recorder, with
the same `IndexError`-as-`none` modelling as `scatterLoop`. -/
def bsScatter (n : ℕ) : List ℚ → ℕ → BSState → Option BSState
  | [], _, st => some st
  | v :: rest, oi, st =>
    let bi := bucketIndex n v
    let biw := pyIdx st.buckets.length bi
    if 0 ≤ biw ∧ biw < (st.buckets.length : ℤ) then
      let st1 := bsPush st (BSEvent.scatter oi v bi)
      bsScatter n rest (oi + 1)
        { st1 with buckets := st1.buckets.set biw.toNat ((st1.buckets.getD biw.toNat []) ++ [oi]) }
    else none

/-- The recorder's inner `while j >= 0 and vals[j] > key` loop: `vals` and
`bucket` are shifted in lockstep; the counter mirrors `j + 1`.  Returns
`(vals, bucket, j + 1, events)`. -/
def bsInsLoop (key : ℚ) (keyOi bi : ℕ) :
    List ℚ → List ℕ → ℕ → List BSEvent → List ℚ × List ℕ × ℕ × List BSEvent
  | vals, bucket, 0, evts => (vals, bucket, 0, evts)
  | vals, bucket, t + 1, evts =>
    if vals.getD t 0 > key then
      let evts1 := evts ++ [BSEvent.isortCompare bi t (bucket.getD t 0) keyOi key (vals.getD t 0)]
      let vals1 := vals.set (t + 1) (vals.getD t 0)
      let bucket1 := bucket.set (t + 1) (bucket.getD t 0)
      let evts2 := evts1 ++ [BSEvent.isortShift bi t (t + 1) (bucket1.getD (t + 1) 0)]
      bsInsLoop key keyOi bi vals1 bucket1 t evts2
    else (vals, bucket, t + 1, evts)

/-- The recorder's outer `for i in range(1, len(vals))` loop. -/
def bsInsOuter (bi : ℕ) : ℕ → ℕ → List ℚ → List ℕ → List BSEvent → List ℚ × List ℕ × List BSEvent
  | 0, _, vals, bucket, evts => (vals, bucket, evts)
  | c + 1, i, vals, bucket, evts =>
    let key := vals.getD i 0
    let keyOi := bucket.getD i 0
    let evts1 := evts ++ [BSEvent.isortKey bi i keyOi]
    let q := bsInsLoop key keyOi bi vals bucket i evts1
    bsInsOuter bi c (i + 1) (q.1.set q.2.2.1 key) (q.2.1.set q.2.2.1 keyOi)
      (q.2.2.2 ++ [BSEvent.isortPlace bi q.2.2.1 keyOi])

/-- Processing of one bucket in the recorder's insertion-sort phase. -/
def bsIsortBucket (arr : List ℚ) (bi : ℕ) (bucket : List ℕ) (evts : List BSEvent) :
    List ℕ × List BSEvent :=
  let vals := bucket.map fun oi => arr.getD oi 0
  if bucket.length ≤ 1 then
    if bucket.length = 1 then (bucket, evts ++ [BSEvent.bucketDone bi]) else (bucket, evts)
  else
    let evts1 := evts ++ [BSEvent.isortStart bi bucket.length]
    let q := bsInsOuter bi (vals.length - 1) 1 vals bucket evts1
    (q.2.1, q.2.2 ++ [BSEvent.bucketDone bi])

/-- `for bi, bucket in enumerate(buckets)` of the recorder's insertion-sort
phase; `k` counts the buckets not yet processed. -/
def bsIsortAll (arr : List ℚ) : ℕ → ℕ → BSState → BSState
  | 0, _, st => st
  | k + 1, bi, st =>
    let p := bsIsortBucket arr bi (st.buckets.getD bi []) st.events
    bsIsortAll arr k (bi + 1) { st with buckets := st.buckets.set bi p.1, events := p.2 }

/-- `for slot, oi in enumerate(bucket)` of the recorder's gather phase. -/
def bsGatherOne (bi : ℕ) : List ℕ → ℕ → ℕ → List BSEvent → ℕ × List BSEvent
  | [], _, dest, evts => (dest, evts)
  | oi :: rest, slot, dest, evts =>
    bsGatherOne bi rest (slot + 1) (dest + 1) (evts ++ [BSEvent.gather bi slot oi dest])

/-- `for bi, bucket in enumerate(buckets)` of the recorder's gather phase. -/
def bsGatherAll : List (List ℕ) → ℕ → ℕ → List BSEvent → ℕ × List BSEvent
  | [], _, dest, evts => (dest, evts)
  | b :: bs, bi, dest, evts =>
    let p := bsGatherOne bi b 0 dest evts
    bsGatherAll bs (bi + 1) p.1 p.2

namespace BSAnim

/-- `record_events(arr)` of `src/bucketsort_animation.py`; returns the
final state (the source returns `(evts, buckets)`), `none` modelling the
`IndexError` of an out-of-range bucket index. -/
def record_events (arr : List ℚ) : Option BSState :=
  let n := arr.length
  match bsScatter n arr 0 ⟨arr, List.replicate n [], []⟩ with
  | none => none
  | some st =>
    let st1 := bsIsortAll arr n 0 st
    let st2 := bsPush st1 BSEvent.gatherStart
    let p := bsGatherAll st2.buckets 0 0 st2.events
    some { st2 with events := p.2 ++ [BSEvent.done] }

end BSAnim

/-- Replay step for the bucket-sort log: the array mutations are the
`gather` records `arr[dest] = <value of original index oi>`; the values are
read from the (immutable) original input, which is what the `oi` identity
of the records denotes.  `isort_shift`/`isort_place` records describe
bucket-internal slots and carry no array position, so they leave the array
unchanged. -/
def bsReplayStep (orig : List ℚ) (c : List ℚ) : BSEvent → List ℚ
  | BSEvent.gather _ _ oi dest => c.set dest (orig.getD oi 0)
  | _ => c

/-- Replay of a bucket-sort event log onto a copy `c` of the original. -/
def bsReplay (orig c : List ℚ) (evts : List BSEvent) : List ℚ :=
  evts.foldl (bsReplayStep orig) c

/-- Keyed values: pairs compared by `val` only, with `idx` the original
position — the `(value, original_index)` pairs of the stability property. -/
structure Keyed where
  val : ℕ
  idx : ℕ
deriving DecidableEq

instance : Inhabited Keyed := ⟨⟨0, 0⟩⟩

instance : Preorder Keyed where
  le a b := a.val ≤ b.val
  lt a b := a.val < b.val
  le_refl a := Nat.le_refl a.val
  le_trans _ _ _ := Nat.le_trans
  lt_iff_le_not_le _ _ := Nat.lt_iff_le_not_le

instance : DecidableRel ((· ≤ ·) : Keyed → Keyed → Prop) :=
  fun a b => inferInstanceAs (Decidable (a.val ≤ b.val))

instance : DecidableRel ((· < ·) : Keyed → Keyed → Prop) :=
  fun a b => inferInstanceAs (Decidable (a.val < b.val))

end AlgoAnalysis

namespace AlgoAnalysis

-- sanity checks (spec §8 concrete scenarios)
example : quickSort [(5 : ℤ), 3, 8, 4, 2] 0 4 = [2, 3, 4, 5, 8] := by decide
example : heapSort [(5 : ℤ), 3, 8, 4, 2] = [2, 3, 4, 5, 8] := by decide
example : mergeSort [(5 : ℤ), 3, 8, 4, 2] 0 4 = [2, 3, 4, 5, 8] := by decide
example : quickSort ([] : List ℤ) 0 (-1) = [] := by decide
example : heapSort ([] : List ℤ) = [] := by decide
-- bucket examples appear with the claims (Rat does not kernel-reduce)

/-! ## Basic lemmas on the indexing primitives -/

section Basic

variable {α : Type} [Inhabited α]

theorem getD_eq_getElem {l : List α} {k : ℕ} (h : k < l.length) (d : α) : l.getD k d = l[k] := by
  simp [List.getD_eq_getElem?_getD, List.getElem?_eq_getElem h]

theorem getD_set_self {l : List α} {i : ℕ} (h : i < l.length) (v d : α) :
    (l.set i v).getD i d = v := by
  simp [List.getD_eq_getElem?_getD, List.getElem?_set_self h]

theorem getD_set_ne {l : List α} {i j : ℕ} (h : i ≠ j) (v d : α) :
    (l.set i v).getD j d = l.getD j d := by
  simp [List.getD_eq_getElem?_getD, List.getElem?_set_ne h]

theorem set_getD_self {l : List α} {i : ℕ} (d : α) : l.set i (l.getD i d) = l := by
  rcases Nat.lt_or_ge i l.length with h | h
  · refine List.ext_getElem (by simp) fun n h1 h2 => ?_
    rcases eq_or_ne i n with rfl | hne
    · rw [List.getElem_set_self, getD_eq_getElem h]
    · rw [List.getElem_set_ne hne]
  · rw [List.set_eq_of_length_le h]

@[simp] theorem length_natSwap (l : List α) (i j : ℕ) : (natSwap l i j).length = l.length := by
  simp [natSwap]

theorem natSwap_getD_left {l : List α} {i j : ℕ} (hi : i < l.length) (hj : j < l.length) :
    (natSwap l i j).getD i default = l.getD j default := by
  unfold natSwap
  rcases eq_or_ne i j with rfl | hne
  · rw [getD_set_self (by simpa using hi)]
  · rw [getD_set_ne (Ne.symm hne), getD_set_self hi]

theorem natSwap_getD_right {l : List α} {i j : ℕ} (hj : j < l.length) :
    (natSwap l i j).getD j default = l.getD i default := by
  unfold natSwap
  rw [getD_set_self (by simpa using hj)]

theorem natSwap_getD_other {l : List α} {i j m : ℕ} (hmi : m ≠ i) (hmj : m ≠ j) :
    (natSwap l i j).getD m default = l.getD m default := by
  unfold natSwap
  rw [getD_set_ne (Ne.symm hmj), getD_set_ne (Ne.symm hmi)]

/-- Moving the `m`-th element of `xs` to the head and `x` into its place is
a permutation of putting `x` at the head. -/
theorem cons_set_perm (d : α) :
    ∀ (xs : List α) (m : ℕ) (x : α), m < xs.length →
      (xs.getD m d :: xs.set m x).Perm (x :: xs)
  | y :: ys, 0, x, _ => by
    simpa using List.Perm.swap x y ys
  | y :: ys, m + 1, x, h => by
    have ih := cons_set_perm d ys m x (by simpa using h)
    rw [List.getD_cons_succ, List.set_cons_succ]
    exact (List.Perm.swap _ _ _).trans ((ih.cons y).trans (List.Perm.swap _ _ _))

theorem natSwap_perm :
    ∀ (l : List α) (i j : ℕ), i < l.length → j < l.length → (natSwap l i j).Perm l
  | l, i, j, hi, hj => by
    rcases eq_or_ne i j with rfl | hne
    · simp only [natSwap]
      rw [List.set_set, set_getD_self]
    · match l, i, j, hi, hj, hne with
      | x :: xs, 0, m + 1, hi, hj, _ =>
        have : natSwap (x :: xs) 0 (m + 1) = xs.getD m default :: xs.set m x := by
          simp only [natSwap, List.getD_cons_succ, List.getD_cons_zero]
          rfl
        rw [this]
        exact cons_set_perm default xs m x (by simpa using hj)
      | x :: xs, k + 1, 0, hi, hj, _ =>
        have : natSwap (x :: xs) (k + 1) 0 = xs.getD k default :: xs.set k x := by
          simp only [natSwap, List.getD_cons_succ, List.getD_cons_zero, List.set_cons_succ]
          rfl
        rw [this]
        exact cons_set_perm default xs k x (by simpa using hi)
      | x :: xs, k + 1, m + 1, hi, hj, hne =>
        have ih := natSwap_perm xs k m (by simpa using hi) (by simpa using hj)
        have : natSwap (x :: xs) (k + 1) (m + 1) = x :: natSwap xs k m := by
          simp only [natSwap, List.getD_cons_succ, List.set_cons_succ]
        rw [this]
        exact ih.cons x

theorem pyIdx_nonneg {n : ℕ} {i : ℤ} (h : 0 ≤ i) : pyIdx n i = i := by
  simp [pyIdx, not_lt.mpr h]

theorem pyGet_nonneg {l : List α} {i : ℤ} (h : 0 ≤ i) :
    pyGet l i = l.getD i.toNat default := by
  simp [pyGet, pyIdx_nonneg h]

theorem pySet_nonneg {l : List α} {i : ℤ} (h : 0 ≤ i) (v : α) :
    pySet l i v = l.set i.toNat v := by
  simp [pySet, pyIdx_nonneg h]

theorem pyGet_natCast (l : List α) (k : ℕ) : pyGet l (k : ℤ) = l.getD k default := by
  rw [pyGet_nonneg (by omega)]
  simp

theorem pySet_natCast (l : List α) (k : ℕ) (v : α) : pySet l (k : ℤ) v = l.set k v := by
  rw [pySet_nonneg (by omega)]
  simp

@[simp] theorem length_pySet (l : List α) (i : ℤ) (v : α) :
    (pySet l i v).length = l.length := by
  simp [pySet]

@[simp] theorem length_swap (l : List α) (i j : ℤ) : (swap l i j).length = l.length := by
  simp [swap]

theorem swap_eq_natSwap {l : List α} {i j : ℤ} (hi : 0 ≤ i) (hj : 0 ≤ j) :
    swap l i j = natSwap l i.toNat j.toNat := by
  simp [swap, natSwap, pyGet_nonneg, pySet_nonneg, hi, hj]

theorem pyGet_swap_left {l : List α} {i j : ℤ} (h0i : 0 ≤ i) (h0j : 0 ≤ j)
    (hi : i < (l.length : ℤ)) (hj : j < (l.length : ℤ)) :
    pyGet (swap l i j) i = pyGet l j := by
  rw [swap_eq_natSwap h0i h0j, pyGet_nonneg h0i, pyGet_nonneg h0j]
  exact natSwap_getD_left (by omega) (by omega)

theorem pyGet_swap_right {l : List α} {i j : ℤ} (h0i : 0 ≤ i) (h0j : 0 ≤ j)
    (hi : i < (l.length : ℤ)) (hj : j < (l.length : ℤ)) :
    pyGet (swap l i j) j = pyGet l i := by
  rw [swap_eq_natSwap h0i h0j, pyGet_nonneg h0i, pyGet_nonneg h0j]
  exact natSwap_getD_right (by omega)

theorem pyGet_swap_other {l : List α} {i j m : ℤ} (h0i : 0 ≤ i) (h0j : 0 ≤ j) (h0m : 0 ≤ m)
    (hmi : m ≠ i) (hmj : m ≠ j) :
    pyGet (swap l i j) m = pyGet l m := by
  rw [swap_eq_natSwap h0i h0j, pyGet_nonneg h0m, pyGet_nonneg h0m]
  exact natSwap_getD_other (by omega) (by omega)

theorem swap_perm {l : List α} {i j : ℤ} (h0i : 0 ≤ i) (h0j : 0 ≤ j)
    (hi : i < (l.length : ℤ)) (hj : j < (l.length : ℤ)) :
    (swap l i j).Perm l := by
  rw [swap_eq_natSwap h0i h0j]
  exact natSwap_perm l i.toNat j.toNat (by omega) (by omega)

/-- If `l'` is a permutation of `l` agreeing with it outside the index
window `[a, a+b)`, then the windows hold the same multiset of values, so any
property of all values in the window of `l` transfers to `l'`. -/
theorem perm_frame_transfer {l l' : List α} {a b : ℕ}
    (hlen : l'.length = l.length) (hperm : l'.Perm l)
    (hframe : ∀ m : ℕ, m < l.length → (m < a ∨ a + b ≤ m) →
      l'.getD m default = l.getD m default)
    {P : α → Prop}
    (hP : ∀ m, a ≤ m → m < a + b → m < l.length → P (l.getD m default)) :
    ∀ m, a ≤ m → m < a + b → m < l.length → P (l'.getD m default) := by
  have htake : l'.take a = l.take a := by
    refine List.ext_getElem (by simp [hlen]) fun n h1 h2 => ?_
    rw [List.getElem_take, List.getElem_take]
    have hn : n < l.length := by
      have := h2
      simp [List.length_take] at this
      omega
    have := hframe n hn (Or.inl (by
      have := h1
      simp [List.length_take] at this
      omega))
    rwa [getD_eq_getElem (by omega), getD_eq_getElem hn] at this
  have hdrop : l'.drop (a + b) = l.drop (a + b) := by
    refine List.ext_getElem (by simp [hlen]) fun n h1 h2 => ?_
    rw [List.getElem_drop, List.getElem_drop]
    have hn : a + b + n < l.length := by
      have := h2
      simp [List.length_drop] at this
      omega
    have := hframe (a + b + n) hn (Or.inr (by omega))
    rwa [getD_eq_getElem (by omega), getD_eq_getElem hn] at this
  have hdec : ∀ (t : List α), t = t.take a ++ ((t.drop a).take b ++ t.drop (a + b)) := by
    intro t
    have h1 : (t.drop a).take b ++ t.drop (a + b) = t.drop a := by
      rw [← List.drop_drop]
      exact List.take_append_drop b (t.drop a)
    rw [h1, List.take_append_drop]
  have hms : (((l'.drop a).take b : List α) : Multiset α) = ((l.drop a).take b : List α) := by
    have h1 : (l' : Multiset α) = (l : Multiset α) := Multiset.coe_eq_coe.mpr hperm
    rw [hdec l', hdec l, htake, hdrop] at h1
    simp only [← Multiset.coe_add] at h1
    have h2 := add_left_cancel h1
    exact add_right_cancel h2
  intro m ham hmb hml
  have hma : m - a < ((l'.drop a).take b).length := by
    simp [List.length_take, List.length_drop]
    omega
  have hseg : l'.getD m default = ((l'.drop a).take b)[m - a] := by
    rw [List.getElem_take, List.getElem_drop, getD_eq_getElem (by omega)]
    congr 1
    omega
  have hmem : l'.getD m default ∈ ((l.drop a).take b : List α) := by
    rw [hseg]
    have : ((l'.drop a).take b)[m - a] ∈ ((l'.drop a).take b : List α) :=
      List.getElem_mem _
    rw [← Multiset.mem_coe, hms] at this
    simpa using this
  obtain ⟨t, ht, hv⟩ := List.mem_iff_getElem.mp hmem
  have htb : t < b := by
    have := ht
    simp [List.length_take, List.length_drop] at this
    omega
  have htl : a + t < l.length := by
    have := ht
    simp [List.length_take, List.length_drop] at this
    omega
  have : ((l.drop a).take b)[t] = l.getD (a + t) default := by
    rw [List.getElem_take, List.getElem_drop, getD_eq_getElem htl]
  rw [← hv, this]
  exact hP (a + t) (by omega) (by omega) htl

end Basic

/-- ℤ-window version of `perm_frame_transfer`, phrased with `pyGet`. -/
theorem perm_frame_transfer_int {α : Type} [Inhabited α] {l l' : List α} {lo hi : ℤ}
    (hlen : l'.length = l.length) (hperm : l'.Perm l)
    (hframe : ∀ m : ℤ, 0 ≤ m → m < (l.length : ℤ) → (m < lo ∨ hi < m) →
      pyGet l' m = pyGet l m)
    (h0 : 0 ≤ lo)
    {P : α → Prop}
    (hP : ∀ m : ℤ, lo ≤ m → m ≤ hi → m < (l.length : ℤ) → P (pyGet l m)) :
    ∀ m : ℤ, lo ≤ m → m ≤ hi → m < (l.length : ℤ) → P (pyGet l' m) := by
  intro m hm1 hm2 hm3
  have key := @perm_frame_transfer α _ l l' lo.toNat (hi - lo + 1).toNat
    hlen hperm ?frame P ?vals m.toNat (by omega) (by omega) (by omega)
  · rw [pyGet_nonneg (by omega)]
    exact key
  case frame =>
    intro n hn hside
    have := hframe (n : ℤ) (by omega) (by omega) (by omega)
    rwa [pyGet_nonneg (by omega), pyGet_nonneg (by omega), Int.toNat_natCast] at this
  case vals =>
    intro n hn1 hn2 hn3
    have := hP (n : ℤ) (by omega) (by omega) (by omega)
    rwa [pyGet_nonneg (by omega), Int.toNat_natCast] at this

section QuickProof

variable {α : Type} [Inhabited α] [Preorder α]
variable [DecidableRel ((· ≤ ·) : α → α → Prop)]
variable [DecidableRel ((· < ·) : α → α → Prop)]

/-- Invariants of the Lomuto scan: elements of `[lo, i]` are `< pivot`,
elements of `(i, j)` are not, everything outside `[lo, hi)` is untouched,
and the result is a permutation. -/
theorem partitionLoop_spec (pivot : α) (lo hi : ℤ) :
    ∀ (k : ℕ) (arr : List α) (i j : ℤ),
      0 ≤ lo → lo - 1 ≤ i → i < j → lo ≤ j → j + k = hi → hi < (arr.length : ℤ) →
      (∀ m, lo ≤ m → m ≤ i → pyGet arr m < pivot) →
      (∀ m, i < m → m < j → ¬ pyGet arr m < pivot) →
      (partitionLoop pivot k arr i j).1.length = arr.length ∧
      (partitionLoop pivot k arr i j).1.Perm arr ∧
      (∀ m : ℤ, 0 ≤ m → (m < lo ∨ hi ≤ m) →
        pyGet (partitionLoop pivot k arr i j).1 m = pyGet arr m) ∧
      lo - 1 ≤ (partitionLoop pivot k arr i j).2 ∧
      (partitionLoop pivot k arr i j).2 < hi ∧
      (∀ m, lo ≤ m → m ≤ (partitionLoop pivot k arr i j).2 →
        pyGet (partitionLoop pivot k arr i j).1 m < pivot) ∧
      (∀ m, (partitionLoop pivot k arr i j).2 < m → m < hi →
        ¬ pyGet (partitionLoop pivot k arr i j).1 m < pivot) := by
  intro k
  induction k with
  | zero =>
    intro arr i j h0 hli hij hlj hjk hhi hsmall hbig
    have hj : j = hi := by omega
    have hred : partitionLoop pivot 0 arr i j = (arr, i) := rfl
    rw [hred]
    exact ⟨rfl, List.Perm.refl _, fun m _ _ => rfl, by omega, by omega,
      by simpa [hj] using hsmall, by simpa [hj] using hbig⟩
  | succ k ih =>
    intro arr i j h0 hli hij hlj hjk hhi hsmall hbig
    have hjhi : j < hi := by omega
    have h0j : 0 ≤ j := by omega
    have h0i1 : 0 ≤ i + 1 := by omega
    have hjlen : j < (arr.length : ℤ) := by omega
    have hi1len : i + 1 < (arr.length : ℤ) := by omega
    simp only [partitionLoop]
    by_cases hc : pyGet arr j < pivot
    · simp only [if_pos hc]
      set arr2 := swap arr (i + 1) j with harr2
      have hlen2 : arr2.length = arr.length := length_swap ..
      have hget_i1 : pyGet arr2 (i + 1) = pyGet arr j :=
        pyGet_swap_left h0i1 h0j hi1len hjlen
      have hget_j : pyGet arr2 j = pyGet arr (i + 1) :=
        pyGet_swap_right h0i1 h0j hi1len hjlen
      have hget_other : ∀ m : ℤ, 0 ≤ m → m ≠ i + 1 → m ≠ j → pyGet arr2 m = pyGet arr m :=
        fun m h1 h2 h3 => pyGet_swap_other h0i1 h0j h1 h2 h3
      have hsmall2 : ∀ m, lo ≤ m → m ≤ i + 1 → pyGet arr2 m < pivot := by
        intro m hm1 hm2
        rcases eq_or_ne m (i + 1) with rfl | hne
        · rwa [hget_i1]
        · have hmi : m ≤ i := by omega
          rw [hget_other m (by omega) hne (by omega)]
          exact hsmall m hm1 hmi
      have hbig2 : ∀ m, i + 1 < m → m < j + 1 → ¬ pyGet arr2 m < pivot := by
        intro m hm1 hm2
        rcases eq_or_ne m j with rfl | hne
        · rw [hget_j]
          exact hbig (i + 1) (by omega) (by omega)
        · have : i < m ∧ m < j := by omega
          rw [hget_other m (by omega) (by omega) hne]
          exact hbig m (by omega) this.2
      obtain ⟨ihlen, ihperm, ihframe, ihlb, ihub, ihsmall, ihbig⟩ :=
        ih arr2 (i + 1) (j + 1) h0 (by omega) (by omega) (by omega) (by omega)
          (by rw [hlen2]; omega) hsmall2 hbig2
      refine ⟨by rw [ihlen, hlen2], ihperm.trans (swap_perm h0i1 h0j hi1len hjlen),
        ?_, ihlb, ihub, ihsmall, ihbig⟩
      intro m hm hside
      rw [ihframe m hm hside, hget_other m hm (by omega) (by omega)]
    · simp only [if_neg hc]
      have hbig2 : ∀ m, i < m → m < j + 1 → ¬ pyGet arr m < pivot := by
        intro m hm1 hm2
        rcases eq_or_ne m j with rfl | hne
        · exact hc
        · exact hbig m hm1 (by omega)
      exact ih arr i (j + 1) h0 hli (by omega) (by omega) (by omega) hhi hsmall hbig2

/-- Specification of the Lomuto `partition`: the returned index `pi` is in
`[lo, hi]`, carries the pivot value, all of `[lo, pi)` is strictly below it,
all of `(pi, hi]` is not below it, and nothing outside `[lo, hi]` moves. -/
theorem partition_spec (arr : List α) (lo hi : ℤ)
    (h0 : 0 ≤ lo) (hlh : lo < hi) (hhi : hi < (arr.length : ℤ)) :
    (partition arr lo hi).1.length = arr.length ∧
    (partition arr lo hi).1.Perm arr ∧
    (∀ m : ℤ, 0 ≤ m → (m < lo ∨ hi < m) → pyGet (partition arr lo hi).1 m = pyGet arr m) ∧
    lo ≤ (partition arr lo hi).2 ∧ (partition arr lo hi).2 ≤ hi ∧
    (∀ m, lo ≤ m → m < (partition arr lo hi).2 →
      pyGet (partition arr lo hi).1 m < pyGet (partition arr lo hi).1 (partition arr lo hi).2) ∧
    (∀ m, (partition arr lo hi).2 < m → m ≤ hi →
      ¬ pyGet (partition arr lo hi).1 m < pyGet (partition arr lo hi).1 (partition arr lo hi).2) := by
  obtain ⟨hlen1, hperm1, hframe1, hlb, hub, hsmall, hbig⟩ :=
    partitionLoop_spec (pyGet arr hi) lo hi (hi - lo).toNat arr (lo - 1) lo
      h0 (by omega) (by omega) (by omega) (by omega) hhi
      (fun m hm1 hm2 => absurd (hm1.trans hm2) (by omega))
      (fun m hm1 hm2 => absurd (lt_trans hm1 hm2) (by omega))
  set p := partitionLoop (pyGet arr hi) (hi - lo).toNat arr (lo - 1) lo with hp
  have hpart : partition arr lo hi = (swap p.1 (p.2 + 1) hi, p.2 + 1) := rfl
  rw [hpart]
  have h0pi : 0 ≤ p.2 + 1 := by omega
  have h0hi : (0 : ℤ) ≤ hi := by omega
  have hpil : p.2 + 1 < (p.1.length : ℤ) := by rw [hlen1]; omega
  have hhil : hi < (p.1.length : ℤ) := by rw [hlen1]; omega
  have hpivot_pres : pyGet p.1 hi = pyGet arr hi := hframe1 hi h0hi (Or.inr le_rfl)
  have hget_pi : pyGet (swap p.1 (p.2 + 1) hi) (p.2 + 1) = pyGet arr hi := by
    rw [pyGet_swap_left h0pi h0hi hpil hhil, hpivot_pres]
  have hget_hi : pyGet (swap p.1 (p.2 + 1) hi) hi = pyGet p.1 (p.2 + 1) :=
    pyGet_swap_right h0pi h0hi hpil hhil
  have hget_other : ∀ m : ℤ, 0 ≤ m → m ≠ p.2 + 1 → m ≠ hi →
      pyGet (swap p.1 (p.2 + 1) hi) m = pyGet p.1 m :=
    fun m h1 h2 h3 => pyGet_swap_other h0pi h0hi h1 h2 h3
  refine ⟨by rw [length_swap, hlen1], (swap_perm h0pi h0hi hpil hhil).trans hperm1,
    ?_, by omega, by omega, ?_, ?_⟩
  · intro m hm hside
    rw [hget_other m hm (by omega) (by omega), hframe1 m hm (by omega)]
  · intro m hm1 hm2
    rw [hget_pi, hget_other m (by omega) (by omega) (by omega)]
    exact hsmall m hm1 (by omega)
  · intro m hm1 hm2
    rw [hget_pi]
    rcases eq_or_ne m hi with rfl | hne
    · rw [hget_hi]
      rcases eq_or_ne (p.2 + 1) m with heq | hne2
      · rw [heq, hpivot_pres]
        exact lt_irrefl _
      · exact hbig (p.2 + 1) (by omega) (by omega)
    · rw [hget_other m (by omega) (by omega) hne]
      exact hbig m (by omega) (by omega)

/-- Main induction for `quickSort`: with enough fuel (the range size, which
the wrapper supplies), the result is a permutation, fixes everything outside
`[lo, hi]`, and is non-decreasing on `[lo, hi]`. -/
theorem quickSortF_spec (tot : ∀ a b : α, a ≤ b ∨ b ≤ a) :
    ∀ (f : ℕ) (arr : List α) (lo hi : ℤ),
      (hi - lo + 1).toNat ≤ f → 0 ≤ lo → hi < (arr.length : ℤ) →
      (quickSortF f arr lo hi).length = arr.length ∧
      (quickSortF f arr lo hi).Perm arr ∧
      (∀ m : ℤ, 0 ≤ m → (m < lo ∨ hi < m) → pyGet (quickSortF f arr lo hi) m = pyGet arr m) ∧
      (∀ m1 m2 : ℤ, lo ≤ m1 → m1 ≤ m2 → m2 ≤ hi →
        pyGet (quickSortF f arr lo hi) m1 ≤ pyGet (quickSortF f arr lo hi) m2) := by
  intro f
  induction f with
  | zero =>
    intro arr lo hi hf h0 hhi
    have : hi < lo := by omega
    have hred : quickSortF 0 arr lo hi = arr := rfl
    rw [hred]
    exact ⟨rfl, List.Perm.refl _, fun m _ _ => rfl,
      fun m1 m2 h1 h2 h3 => absurd (le_trans h1 (le_trans h2 h3)) (by omega)⟩
  | succ f ih =>
    intro arr lo hi hf h0 hhi
    by_cases hlh : lo < hi
    · have hstep : quickSortF (f + 1) arr lo hi =
        quickSortF f (quickSortF f (partition arr lo hi).1 lo ((partition arr lo hi).2 - 1))
          ((partition arr lo hi).2 + 1) hi := by
        simp only [quickSortF, if_pos hlh]
      obtain ⟨plen, pperm, pframe, hpilo, hpihi, hsmall, hbig⟩ :=
        partition_spec arr lo hi h0 hlh hhi
      set arr1 := (partition arr lo hi).1 with harr1
      set pi := (partition arr lo hi).2 with hpi
      set pv := pyGet arr1 pi with hpv
      -- left recursive call
      obtain ⟨llen, lperm, lframe, lsorted⟩ :=
        ih arr1 lo (pi - 1) (by omega) h0 (by rw [plen]; omega)
      set arr2 := quickSortF f arr1 lo (pi - 1) with harr2
      -- right recursive call
      obtain ⟨rlen, rperm, rframe, rsorted⟩ :=
        ih arr2 (pi + 1) hi (by omega) (by omega) (by rw [llen, plen]; omega)
      set arr3 := quickSortF f arr2 (pi + 1) hi with harr3
      rw [hstep]
      have hlen3 : arr3.length = arr.length := by rw [rlen, llen, plen]
      have hlen1z : (arr1.length : ℤ) = (arr.length : ℤ) := by rw [plen]
      have hlen2z : (arr2.length : ℤ) = (arr.length : ℤ) := by rw [llen, plen]
      -- transfer of the partition bounds across the recursive permutations
      have hsmall2 : ∀ m, lo ≤ m → m ≤ pi - 1 → m < (arr1.length : ℤ) → pyGet arr2 m < pv :=
        @perm_frame_transfer_int α _ arr1 arr2 lo (pi - 1) llen lperm
          (fun m h1 _ h3 => lframe m h1 h3) h0 (fun x => x < pv)
          fun m h1 h2 _ => hsmall m h1 (by omega)
      have hpi2 : pyGet arr2 pi = pv := lframe pi (by omega) (Or.inr (by omega))
      have hsmall3 : ∀ m, lo ≤ m → m ≤ pi - 1 → pyGet arr3 m < pv := by
        intro m h1 h2
        rw [rframe m (by omega) (Or.inl (by omega))]
        exact hsmall2 m h1 h2 (by omega)
      have hpi3 : pyGet arr3 pi = pv := by
        rw [rframe pi (by omega) (Or.inl (by omega))]
        exact hpi2
      have hbig2 : ∀ m, pi + 1 ≤ m → m ≤ hi → m < (arr2.length : ℤ) → pv ≤ pyGet arr2 m := by
        have base : ∀ m, pi + 1 ≤ m → m ≤ hi → m < (arr1.length : ℤ) → pv ≤ pyGet arr1 m := by
          intro m h1 h2 _
          rcases tot pv (pyGet arr1 m) with h | h
          · exact h
          · by_contra hcon
            exact hbig m (by omega) h2 (lt_of_le_not_le h hcon)
        intro m h1 h2 h3
        rw [lframe m (by omega) (Or.inr (by omega))]
        exact base m h1 h2 (by omega)
      have hbig3 : ∀ m, pi + 1 ≤ m → m ≤ hi → m < (arr2.length : ℤ) → pv ≤ pyGet arr3 m :=
        @perm_frame_transfer_int α _ arr2 arr3 (pi + 1) hi rlen rperm
          (fun m h1 _ h3 => rframe m h1 h3) (by omega) (fun x => pv ≤ x)
          fun m h1 h2 h3 => hbig2 m h1 h2 (by omega)
      have hsort_left3 : ∀ m1 m2, lo ≤ m1 → m1 ≤ m2 → m2 ≤ pi - 1 →
          pyGet arr3 m1 ≤ pyGet arr3 m2 := by
        intro m1 m2 h1 h2 h3
        rw [rframe m1 (by omega) (Or.inl (by omega)), rframe m2 (by omega) (Or.inl (by omega))]
        exact lsorted m1 m2 h1 h2 h3
      refine ⟨hlen3, (rperm.trans lperm).trans pperm, ?_, ?_⟩
      · intro m hm hside
        rcases hside with h | h
        · rw [rframe m hm (Or.inl (by omega)), lframe m hm (Or.inl h), pframe m hm (Or.inl h)]
        · rw [rframe m hm (Or.inr h), lframe m hm (Or.inr (by omega)), pframe m hm (Or.inr h)]
      · intro m1 m2 h1 h2 h3
        rcases lt_trichotomy m1 pi with hm1 | hm1 | hm1
        · rcases lt_trichotomy m2 pi with hm2 | hm2 | hm2
          · exact hsort_left3 m1 m2 h1 h2 (by omega)
          · rw [hm2, hpi3]
            exact le_of_lt (hsmall3 m1 h1 (by omega))
          · exact le_trans (le_of_lt (hsmall3 m1 h1 (by omega)))
              (hpi3 ▸ hbig3 m2 (by omega) h3 (by omega))
        · rw [hm1, hpi3]
          rcases eq_or_lt_of_le h2 with heq | hlt
          · rw [← heq, hm1, hpi3]
          · exact hbig3 m2 (by omega) h3 (by omega)
        · exact rsorted m1 m2 (by omega) h2 h3
    · have hred : quickSortF (f + 1) arr lo hi = arr := by
        simp only [quickSortF, if_neg hlh]
      rw [hred]
      refine ⟨rfl, List.Perm.refl _, fun m _ _ => rfl, ?_⟩
      intro m1 m2 h1 h2 h3
      have : m1 = m2 := by omega
      rw [this]

/-- `quickSort(arr, 0, len(arr) - 1)` sorts: permutation plus
non-decreasing output. -/
theorem quickSort_perm_sorted (tot : ∀ a b : α, a ≤ b ∨ b ≤ a) (arr : List α) :
    (quickSort arr 0 ((arr.length : ℤ) - 1)).Perm arr ∧
    (quickSort arr 0 ((arr.length : ℤ) - 1)).Sorted (· ≤ ·) := by
  obtain ⟨hlen, hperm, _, hsort⟩ :=
    quickSortF_spec tot ((arr.length : ℤ) - 1 - 0 + 1).toNat arr 0 ((arr.length : ℤ) - 1)
      le_rfl (by omega) (by omega)
  rw [quickSort]
  refine ⟨hperm, ?_⟩
  rw [List.Sorted, List.pairwise_iff_getElem]
  intro i j hi hj hij
  have := hsort (i : ℤ) (j : ℤ) (by omega) (by omega) (by rw [hlen] at hj; omega)
  rwa [pyGet_natCast, pyGet_natCast, getD_eq_getElem hi, getD_eq_getElem hj] at this

end QuickProof

/-! ## Heapsort correctness -/

theorem Desc.le : ∀ {i m : ℕ}, Desc i m → i ≤ m := by
  intro i m h
  induction h with
  | refl => exact le_rfl
  | @left m hm ih => omega
  | @right m hm ih => omega

theorem Desc.trans : ∀ {a b c : ℕ}, Desc a b → Desc b c → Desc a c := by
  intro a b c hab hbc
  induction hbc with
  | refl => exact hab
  | @left m hm ih => exact Desc.left ih
  | @right m hm ih => exact Desc.right ih

/-- A strict descendant's parent is still in the subtree. -/
theorem Desc.parent : ∀ {a c p : ℕ}, Desc a c → (c = 2 * p + 1 ∨ c = 2 * p + 2) →
    c = a ∨ Desc a p := by
  intro a c p h
  induction h with
  | refl => intro _; exact Or.inl rfl
  | @left m hm ih =>
    intro hp
    have : p = m := by omega
    exact Or.inr (this ▸ hm)
  | @right m hm ih =>
    intro hp
    have : p = m := by omega
    exact Or.inr (this ▸ hm)

/-- Every index is a descendant of the root. -/
theorem Desc_zero (m : ℕ) : Desc 0 m := by
  induction m using Nat.strong_induction_on with
  | _ m ih =>
    match m with
    | 0 => exact Desc.refl 0
    | m + 1 =>
      have h : m + 1 = 2 * (m / 2) + 1 ∨ m + 1 = 2 * (m / 2) + 2 := by omega
      rcases h with h | h
      · rw [h]
        exact Desc.left (ih (m / 2) (by omega))
      · rw [h]
        exact Desc.right (ih (m / 2) (by omega))

section HeapProof

variable {α : Type} [Inhabited α] [Preorder α]
variable [DecidableRel ((· ≤ ·) : α → α → Prop)]
variable [DecidableRel ((· < ·) : α → α → Prop)]

/-- In a region where every node satisfies the local heap property, the root
of a subtree dominates the whole subtree. -/
theorem heap_subtree_le_root {arr : List α} {n i : ℕ}
    (hH : ∀ j, i ≤ j → LocalHeapAt arr n j) :
    ∀ m, Desc i m → m < n → arr.getD m default ≤ arr.getD i default := by
  intro m hdesc
  induction hdesc with
  | refl => intro _; exact le_rfl
  | @left m hm ih =>
    intro hlt
    have hmn : m < n := by omega
    exact le_trans ((hH m (Desc.le hm)).1 hlt) (ih hmn)
  | @right m hm ih =>
    intro hlt
    have hmn : m < n := by omega
    exact le_trans ((hH m (Desc.le hm)).2 hlt) (ih hmn)

theorem heapLargest_spec (tot : ∀ a b : α, a ≤ b ∨ b ≤ a)
    {arr : List α} {n i : ℕ} (hi : i < n) :
    i ≤ heapLargest arr n i ∧ heapLargest arr n i < n ∧
    (heapLargest arr n i = i ∨
      (heapLargest arr n i = 2 * i + 1 ∧ 2 * i + 1 < n) ∨
      (heapLargest arr n i = 2 * i + 2 ∧ 2 * i + 2 < n)) ∧
    arr.getD i default ≤ arr.getD (heapLargest arr n i) default ∧
    (2 * i + 1 < n → arr.getD (2 * i + 1) default ≤ arr.getD (heapLargest arr n i) default) ∧
    (2 * i + 2 < n → arr.getD (2 * i + 2) default ≤ arr.getD (heapLargest arr n i) default) := by
  have hle : ∀ a b : α, ¬ a < b → b ≤ a → True := fun _ _ _ _ => trivial
  have not_lt_le : ∀ a b : α, ¬ b < a → b ≤ a ∨ a ≤ b := fun a b _ => tot b a
  unfold heapLargest
  by_cases h1 : 2 * i + 1 < n ∧ arr.getD (2 * i + 1) default > arr.getD i default
  · simp only [if_pos h1]
    by_cases h2 : 2 * i + 2 < n ∧ arr.getD (2 * i + 2) default > arr.getD (2 * i + 1) default
    · simp only [if_pos h2]
      refine ⟨by omega, h2.1, Or.inr (Or.inr ⟨trivial, h2.1⟩), ?_, ?_, ?_⟩
      · exact le_of_lt (lt_trans h1.2 h2.2)
      · intro _; exact le_of_lt h2.2
      · intro _; exact le_rfl
    · simp only [if_neg h2]
      have hr : 2 * i + 2 < n → arr.getD (2 * i + 2) default ≤ arr.getD (2 * i + 1) default := by
        intro hrn
        have hnlt : ¬ arr.getD (2 * i + 2) default > arr.getD (2 * i + 1) default := by
          intro hcon
          exact h2 ⟨hrn, hcon⟩
        rcases tot (arr.getD (2 * i + 2) default) (arr.getD (2 * i + 1) default) with h | h
        · exact h
        · by_contra hcon
          exact hnlt (lt_of_le_not_le h hcon)
      exact ⟨by omega, h1.1, Or.inr (Or.inl ⟨trivial, h1.1⟩), le_of_lt h1.2, fun _ => le_rfl, hr⟩
  · simp only [if_neg h1]
    have hl : 2 * i + 1 < n → arr.getD (2 * i + 1) default ≤ arr.getD i default := by
      intro hln
      have hnlt : ¬ arr.getD (2 * i + 1) default > arr.getD i default := fun hcon => h1 ⟨hln, hcon⟩
      rcases tot (arr.getD (2 * i + 1) default) (arr.getD i default) with h | h
      · exact h
      · by_contra hcon
        exact hnlt (lt_of_le_not_le h hcon)
    by_cases h2 : 2 * i + 2 < n ∧ arr.getD (2 * i + 2) default > arr.getD i default
    · simp only [if_pos h2]
      refine ⟨by omega, h2.1, Or.inr (Or.inr ⟨trivial, h2.1⟩), le_of_lt h2.2, ?_, fun _ => le_rfl⟩
      intro hln
      exact le_trans (hl hln) (le_of_lt h2.2)
    · simp only [if_neg h2]
      have hr : 2 * i + 2 < n → arr.getD (2 * i + 2) default ≤ arr.getD i default := by
        intro hrn
        have hnlt : ¬ arr.getD (2 * i + 2) default > arr.getD i default := fun hcon => h2 ⟨hrn, hcon⟩
        rcases tot (arr.getD (2 * i + 2) default) (arr.getD i default) with h | h
        · exact h
        · by_contra hcon
          exact hnlt (lt_of_le_not_le h hcon)
      exact ⟨le_rfl, hi, Or.inl trivial, le_rfl, hl, hr⟩

theorem heapifyF_succ (f : ℕ) (arr : List α) (n i : ℕ) :
    heapifyF (f + 1) arr n i =
      if heapLargest arr n i ≠ i then
        heapifyF f (natSwap arr i (heapLargest arr n i)) n (heapLargest arr n i)
      else arr := rfl

/-- Full specification of the sift-down: given that all nodes strictly
below the subtree root already satisfy the local heap property, `heapify`
permutes only the subtree of `i`, establishes the heap property from `i`
on, and never increases the subtree's upper bounds. -/
theorem heapifyF_spec (tot : ∀ a b : α, a ≤ b ∨ b ≤ a) :
    ∀ (f : ℕ) (arr : List α) (n i : ℕ),
      i < n → n ≤ arr.length → n - i ≤ f →
      (∀ j, i < j → LocalHeapAt arr n j) →
      (heapifyF f arr n i).length = arr.length ∧
      (heapifyF f arr n i).Perm arr ∧
      (∀ m, (¬ Desc i m ∨ n ≤ m) →
        (heapifyF f arr n i).getD m default = arr.getD m default) ∧
      (∀ j, i ≤ j → LocalHeapAt (heapifyF f arr n i) n j) ∧
      (∀ B : α, (∀ m, Desc i m → m < n → arr.getD m default ≤ B) →
        ∀ m, Desc i m → m < n → (heapifyF f arr n i).getD m default ≤ B) := by
  intro f
  induction f with
  | zero =>
    intro arr n i hi hn hf hH
    omega
  | succ f ih =>
    intro arr n i hi hn hf hH
    obtain ⟨hLge, hLlt, hLcase, hLi, hLl, hLr⟩ :=
      (heapLargest_spec tot hi : i ≤ heapLargest arr n i ∧ _)
    set hL := heapLargest arr n i with hhL
    rw [heapifyF_succ]
    by_cases hne : hL ≠ i
    · rw [if_pos hne]
      have hLgt : i < hL := by omega
      have hLchild : hL = 2 * i + 1 ∨ hL = 2 * i + 2 := by
        rcases hLcase with h | h | h
        · omega
        · exact Or.inl h.1
        · exact Or.inr h.1
      have hdesc_iL : Desc i hL := by
        rcases hLchild with h | h
        · rw [h]; exact Desc.left (Desc.refl i)
        · rw [h]; exact Desc.right (Desc.refl i)
      have hiLen : i < arr.length := by omega
      have hLLen : hL < arr.length := by omega
      set arr2 := natSwap arr i hL with harr2
      have hlen2 : arr2.length = arr.length := length_natSwap ..
      have hget2_i : arr2.getD i default = arr.getD hL default :=
        natSwap_getD_left hiLen hLLen
      have hget2_L : arr2.getD hL default = arr.getD i default :=
        natSwap_getD_right hLLen
      have hget2_other : ∀ m, m ≠ i → m ≠ hL → arr2.getD m default = arr.getD m default :=
        fun m h1 h2 => natSwap_getD_other h1 h2
      -- the not-picked child of `i` is not in `hL`'s subtree
      have hnot_desc_i : ¬ Desc hL i := fun h => absurd (Desc.le h) (by omega)
      have hsib_not_desc : ∀ c, (c = 2 * i + 1 ∨ c = 2 * i + 2) → c ≠ hL → ¬ Desc hL c := by
        intro c hc hne' hdesc
        rcases Desc.parent hdesc hc with h | h
        · exact hne' h
        · exact hnot_desc_i h
      -- nodes strictly between `i` and `hL` keep their (unchanged) children
      have hchild_not_desc : ∀ j c, i < j → j < hL → (c = 2 * j + 1 ∨ c = 2 * j + 2) →
          c ≠ i ∧ c ≠ hL ∧ ¬ Desc hL c := by
        intro j c hji hjL hc
        have hci : c ≠ i := by omega
        have hcL : c ≠ hL := by
          intro hcon
          rcases hLchild with h | h <;> rcases hc with h' | h' <;> omega
        refine ⟨hci, hcL, fun hdesc => ?_⟩
        rcases Desc.parent hdesc hc with h | h
        · exact hcL h
        · exact absurd (Desc.le h) (by omega)
      have hH2 : ∀ j, hL < j → LocalHeapAt arr2 n j := by
        intro j hj
        have hbase := hH j (by omega)
        constructor
        · intro hc
          rw [hget2_other (2 * j + 1) (by omega) (by omega),
            hget2_other j (by omega) (by omega)]
          exact hbase.1 hc
        · intro hc
          rw [hget2_other (2 * j + 2) (by omega) (by omega),
            hget2_other j (by omega) (by omega)]
          exact hbase.2 hc
      obtain ⟨rlen, rperm, rframe, rlocal, rbound⟩ :=
        ih arr2 n hL hLlt (by omega) (by omega) hH2
      set res := heapifyF f arr2 n hL with hres
      have hres_i : res.getD i default = arr.getD hL default := by
        rw [rframe i (Or.inl hnot_desc_i), hget2_i]
      -- all values of `hL`'s subtree in `arr2` are bounded by the original `arr[hL]`
      have hsub_bound : ∀ m, Desc hL m → m < n → arr2.getD m default ≤ arr.getD hL default := by
        intro m hdesc hmn
        rcases eq_or_ne m hL with rfl | hne'
        · rw [hget2_L]
          exact hLi
        · rw [hget2_other m (by have := Desc.le hdesc; omega) hne']
          exact heap_subtree_le_root (fun j hj => hH j (by omega)) m hdesc hmn
      refine ⟨by rw [rlen, hlen2], rperm.trans (natSwap_perm arr i hL hiLen hLLen), ?_, ?_, ?_⟩
      · -- frame
        intro m hm
        rcases hm with hm | hm
        · have hmi : m ≠ i := fun hcon => hm (hcon ▸ Desc.refl i)
          have hmdL : ¬ Desc hL m := fun hcon => hm (Desc.trans hdesc_iL hcon)
          have hmL : m ≠ hL := fun hcon => hm (hcon ▸ hdesc_iL)
          rw [rframe m (Or.inl hmdL), hget2_other m hmi hmL]
        · rw [rframe m (Or.inr hm), hget2_other m (by omega) (by omega)]
      · -- local heap property from `i` on
        intro j hj
        rcases Nat.lt_or_ge j hL with hjL | hjL
        · rcases Nat.eq_or_lt_of_le hj with rfl | hji
          · -- j = i : the refreshed root dominates both children
            constructor
            · intro hc
              rw [hres_i]
              rcases eq_or_ne (2 * i + 1) hL with hceq | hcne
              · rw [hceq]
                exact rbound (arr.getD hL default) hsub_bound hL (Desc.refl hL) hLlt
              · have hcnd : ¬ Desc hL (2 * i + 1) := hsib_not_desc _ (Or.inl rfl) hcne
                rw [rframe _ (Or.inl hcnd), hget2_other _ (by omega) hcne]
                exact hLl hc
            · intro hc
              rw [hres_i]
              rcases eq_or_ne (2 * i + 2) hL with hceq | hcne
              · rw [hceq]
                exact rbound (arr.getD hL default) hsub_bound hL (Desc.refl hL) hLlt
              · have hcnd : ¬ Desc hL (2 * i + 2) := hsib_not_desc _ (Or.inr rfl) hcne
                rw [rframe _ (Or.inl hcnd), hget2_other _ (by omega) hcne]
                exact hLr hc
          · -- i < j < hL : untouched node with untouched children
            have hbase := hH j hji
            have hj_facts : j ≠ i ∧ j ≠ hL ∧ ¬ Desc hL j := by
              refine ⟨by omega, by omega, fun hcon => absurd (Desc.le hcon) (by omega)⟩
            have hc1 := hchild_not_desc j (2 * j + 1) hji hjL (Or.inl rfl)
            have hc2 := hchild_not_desc j (2 * j + 2) hji hjL (Or.inr rfl)
            constructor
            · intro hc
              rw [rframe _ (Or.inl hc1.2.2), hget2_other _ hc1.1 hc1.2.1,
                rframe _ (Or.inl hj_facts.2.2), hget2_other _ hj_facts.1 hj_facts.2.1]
              exact hbase.1 hc
            · intro hc
              rw [rframe _ (Or.inl hc2.2.2), hget2_other _ hc2.1 hc2.2.1,
                rframe _ (Or.inl hj_facts.2.2), hget2_other _ hj_facts.1 hj_facts.2.1]
              exact hbase.2 hc
        · exact rlocal j hjL
      · -- upper bounds on the subtree survive
        intro B hB m hdesc hmn
        rcases Classical.em (Desc hL m) with hdL | hdL
        · refine rbound B ?_ m hdL hmn
          intro m' hd' hm'
          rcases eq_or_ne m' hL with rfl | hne'
          · rw [hget2_L]
            exact hB i (Desc.refl i) hi
          · rw [hget2_other m' (by have := Desc.le hd'; omega) hne']
            exact hB m' (Desc.trans hdesc_iL hd') hm'
        · rw [rframe m (Or.inl hdL)]
          rcases eq_or_ne m i with rfl | hmi
          · rw [hget2_i]
            exact hB hL hdesc_iL hLlt
          · have hmL : m ≠ hL := fun hcon => hdL (hcon ▸ Desc.refl hL)
            rw [hget2_other m hmi hmL]
            exact hB m hdesc hmn
    · rw [if_neg hne]
      push_neg at hne
      refine ⟨rfl, List.Perm.refl _, fun _ _ => rfl, ?_, fun B hB m hd hmn => hB m hd hmn⟩
      intro j hj
      rcases Nat.eq_or_lt_of_le hj with rfl | hji
      · exact ⟨fun hc => hne ▸ hLl hc, fun hc => hne ▸ hLr hc⟩
      · exact hH j hji

/-- `heapify(arr, n, i)` (fuel `n`) inherits the full sift-down spec. -/
theorem heapify_spec (tot : ∀ a b : α, a ≤ b ∨ b ≤ a) (arr : List α) (n i : ℕ)
    (hi : i < n) (hn : n ≤ arr.length) (hH : ∀ j, i < j → LocalHeapAt arr n j) :
    (heapify arr n i).length = arr.length ∧
    (heapify arr n i).Perm arr ∧
    (∀ m, (¬ Desc i m ∨ n ≤ m) → (heapify arr n i).getD m default = arr.getD m default) ∧
    (∀ j, i ≤ j → LocalHeapAt (heapify arr n i) n j) ∧
    (∀ B : α, (∀ m, Desc i m → m < n → arr.getD m default ≤ B) →
      ∀ m, Desc i m → m < n → (heapify arr n i).getD m default ≤ B) :=
  heapifyF_spec tot n arr n i hi hn (by omega) hH

/-- The bottom-up build phase: after processing indices `k-1 … 0`, every
node satisfies the local heap property, provided nodes `≥ k` already did. -/
theorem buildLoop_spec (tot : ∀ a b : α, a ≤ b ∨ b ≤ a) (n : ℕ) :
    ∀ (k : ℕ) (arr : List α), k ≤ n → n ≤ arr.length →
      (∀ j, k ≤ j → LocalHeapAt arr n j) →
      (buildLoop n k arr).length = arr.length ∧
      (buildLoop n k arr).Perm arr ∧
      (∀ j, LocalHeapAt (buildLoop n k arr) n j) := by
  intro k
  induction k with
  | zero =>
    intro arr hk hn hH
    exact ⟨rfl, List.Perm.refl _, fun j => hH j (Nat.zero_le j)⟩
  | succ k ih =>
    intro arr hk hn hH
    have hstep : buildLoop n (k + 1) arr = buildLoop n k (heapify arr n k) := rfl
    rw [hstep]
    obtain ⟨hlen, hperm, _, hlocal, _⟩ :=
      heapify_spec tot arr n k (by omega) hn (fun j hj => hH j (by omega))
    obtain ⟨rlen, rperm, rlocal⟩ :=
      ih (heapify arr n k) (by omega) (by omega) (fun j hj => hlocal j hj)
    exact ⟨by rw [rlen, hlen], rperm.trans hperm, rlocal⟩

/-- The extraction phase: with a heap on `[0, c+1)`, a sorted suffix
`[c+1, len)` dominated by nothing in the heap region, the loop leaves a
fully sorted array. -/
theorem extractLoop_spec (tot : ∀ a b : α, a ≤ b ∨ b ≤ a) :
    ∀ (c : ℕ) (arr : List α), c < arr.length →
      (∀ j, LocalHeapAt arr (c + 1) j) →
      (∀ p q, c < p → p ≤ q → q < arr.length →
        arr.getD p default ≤ arr.getD q default) →
      (∀ p q, p ≤ c → c < q → q < arr.length →
        arr.getD p default ≤ arr.getD q default) →
      (extractLoop c arr).length = arr.length ∧
      (extractLoop c arr).Perm arr ∧
      (∀ p q, p ≤ q → q < arr.length →
        (extractLoop c arr).getD p default ≤ (extractLoop c arr).getD q default) := by
  intro c
  induction c with
  | zero =>
    intro arr hc hheap htail hsplit
    refine ⟨rfl, List.Perm.refl _, fun p q hpq hq => ?_⟩
    rcases Nat.eq_or_lt_of_le (Nat.zero_le p) with hp0 | hp0
    · rcases Nat.eq_or_lt_of_le hpq with rfl | hq0
      · exact le_rfl
      · exact hsplit p q (by omega) (by omega) hq
    · exact htail p q (by omega) hpq hq
  | succ s ih =>
    intro arr hc hheap htail hsplit
    have hstep : extractLoop (s + 1) arr =
        extractLoop s (heapify (natSwap arr 0 (s + 1)) (s + 1) 0) := rfl
    rw [hstep]
    have h0len : 0 < arr.length := by omega
    have hs1len : s + 1 < arr.length := hc
    set arr2 := natSwap arr 0 (s + 1) with harr2
    have hlen2 : arr2.length = arr.length := length_natSwap ..
    have hget2_0 : arr2.getD 0 default = arr.getD (s + 1) default :=
      natSwap_getD_left h0len hs1len
    have hget2_s1 : arr2.getD (s + 1) default = arr.getD 0 default :=
      natSwap_getD_right hs1len
    have hget2_other : ∀ m, m ≠ 0 → m ≠ s + 1 → arr2.getD m default = arr.getD m default :=
      fun m h1 h2 => natSwap_getD_other h1 h2
    -- the old root dominates the old heap region
    have hroot_max : ∀ m, m < s + 2 → arr.getD m default ≤ arr.getD 0 default :=
      fun m hm => heap_subtree_le_root (fun j _ => hheap j) m (Desc_zero m) hm
    have hH2 : ∀ j, 0 < j → LocalHeapAt arr2 (s + 1) j := by
      intro j hj
      have hbase := hheap j
      constructor
      · intro hcc
        rw [hget2_other (2 * j + 1) (by omega) (by omega), hget2_other j (by omega) (by omega)]
        exact hbase.1 (by omega)
      · intro hcc
        rw [hget2_other (2 * j + 2) (by omega) (by omega), hget2_other j (by omega) (by omega)]
        exact hbase.2 (by omega)
    obtain ⟨hlen3, hperm3, hframe3, hlocal3, hbound3⟩ :=
      heapify_spec tot arr2 (s + 1) 0 (by omega) (by omega) hH2
    set arr3 := heapify arr2 (s + 1) 0 with harr3
    have hlen3' : arr3.length = arr.length := by rw [hlen3, hlen2]
    have hframe3' : ∀ m, s + 1 ≤ m → arr3.getD m default = arr2.getD m default :=
      fun m hm => hframe3 m (Or.inr hm)
    -- every heap-region value of `arr3` is bounded by the old root
    have hbound_heap : ∀ m, m < s + 1 → arr3.getD m default ≤ arr.getD 0 default := by
      intro m hm
      refine hbound3 (arr.getD 0 default) ?_ m (Desc_zero m) hm
      intro m' _ hm'
      rcases eq_or_ne m' (s + 1) with rfl | hne'
      · omega
      · rcases eq_or_ne m' 0 with rfl | hne0
        · rw [hget2_0]
          exact hroot_max (s + 1) (by omega)
        · rw [hget2_other m' hne0 hne']
          exact hroot_max m' (by omega)
    have htail3 : ∀ p q, s < p → p ≤ q → q < arr3.length →
        arr3.getD p default ≤ arr3.getD q default := by
      intro p q hp hpq hq
      rw [hlen3'] at hq
      rw [hframe3' p (by omega), hframe3' q (by omega)]
      rcases eq_or_ne p (s + 1) with rfl | hpe
      · rw [hget2_s1]
        rcases eq_or_ne q (s + 1) with rfl | hqe
        · rw [hget2_s1]
        · rw [hget2_other q (by omega) hqe]
          exact hsplit 0 q (by omega) (by omega) (by omega)
      · rw [hget2_other p (by omega) hpe, hget2_other q (by omega) (by omega)]
        exact htail p q (by omega) hpq (by omega)
    have hsplit3 : ∀ p q, p ≤ s → s < q → q < arr3.length →
        arr3.getD p default ≤ arr3.getD q default := by
      intro p q hp hq hqlen
      rw [hlen3'] at hqlen
      have hq' : s + 1 ≤ q := by omega
      rw [hframe3' q hq']
      have hrhs : arr2.getD q default = if q = s + 1 then arr.getD 0 default
          else arr.getD q default := by
        rcases eq_or_ne q (s + 1) with rfl | hqe
        · rw [if_pos rfl, hget2_s1]
        · rw [if_neg hqe, hget2_other q (by omega) hqe]
      have hleft : arr3.getD p default ≤ arr.getD 0 default := hbound_heap p (by omega)
      rw [hrhs]
      rcases eq_or_ne q (s + 1) with rfl | hqe
      · rw [if_pos rfl]
        exact hleft
      · rw [if_neg hqe]
        exact le_trans hleft (hsplit 0 q (by omega) (by omega) (by omega))
    obtain ⟨rlen, rperm, rsorted⟩ := ih arr3 (by omega)
      (fun j => hlocal3 j (Nat.zero_le j)) htail3 hsplit3
    refine ⟨by rw [rlen, hlen3'], (rperm.trans hperm3).trans
      (natSwap_perm arr 0 (s + 1) h0len hs1len), ?_⟩
    intro p q hpq hqlen
    exact rsorted p q hpq (by omega)

/-- `heapSort` sorts: permutation plus non-decreasing output. -/
theorem heapSort_perm_sorted (tot : ∀ a b : α, a ≤ b ∨ b ≤ a) (arr : List α) :
    (heapSort arr).Perm arr ∧ (heapSort arr).Sorted (· ≤ ·) := by
  have hstep : heapSort arr = extractLoop (arr.length - 1)
      (buildLoop arr.length (arr.length / 2) arr) := rfl
  rw [hstep]
  have hbase : ∀ j, arr.length / 2 ≤ j → LocalHeapAt arr arr.length j := by
    intro j hj
    exact ⟨fun hc => absurd hc (by omega), fun hc => absurd hc (by omega)⟩
  obtain ⟨blen, bperm, blocal⟩ := buildLoop_spec tot arr.length (arr.length / 2) arr
    (by omega) le_rfl hbase
  set arr1 := buildLoop arr.length (arr.length / 2) arr with harr1
  rcases Nat.eq_zero_or_pos arr.length with hzero | hpos
  · have : arr = [] := List.length_eq_zero.mp hzero
    subst this
    have h1 : arr1 = [] := List.length_eq_zero.mp (by rw [blen, hzero])
    rw [h1]
    have : extractLoop 0 ([] : List α) = [] := rfl
    rw [hzero]
    simp only [Nat.zero_sub, this]
    exact ⟨List.Perm.refl _, List.sorted_nil⟩
  · have hheap1 : ∀ j, LocalHeapAt arr1 (arr.length - 1 + 1) j := by
      intro j
      have := blocal j
      have hrw : arr.length - 1 + 1 = arr.length := by omega
      rw [hrw]
      exact this
    have htail1 : ∀ p q, arr.length - 1 < p → p ≤ q → q < arr1.length →
        arr1.getD p default ≤ arr1.getD q default := by
      intro p q hp hpq hq
      rw [blen] at hq
      omega
    have hsplit1 : ∀ p q, p ≤ arr.length - 1 → arr.length - 1 < q → q < arr1.length →
        arr1.getD p default ≤ arr1.getD q default := by
      intro p q hp hq hqlen
      rw [blen] at hqlen
      omega
    obtain ⟨elen, eperm, esorted⟩ := extractLoop_spec tot (arr.length - 1) arr1
      (by omega) hheap1 htail1 hsplit1
    refine ⟨(eperm.trans bperm), ?_⟩
    rw [List.Sorted, List.pairwise_iff_getElem]
    intro a b ha hb hab
    have hblen : arr1.length = arr.length := blen
    have := esorted a b (by omega) (by rw [hblen]; rw [elen, hblen] at hb; omega)
    rwa [getD_eq_getElem (by omega), getD_eq_getElem (by omega)] at this

end HeapProof

/-! ## Mergesort correctness -/

section MergeProof

variable {α : Type} [Inhabited α] [Preorder α]
variable [DecidableRel ((· ≤ ·) : α → α → Prop)]
variable [DecidableRel ((· < ·) : α → α → Prop)]

theorem merge_nil_right (l : List α) (le : α → α → Bool) : l.merge [] le = l := by
  cases l <;> simp [List.merge]

theorem length_copySeg (arr : List α) (s : ℤ) (cnt : ℕ) :
    (copySeg arr s cnt).length = cnt := by
  unfold copySeg
  rw [List.length_map, List.length_range]

theorem copySeg_eq {arr : List α} {s : ℤ} {cnt : ℕ} (h0 : 0 ≤ s)
    (hb : s + cnt ≤ (arr.length : ℤ)) :
    copySeg arr s cnt = (arr.drop s.toNat).take cnt := by
  refine List.ext_getElem ?_ fun t h1 h2 => ?_
  · rw [length_copySeg, List.length_take, List.length_drop]
    omega
  have ht : t < cnt := by rwa [length_copySeg] at h1
  have hst : s.toNat + t < arr.length := by omega
  have htr : t < (List.range cnt).length := by
    rw [List.length_range]
    exact ht
  have hLHS : (copySeg arr s cnt)[t] = pyGet arr (s + (((List.range cnt)[t] : ℕ) : ℤ)) := by
    unfold copySeg
    rw [List.getElem_map]
  rw [hLHS, List.getElem_range, List.getElem_take, List.getElem_drop,
    pyGet_nonneg (by omega), getD_eq_getElem (by omega)]
  congr 1
  omega

theorem setSeq_length (vs : List α) : ∀ (arr : List α) (idx : ℕ),
    (setSeq arr idx vs).length = arr.length := by
  induction vs with
  | nil => intro arr idx; rfl
  | cons v vs ih =>
    intro arr idx
    have : setSeq arr idx (v :: vs) = setSeq (arr.set idx v) (idx + 1) vs := rfl
    rw [this, ih, List.length_set]

theorem setSeq_splice (vs : List α) : ∀ (arr : List α) (idx : ℕ),
    idx + vs.length ≤ arr.length →
    setSeq arr idx vs = arr.take idx ++ vs ++ arr.drop (idx + vs.length) := by
  induction vs with
  | nil =>
    intro arr idx h
    simp only [List.length_nil, Nat.add_zero, List.nil_append, List.append_nil]
    exact (List.take_append_drop idx arr).symm
  | cons v vs ih =>
    intro arr idx h
    have hidx : idx < arr.length := by
      have := h
      simp [List.length_cons] at this
      omega
    have hstep : setSeq arr idx (v :: vs) = setSeq (arr.set idx v) (idx + 1) vs := rfl
    rw [hstep, ih (arr.set idx v) (idx + 1) (by simp [List.length_set]; simp at h; omega)]
    have hset : arr.set idx v = arr.take idx ++ v :: arr.drop (idx + 1) :=
      List.set_eq_take_cons_drop v hidx
    have hlen_take : (arr.take idx).length = idx := by
      simp [List.length_take]
      omega
    have htake : (arr.set idx v).take (idx + 1) = arr.take idx ++ [v] := by
      rw [hset]
      have h1 : idx + 1 = (arr.take idx).length + 1 := by rw [hlen_take]
      rw [h1, List.take_append]
      rfl
    have hdrop : (arr.set idx v).drop (idx + 1 + vs.length) = arr.drop (idx + (v :: vs).length) := by
      rw [hset]
      have h1 : idx + 1 + vs.length = (arr.take idx).length + (1 + vs.length) := by
        rw [hlen_take]
        omega
      rw [h1, List.drop_append]
      have h2 : (1 + vs.length) = (([v] : List α)).length + vs.length := by simp
      have h3 : v :: arr.drop (idx + 1) = [v] ++ arr.drop (idx + 1) := rfl
      rw [h3, h2, List.drop_append, List.drop_drop]
      congr 1
      simp [List.length_cons]
      omega
    rw [htake, hdrop]
    simp [List.append_assoc]

theorem drainLoop_eq (src : List α) : ∀ (c : ℕ) (arr : List α) (i : ℕ) (k : ℤ),
    0 ≤ k → i + c ≤ src.length →
    drainLoop src c arr i k = setSeq arr k.toNat ((src.drop i).take c) := by
  intro c
  induction c with
  | zero =>
    intro arr i k hk hc
    rfl
  | succ c ih =>
    intro arr i k hk hc
    have hstep : drainLoop src (c + 1) arr i k =
        drainLoop src c (pySet arr k (src.getD i default)) (i + 1) (k + 1) := rfl
    rw [hstep, ih _ (i + 1) (k + 1) (by omega) (by omega)]
    have hi : i < src.length := by omega
    have hdropc : (src.drop i).take (c + 1) = src.getD i default :: (src.drop (i + 1)).take c := by
      rw [List.drop_eq_getElem_cons hi, getD_eq_getElem hi]
      rfl
    rw [hdropc]
    have hsetseq : setSeq arr k.toNat (src.getD i default :: (src.drop (i + 1)).take c) =
        setSeq (arr.set k.toNat (src.getD i default)) (k.toNat + 1) ((src.drop (i + 1)).take c) :=
      rfl
    rw [hsetseq, pySet_nonneg hk]
    congr 1
    omega

/-- The two-pointer loop followed by the two drain loops writes exactly
`List.merge` of the two runs at consecutive positions from `k`. -/
theorem mergeLoop_drains_eq (L R : List α) :
    ∀ (f : ℕ) (arr : List α) (i j : ℕ) (k : ℤ), 0 ≤ k →
      i ≤ L.length → j ≤ R.length →
      (L.length - i) + (R.length - j) ≤ f →
      drainLoop R (R.length - (mergeLoop L R f arr i j k).2.2.1)
        (drainLoop L (L.length - (mergeLoop L R f arr i j k).2.1)
          (mergeLoop L R f arr i j k).1
          (mergeLoop L R f arr i j k).2.1
          (mergeLoop L R f arr i j k).2.2.2)
        (mergeLoop L R f arr i j k).2.2.1
        ((mergeLoop L R f arr i j k).2.2.2 +
          ((L.length - (mergeLoop L R f arr i j k).2.1 : ℕ) : ℤ))
      = setSeq arr k.toNat (List.merge (L.drop i) (R.drop j) fun a b => decide (a ≤ b)) := by
  intro f
  induction f with
  | zero =>
    intro arr i j k hk hi hj hf
    have hiL : L.length ≤ i := by omega
    have hjR : R.length ≤ j := by omega
    have hred : mergeLoop L R 0 arr i j k = (arr, i, j, k) := rfl
    rw [hred]
    simp only [List.drop_eq_nil_of_le hiL, List.drop_eq_nil_of_le hjR, List.nil_merge]
    have h1 : L.length - i = 0 := by omega
    have h2 : R.length - j = 0 := by omega
    rw [h1, h2]
    rfl
  | succ f ih =>
    intro arr i j k hk hi hj hf
    by_cases hcond : i < L.length ∧ j < R.length
    · have hiL := hcond.1
      have hjR := hcond.2
      by_cases hle : L.getD i default ≤ R.getD j default
      · have hstep : mergeLoop L R (f + 1) arr i j k =
            mergeLoop L R f (pySet arr k (L.getD i default)) (i + 1) j (k + 1) := by
          simp only [mergeLoop, if_pos hcond, if_pos hle]
        rw [hstep, ih (pySet arr k (L.getD i default)) (i + 1) j (k + 1) (by omega) (by omega)
          (by omega) (by omega)]
        rw [List.drop_eq_getElem_cons hiL, List.drop_eq_getElem_cons hjR,
          List.cons_merge_cons]
        rw [if_pos (by rw [getD_eq_getElem hiL, getD_eq_getElem hjR] at hle; exact decide_eq_true hle)]
        rw [← List.drop_eq_getElem_cons hjR]
        have hsetseq : setSeq arr k.toNat
            (L[i] :: List.merge (L.drop (i + 1)) (R.drop j) fun a b => decide (a ≤ b)) =
            setSeq (arr.set k.toNat L[i]) (k.toNat + 1)
              (List.merge (L.drop (i + 1)) (R.drop j) fun a b => decide (a ≤ b)) := rfl
        rw [hsetseq, ← getD_eq_getElem hiL, ← pySet_nonneg hk]
        congr 1
        omega
      · have hstep : mergeLoop L R (f + 1) arr i j k =
            mergeLoop L R f (pySet arr k (R.getD j default)) i (j + 1) (k + 1) := by
          simp only [mergeLoop, if_pos hcond, if_neg hle]
        rw [hstep, ih (pySet arr k (R.getD j default)) i (j + 1) (k + 1) (by omega) (by omega)
          (by omega) (by omega)]
        rw [List.drop_eq_getElem_cons hiL, List.drop_eq_getElem_cons hjR,
          List.cons_merge_cons]
        rw [if_neg (by rw [getD_eq_getElem hiL, getD_eq_getElem hjR] at hle; simpa using hle)]
        rw [← List.drop_eq_getElem_cons hiL]
        have hsetseq : setSeq arr k.toNat
            (R[j] :: List.merge (L.drop i) (R.drop (j + 1)) fun a b => decide (a ≤ b)) =
            setSeq (arr.set k.toNat R[j]) (k.toNat + 1)
              (List.merge (L.drop i) (R.drop (j + 1)) fun a b => decide (a ≤ b)) := rfl
        rw [hsetseq, ← getD_eq_getElem hjR, ← pySet_nonneg hk]
        congr 1
        omega
    · have hred : mergeLoop L R (f + 1) arr i j k = (arr, i, j, k) := by
        simp only [mergeLoop, if_neg hcond]
      rw [hred]
      rcases Nat.lt_or_ge i L.length with hiL | hiL
      · have hjR : R.length ≤ j := by
          rcases Nat.lt_or_ge j R.length with h | h
          · exact absurd ⟨hiL, h⟩ hcond
          · exact h
        simp only [List.drop_eq_nil_of_le hjR, merge_nil_right]
        have h2 : R.length - j = 0 := by omega
        have hdrain : drainLoop L (L.length - i) arr i k =
            setSeq arr k.toNat ((L.drop i).take (L.length - i)) :=
          drainLoop_eq L (L.length - i) arr i k hk (by omega)
        rw [h2]
        have houter : ∀ (a : List α) (kk : ℤ), drainLoop R 0 a j kk = a := fun _ _ => rfl
        rw [houter, hdrain, List.take_of_length_le (by rw [List.length_drop])]
      · simp only [List.drop_eq_nil_of_le hiL, List.nil_merge]
        have h1 : L.length - i = 0 := by omega
        rw [h1]
        have hinner : drainLoop L 0 arr i k = arr := rfl
        rw [hinner]
        have hdrain : drainLoop R (R.length - j) arr j (k + ((0 : ℕ) : ℤ)) =
            setSeq arr (k + ((0 : ℕ) : ℤ)).toNat ((R.drop j).take (R.length - j)) :=
          drainLoop_eq R (R.length - j) arr j _ (by omega) (by omega)
        rw [hdrain, List.take_of_length_le (by rw [List.length_drop])]
        congr 1
        omega

/-- `merge(arr, left, mid, right)` replaces the segment `[left, right]` by
the `List.merge` of its two sub-segments and touches nothing else. -/
theorem merge_eq (arr : List α) (l mid r : ℤ) (h0 : 0 ≤ l) (hlm : l ≤ mid) (hmr : mid ≤ r)
    (hr : r < (arr.length : ℤ)) :
    merge arr l mid r = arr.take l.toNat ++
      List.merge ((arr.drop l.toNat).take (mid - l + 1).toNat)
        ((arr.drop (mid + 1).toNat).take (r - mid).toNat) (fun a b => decide (a ≤ b)) ++
      arr.drop (r + 1).toNat := by
  have hL : copySeg arr l (mid - l + 1).toNat = (arr.drop l.toNat).take (mid - l + 1).toNat :=
    copySeg_eq h0 (by omega)
  have hR : copySeg arr (mid + 1) (r - mid).toNat =
      (arr.drop (mid + 1).toNat).take (r - mid).toNat :=
    copySeg_eq (by omega) (by omega)
  set L := copySeg arr l (mid - l + 1).toNat with hLdef
  set R := copySeg arr (mid + 1) (r - mid).toNat with hRdef
  have hLlen : L.length = (mid - l + 1).toNat := length_copySeg ..
  have hRlen : R.length = (r - mid).toNat := length_copySeg ..
  have key := mergeLoop_drains_eq L R ((mid - l + 1).toNat + (r - mid).toNat) arr 0 0 l
    h0 (by omega) (by omega) (by omega)
  rw [List.drop_zero, List.drop_zero] at key
  rw [hLlen, hRlen] at key
  have hmerge_def : merge arr l mid r =
      drainLoop R ((r - mid).toNat -
          (mergeLoop L R ((mid - l + 1).toNat + (r - mid).toNat) arr 0 0 l).2.2.1)
        (drainLoop L ((mid - l + 1).toNat -
            (mergeLoop L R ((mid - l + 1).toNat + (r - mid).toNat) arr 0 0 l).2.1)
          (mergeLoop L R ((mid - l + 1).toNat + (r - mid).toNat) arr 0 0 l).1
          (mergeLoop L R ((mid - l + 1).toNat + (r - mid).toNat) arr 0 0 l).2.1
          (mergeLoop L R ((mid - l + 1).toNat + (r - mid).toNat) arr 0 0 l).2.2.2)
        (mergeLoop L R ((mid - l + 1).toNat + (r - mid).toNat) arr 0 0 l).2.2.1
        ((mergeLoop L R ((mid - l + 1).toNat + (r - mid).toNat) arr 0 0 l).2.2.2 +
          (((mid - l + 1).toNat -
            (mergeLoop L R ((mid - l + 1).toNat + (r - mid).toNat) arr 0 0 l).2.1 : ℕ) : ℤ)) :=
    rfl
  rw [hmerge_def, key, setSeq_splice _ _ _ ?bound]
  case bound =>
    rw [List.length_merge, hLlen, hRlen]
    omega
  have harith : l.toNat + (List.merge L R fun a b => decide (a ≤ b)).length = (r + 1).toNat := by
    rw [List.length_merge, hLlen, hRlen]
    omega
  rw [harith, hL, hR]

theorem SegSort_eq_of_le {s : List α} (h : s.length ≤ 1) : SegSort s = s := by
  rw [SegSort, if_pos h]

theorem SegSort_eq_of_gt {s : List α} (h : 1 < s.length) :
    SegSort s = List.merge (SegSort (s.take ((s.length - 1) / 2 + 1)))
      (SegSort (s.drop ((s.length - 1) / 2 + 1))) (fun a b => decide (a ≤ b)) := by
  rw [SegSort]
  rw [if_neg (by omega)]

theorem SegSort_perm_aux : ∀ (n : ℕ) (s : List α), s.length ≤ n → (SegSort s).Perm s := by
  intro n
  induction n with
  | zero =>
    intro s hs
    have : s.length ≤ 1 := by omega
    rw [SegSort_eq_of_le this]
  | succ n ih =>
    intro s hs
    rcases Nat.lt_or_ge 1 s.length with h | h
    · rw [SegSort_eq_of_gt h]
      have h2 : (s.length - 1) / 2 + 1 ≤ s.length - 1 := by omega
      have hperm1 := ih (s.take ((s.length - 1) / 2 + 1)) (by
        rw [List.length_take]; omega)
      have hperm2 := ih (s.drop ((s.length - 1) / 2 + 1)) (by
        rw [List.length_drop]; omega)
      exact ((List.perm_merge _ _ _).trans (hperm1.append hperm2)).trans
        (by rw [List.take_append_drop])
    · rw [SegSort_eq_of_le h]

theorem SegSort_perm (s : List α) : (SegSort s).Perm s :=
  SegSort_perm_aux s.length s le_rfl

theorem SegSort_length (s : List α) : (SegSort s).length = s.length :=
  (SegSort_perm s).length_eq

theorem SegSort_sorted_aux (tot : ∀ a b : α, a ≤ b ∨ b ≤ a) :
    ∀ (n : ℕ) (s : List α), s.length ≤ n → (SegSort s).Sorted (· ≤ ·) := by
  have htrans : ∀ a b c : α, decide (a ≤ b) = true → decide (b ≤ c) = true →
      decide (a ≤ c) = true := by
    intro a b c h1 h2
    rw [decide_eq_true_eq] at h1 h2 ⊢
    exact le_trans h1 h2
  have htotal : ∀ a b : α, (decide (a ≤ b) || decide (b ≤ a)) = true := by
    intro a b
    rcases tot a b with h | h
    · rw [Bool.or_eq_true, decide_eq_true_eq]
      exact Or.inl h
    · rw [Bool.or_eq_true, decide_eq_true_eq, decide_eq_true_eq]
      exact Or.inr h
  intro n
  induction n with
  | zero =>
    intro s hs
    rw [SegSort_eq_of_le (by omega)]
    have : s = [] := List.length_eq_zero.mp (by omega)
    rw [this]
    exact List.sorted_nil
  | succ n ih =>
    intro s hs
    rcases Nat.lt_or_ge 1 s.length with h | h
    · rw [SegSort_eq_of_gt h]
      have hs1 := ih (s.take ((s.length - 1) / 2 + 1)) (by rw [List.length_take]; omega)
      have hs2 := ih (s.drop ((s.length - 1) / 2 + 1)) (by rw [List.length_drop]; omega)
      have hout := List.sorted_merge htrans htotal
        (SegSort (s.take ((s.length - 1) / 2 + 1)))
        (SegSort (s.drop ((s.length - 1) / 2 + 1)))
        (hs1.imp fun hab => decide_eq_true hab)
        (hs2.imp fun hab => decide_eq_true hab)
      exact hout.imp fun hab => of_decide_eq_true hab
    · rw [SegSort_eq_of_le h]
      match s, h with
      | [], _ => exact List.sorted_nil
      | [a], _ => exact List.sorted_singleton a

theorem SegSort_sorted (tot : ∀ a b : α, a ≤ b ∨ b ≤ a) (s : List α) :
    (SegSort s).Sorted (· ≤ ·) :=
  SegSort_sorted_aux tot s.length s le_rfl

/-- Putting a segment back between its own context reassembles the list. -/
theorem splice_id (arr : List α) (l r : ℤ) (h0 : 0 ≤ l) (hlr : l ≤ r + 1)
    (hr : r < (arr.length : ℤ)) :
    arr.take l.toNat ++ (arr.drop l.toNat).take (r - l + 1).toNat ++
      arr.drop (r + 1).toNat = arr := by
  have hc : (r + 1).toNat = l.toNat + (r - l + 1).toNat := by omega
  rw [List.append_assoc, hc, ← List.drop_drop, List.take_append_drop, List.take_append_drop]

/-- Main induction for `mergeSort`: the in-place recursion computes
`SegSort` of the segment `[l, r]` and touches nothing else. -/
theorem mergeSortF_eq : ∀ (f : ℕ) (arr : List α) (l r : ℤ),
    (r - l + 1).toNat ≤ f → 0 ≤ l → l ≤ r + 1 → r < (arr.length : ℤ) →
    mergeSortF f arr l r =
      arr.take l.toNat ++ SegSort ((arr.drop l.toNat).take (r - l + 1).toNat) ++
        arr.drop (r + 1).toNat := by
  intro f
  induction f with
  | zero =>
    intro arr l r hf h0 hlr hr
    have hl : l = r + 1 := by omega
    have hred : mergeSortF 0 arr l r = arr := rfl
    have hseg : (r - l + 1).toNat = 0 := by omega
    rw [hred, hseg]
    simp only [List.take_zero]
    rw [SegSort_eq_of_le (by simp)]
    have : l.toNat = (r + 1).toNat := by omega
    rw [this]
    simp only [List.nil_append, List.append_nil]
    exact (List.take_append_drop _ arr).symm
  | succ f ih =>
    intro arr l r hf h0 hlr hr
    by_cases hlt : l < r
    · have hstep : mergeSortF (f + 1) arr l r =
          merge (mergeSortF f (mergeSortF f arr l (Int.fdiv (l + r) 2))
            (Int.fdiv (l + r) 2 + 1) r) l (Int.fdiv (l + r) 2) r := by
        simp only [mergeSortF, if_pos hlt]
      set md := Int.fdiv (l + r) 2 with hmd
      have hmd' : md = (l + r) / 2 := Int.fdiv_eq_ediv _ (by norm_num)
      have hlm : l ≤ md := by omega
      have hmr : md < r := by omega
      set S1 := (arr.drop l.toNat).take (md - l + 1).toNat with hS1
      set S2 := (arr.drop (md + 1).toNat).take (r - md).toNat with hS2
      have hS1len : S1.length = (md - l + 1).toNat := by
        rw [hS1, List.length_take, List.length_drop]
        omega
      have hS2len : S2.length = (r - md).toNat := by
        rw [hS2, List.length_take, List.length_drop]
        omega
      have ih1 := ih arr l md (by omega) h0 (by omega) (by omega)
      set a1 := mergeSortF f arr l md with ha1
      have hXlen : (arr.take l.toNat ++ SegSort S1).length = (md + 1).toNat := by
        rw [List.length_append, List.length_take, SegSort_length, hS1len]
        omega
      have ha1' : a1 = (arr.take l.toNat ++ SegSort S1) ++ arr.drop (md + 1).toNat := by
        rw [ih1, List.append_assoc]
      have ha1len : a1.length = arr.length := by
        rw [ha1', List.length_append, hXlen, List.length_drop]
        omega
      have ih2 := ih a1 (md + 1) r (by omega) (by omega) (by omega) (by rw [ha1len]; omega)
      set a2 := mergeSortF f a1 (md + 1) r with ha2
      have hpre : a1.take (md + 1).toNat = arr.take l.toNat ++ SegSort S1 := by
        rw [ha1']
        exact List.take_left' hXlen
      have hmidseg : a1.drop (md + 1).toNat = arr.drop (md + 1).toNat := by
        rw [ha1']
        exact List.drop_left' hXlen
      have hdropr1 : a1.drop (r + 1).toNat = arr.drop (r + 1).toNat := by
        rw [ha1']
        have h1 : (r + 1).toNat = (md + 1).toNat + ((r + 1).toNat - (md + 1).toNat) := by omega
        rw [h1, ← hXlen, List.drop_append, List.drop_drop]
      have ha2' : a2 = arr.take l.toNat ++ SegSort S1 ++ SegSort S2 ++
          arr.drop (r + 1).toNat := by
        rw [ih2, hpre, hmidseg, hdropr1]
        have hzz : r - (md + 1) + 1 = r - md := by ring
        rw [hzz, ← hS2]
      have ha2len : a2.length = arr.length := by
        rw [ha2']
        simp only [List.length_append, List.length_take, List.length_drop,
          SegSort_length, hS1len, hS2len]
        omega
      rw [hstep]
      rw [merge_eq a2 l md r h0 hlm (by omega) (by rw [ha2len]; omega)]
      -- identify the four sections of `a2`
      have hassoc : a2 = arr.take l.toNat ++ (SegSort S1 ++ (SegSort S2 ++
          arr.drop (r + 1).toNat)) := by
        rw [ha2']
        simp [List.append_assoc]
      have hta2 : a2.take l.toNat = arr.take l.toNat := by
        rw [hassoc]
        exact List.take_left' (by rw [List.length_take]; omega)
      have hda2 : a2.drop l.toNat = SegSort S1 ++ (SegSort S2 ++ arr.drop (r + 1).toNat) := by
        rw [hassoc]
        exact List.drop_left' (by rw [List.length_take]; omega)
      have hseg1 : (a2.drop l.toNat).take (md - l + 1).toNat = SegSort S1 := by
        rw [hda2]
        exact List.take_left' (by rw [SegSort_length, hS1len])
      have hda2' : a2.drop (md + 1).toNat = SegSort S2 ++ arr.drop (r + 1).toNat := by
        have : a2 = (arr.take l.toNat ++ SegSort S1) ++ (SegSort S2 ++
            arr.drop (r + 1).toNat) := by
          rw [ha2']
          simp [List.append_assoc]
        rw [this]
        exact List.drop_left' hXlen
      have hseg2 : (a2.drop (md + 1).toNat).take (r - md).toNat = SegSort S2 := by
        rw [hda2']
        exact List.take_left' (by rw [SegSort_length, hS2len])
      have hdr2 : a2.drop (r + 1).toNat = arr.drop (r + 1).toNat := by
        have : a2 = (arr.take l.toNat ++ SegSort S1 ++ SegSort S2) ++
            arr.drop (r + 1).toNat := by
          rw [ha2']
        rw [this]
        refine List.drop_left' ?_
        simp only [List.length_append, List.length_take, SegSort_length, hS1len, hS2len]
        omega
      rw [hta2, hseg1, hseg2, hdr2]
      -- fold the merge of the two sorted halves back into `SegSort`
      set S := (arr.drop l.toNat).take (r - l + 1).toNat with hS
      have hSlen : S.length = (r - l + 1).toNat := by
        rw [hS, List.length_take, List.length_drop]
        omega
      have hh2 : (S.length - 1) / 2 + 1 = (md - l + 1).toNat := by
        rw [hSlen]
        omega
      have hS_take : S.take ((S.length - 1) / 2 + 1) = S1 := by
        rw [hh2, hS, List.take_take, hS1]
        congr 1
        omega
      have hS_drop : S.drop ((S.length - 1) / 2 + 1) = S2 := by
        have hcount : (r - l + 1).toNat - (md - l + 1).toNat = (r - md).toNat := by omega
        have hpos : l.toNat + (md - l + 1).toNat = (md + 1).toNat := by omega
        rw [hh2, hS, List.drop_take, List.drop_drop, hcount, hpos, ← hS2]
      have hSgt : 1 < S.length := by
        rw [hSlen]
        omega
      conv_rhs => rw [SegSort_eq_of_gt hSgt]
      rw [hS_take, hS_drop]
    · have hred : mergeSortF (f + 1) arr l r = arr := by
        simp only [mergeSortF, if_neg hlt]
      rw [hred, SegSort_eq_of_le (by rw [List.length_take, List.length_drop]; omega)]
      exact (splice_id arr l r h0 hlr hr).symm

/-- The top-level call computes exactly the functional `SegSort` of the
whole list. -/
theorem mergeSort_eq_SegSort (arr : List α) :
    mergeSort arr 0 ((arr.length : ℤ) - 1) = SegSort arr := by
  rw [mergeSort, mergeSortF_eq _ arr 0 ((arr.length : ℤ) - 1) le_rfl le_rfl (by omega) (by omega)]
  rcases Nat.eq_zero_or_pos arr.length with h0 | h0
  · have : arr = [] := List.length_eq_zero.mp h0
    rw [this]
    simp
  · have h1 : ((0 : ℤ)).toNat = 0 := rfl
    have h2 : ((arr.length : ℤ) - 1 - 0 + 1).toNat = arr.length := by omega
    have h3 : ((arr.length : ℤ) - 1 + 1).toNat = arr.length := by omega
    rw [h1, h2, h3]
    simp only [List.take_zero, List.drop_zero, List.nil_append, List.drop_length,
      List.append_nil]
    rw [List.take_of_length_le le_rfl]

end MergeProof

/-! ## Insertion sort correctness -/

section InsertionProof

variable {α : Type} [Inhabited α] [Preorder α]
variable [DecidableRel ((· ≤ ·) : α → α → Prop)]
variable [DecidableRel ((· < ·) : α → α → Prop)]

/-- The inner shifting loop: below the placement point nothing moves, the
window `(p, t]` is shifted right by one, everything shifted was `> key`,
and the element just below the placement point (if any) is not `> key`. -/
theorem insLoop_spec (key : α) : ∀ (t : ℕ) (b : List α), t < b.length →
    (insLoop key b t).1.length = b.length ∧
    (insLoop key b t).2 ≤ t ∧
    (∀ m, m ≤ (insLoop key b t).2 → (insLoop key b t).1.getD m default = b.getD m default) ∧
    (∀ m, (insLoop key b t).2 < m → m ≤ t →
      (insLoop key b t).1.getD m default = b.getD (m - 1) default) ∧
    (∀ m, t < m → (insLoop key b t).1.getD m default = b.getD m default) ∧
    ((insLoop key b t).2 ≠ 0 → ¬ b.getD ((insLoop key b t).2 - 1) default > key) ∧
    (∀ m, (insLoop key b t).2 ≤ m → m < t → b.getD m default > key) := by
  intro t
  induction t with
  | zero =>
    intro b hb
    have hred : insLoop key b 0 = (b, 0) := rfl
    rw [hred]
    exact ⟨rfl, le_rfl, fun m _ => rfl, fun m h1 h2 => by omega, fun m _ => rfl,
      fun h => absurd rfl h, fun m h1 h2 => by omega⟩
  | succ t ih =>
    intro b hb
    by_cases hc : b.getD t default > key
    · have hstep : insLoop key b (t + 1) =
          insLoop key (b.set (t + 1) (b.getD t default)) t := by
        simp only [insLoop, if_pos hc]
      set b2 := b.set (t + 1) (b.getD t default) with hb2
      have hlen2 : b2.length = b.length := List.length_set ..
      have hget2_ne : ∀ m, m ≠ t + 1 → b2.getD m default = b.getD m default :=
        fun m hm => getD_set_ne (Ne.symm hm) _ _
      have hget2_t1 : b2.getD (t + 1) default = b.getD t default :=
        getD_set_self (by omega) _ _
      obtain ⟨ilen, ile, ibelow, ishift, iabove, iexit, igt⟩ :=
        ih b2 (by omega)
      rw [hstep]
      refine ⟨by rw [ilen, hlen2], by omega, ?_, ?_, ?_, ?_, ?_⟩
      · intro m hm
        rw [ibelow m hm, hget2_ne m (by omega)]
      · intro m hm1 hm2
        rcases Nat.lt_or_ge m (t + 1) with hmt | hmt
        · rw [ishift m hm1 (by omega), hget2_ne (m - 1) (by omega)]
        · have hm' : m = t + 1 := by omega
          rw [hm', iabove (t + 1) (by omega), hget2_t1]
          simp
      · intro m hm
        rw [iabove m (by omega), hget2_ne m (by omega)]
      · intro hp
        have := iexit hp
        rwa [hget2_ne _ (by omega)] at this
      · intro m hm1 hm2
        rcases Nat.lt_or_ge m t with hmt | hmt
        · have := igt m hm1 hmt
          rwa [hget2_ne m (by omega)] at this
        · have hm' : m = t := by omega
          rw [hm']
          exact hc
    · have hstep : insLoop key b (t + 1) = (b, t + 1) := by
        simp only [insLoop, if_neg hc]
      rw [hstep]
      exact ⟨rfl, le_rfl, fun m _ => rfl, fun m h1 h2 => by omega, fun m _ => rfl,
        fun _ => by simpa using hc, fun m h1 h2 => by omega⟩

/-- Extensionality through `getD` at the default element. -/
theorem ext_getD {b1 b2 : List α} (hlen : b1.length = b2.length)
    (h : ∀ m, m < b2.length → b1.getD m default = b2.getD m default) : b1 = b2 :=
  List.ext_getElem hlen fun m hm hm' => by
    have := h m hm'
    rwa [getD_eq_getElem hm, getD_eq_getElem hm'] at this

theorem getD_append_left' {l1 l2 : List α} {m : ℕ} (h : m < l1.length) :
    (l1 ++ l2).getD m default = l1.getD m default := by
  rw [getD_eq_getElem (by rw [List.length_append]; omega), getD_eq_getElem h,
    List.getElem_append_left h]

theorem getD_append_right' {l1 l2 : List α} {m : ℕ} (h : l1.length ≤ m)
    (h2 : m < l1.length + l2.length) :
    (l1 ++ l2).getD m default = l2.getD (m - l1.length) default := by
  rw [getD_eq_getElem (by rw [List.length_append]; omega), getD_eq_getElem (by omega),
    List.getElem_append_right h]

theorem getD_take' {l : List α} {p m : ℕ} (h : m < p) (hm : m < l.length) :
    (l.take p).getD m default = l.getD m default := by
  rw [getD_eq_getElem (by rw [List.length_take]; omega), getD_eq_getElem hm,
    List.getElem_take]

theorem getD_drop' {l : List α} {p m : ℕ} (h : p + m < l.length) :
    (l.drop p).getD m default = l.getD (p + m) default := by
  rw [getD_eq_getElem (by rw [List.length_drop]; omega), getD_eq_getElem h,
    List.getElem_drop]

/-- The rotation performed by one insertion step is a permutation. -/
theorem insert_decomp {b b2 : List α} {p i : ℕ} (hp : p ≤ i) (hi : i < b.length)
    (hlen : b2.length = b.length)
    (h1 : ∀ m, m < p → b2.getD m default = b.getD m default)
    (h2 : b2.getD p default = b.getD i default)
    (h3 : ∀ m, p < m → m ≤ i → b2.getD m default = b.getD (m - 1) default)
    (h4 : ∀ m, i < m → m < b.length → b2.getD m default = b.getD m default) :
    b2.Perm b := by
  have htp : (b.take p).length = p := by
    rw [List.length_take]
    omega
  have htq : ((b.drop p).take (i - p)).length = i - p := by
    simp only [List.length_take, List.length_drop]
    omega
  have e1 : b2 = b.take p ++ b.getD i default ::
      ((b.drop p).take (i - p) ++ b.drop (i + 1)) := by
    refine ext_getD ?_ ?_
    · simp only [List.length_append, List.length_cons, htp, htq, List.length_drop, hlen]
      omega
    · intro m hm
      have hmb : m < b.length := by
        simp only [List.length_append, List.length_cons, htp, htq, List.length_drop] at hm
        omega
      rcases Nat.lt_or_ge m p with hcase | hcase
      · rw [getD_append_left' (by omega), getD_take' hcase hmb, h1 m hcase]
      · rw [getD_append_right' (by omega) (by
          simp only [htp, List.length_cons, List.length_append, htq, List.length_drop]
          omega), htp]
        rcases Nat.eq_or_lt_of_le hcase with hpm | hgt
        · have h0 : m - p = 0 := by omega
          rw [h0, List.getD_cons_zero]
          have hmp : m = p := hpm.symm
          rw [hmp]
          exact h2
        · have hsub : m - p = (m - p - 1) + 1 := by omega
          rw [hsub, List.getD_cons_succ]
          rcases Nat.lt_or_ge m (i + 1) with hmi | hmi
          · rw [getD_append_left' (by rw [htq]; omega),
              getD_take' (by omega) (by rw [List.length_drop]; omega),
              getD_drop' (by omega)]
            have harith : p + (m - p - 1) = m - 1 := by omega
            rw [harith]
            exact h3 m hgt (by omega)
          · rw [getD_append_right' (by rw [htq]; omega) (by
              simp only [htq, List.length_drop]
              omega), htq, getD_drop' (by omega)]
            have harith : i + 1 + (m - p - 1 - (i - p)) = m := by omega
            rw [harith]
            exact h4 m (by omega) hmb
  have e2 : b = b.take p ++ ((b.drop p).take (i - p) ++ b.getD i default :: b.drop (i + 1)) := by
    have hdi : b.getD i default :: b.drop (i + 1) = b.drop i := by
      rw [getD_eq_getElem hi]
      exact (List.drop_eq_getElem_cons hi).symm
    rw [hdi]
    have hdd : (b.drop p).take (i - p) ++ b.drop i = b.drop p := by
      have : b.drop i = (b.drop p).drop (i - p) := by
        rw [List.drop_drop]
        congr 1
        omega
      rw [this, List.take_append_drop]
    rw [hdd, List.take_append_drop]
  rw [e1]
  conv_rhs => rw [e2]
  exact List.Perm.append_left _ List.perm_middle.symm

/-- One outer insertion step extends the sorted prefix. -/
theorem insOuter_spec (tot : ∀ a b : α, a ≤ b ∨ b ≤ a) :
    ∀ (c i : ℕ) (b : List α), 1 ≤ i → c + i = b.length →
      (∀ p q, p ≤ q → q < i → b.getD p default ≤ b.getD q default) →
      (insOuter c i b).length = b.length ∧
      (insOuter c i b).Perm b ∧
      (∀ p q, p ≤ q → q < b.length →
        (insOuter c i b).getD p default ≤ (insOuter c i b).getD q default) := by
  intro c
  induction c with
  | zero =>
    intro i b hi hlen hsort
    have hred : insOuter 0 i b = b := rfl
    rw [hred]
    exact ⟨rfl, List.Perm.refl _, fun p q h1 h2 => hsort p q h1 (by omega)⟩
  | succ c ih =>
    intro i b hi hlen hsort
    have hilen : i < b.length := by omega
    set key := b.getD i default with hkey
    have hstep : insOuter (c + 1) i b =
        insOuter c (i + 1) ((insLoop key b i).1.set (insLoop key b i).2 key) := by
      simp only [insOuter]
    obtain ⟨ilen, ile, ibelow, ishift, iabove, iexit, igt⟩ := insLoop_spec key i b hilen
    set b1 := (insLoop key b i).1 with hb1
    set p := (insLoop key b i).2 with hp
    set b2 := b1.set p key with hb2
    have hlen2 : b2.length = b.length := by rw [hb2, List.length_set, ilen]
    have hplen : p < b1.length := by omega
    have hget2_p : b2.getD p default = key := getD_set_self hplen _ _
    have hget2_ne : ∀ m, m ≠ p → b2.getD m default = b1.getD m default :=
      fun m hm => getD_set_ne (Ne.symm hm) _ _
    have hget2_below : ∀ m, m < p → b2.getD m default = b.getD m default := by
      intro m hm
      rw [hget2_ne m (by omega), ibelow m (by omega)]
    have hget2_shift : ∀ m, p < m → m ≤ i → b2.getD m default = b.getD (m - 1) default := by
      intro m hm1 hm2
      rw [hget2_ne m (by omega), ishift m hm1 hm2]
    have hget2_above : ∀ m, i < m → b2.getD m default = b.getD m default := by
      intro m hm
      rw [hget2_ne m (by omega), iabove m hm]
    have hperm2 : b2.Perm b :=
      insert_decomp ile hilen hlen2 hget2_below hget2_p hget2_shift
        (fun m hm1 hm2 => hget2_above m hm1)
    have hsort2 : ∀ p1 q1, p1 ≤ q1 → q1 < i + 1 → b2.getD p1 default ≤ b2.getD q1 default := by
      intro p1 q1 hpq hq1
      rcases Nat.lt_trichotomy q1 p with hq | hq | hq
      · rw [hget2_below p1 (by omega), hget2_below q1 hq]
        exact hsort p1 q1 hpq (by omega)
      · rw [hq, hget2_p]
        rcases Nat.eq_or_lt_of_le hpq with hpe | hsp
        · rw [hpe, hq, hget2_p]
        · rw [hget2_below p1 (by omega)]
          have hple : b.getD (p - 1) default ≤ key := by
            have hne : p ≠ 0 := by omega
            have := iexit hne
            rcases tot (b.getD (p - 1) default) key with h | h
            · exact h
            · by_contra hcon
              exact this (lt_of_le_not_le h hcon)
          exact le_trans (hsort p1 (p - 1) (by omega) (by omega)) hple
      · rw [hget2_shift q1 hq (by omega)]
        rcases Nat.lt_trichotomy p1 p with hp1 | hp1 | hp1
        · rw [hget2_below p1 hp1]
          exact hsort p1 (q1 - 1) (by omega) (by omega)
        · subst hp1
          rw [hget2_p]
          exact le_of_lt (igt (q1 - 1) (by omega) (by omega))
        · rw [hget2_shift p1 hp1 (by omega)]
          exact hsort (p1 - 1) (q1 - 1) (by omega) (by omega)
    obtain ⟨rlen, rperm, rsort⟩ := ih (i + 1) b2 (by omega) (by omega) hsort2
    rw [hstep]
    exact ⟨by rw [rlen, hlen2], rperm.trans hperm2,
      fun p1 q1 h1 h2 => rsort p1 q1 h1 (by omega)⟩

/-- `insertion_sort` sorts. -/
theorem insertion_sort_spec (tot : ∀ a b : α, a ≤ b ∨ b ≤ a) (b : List α) :
    (insertion_sort b).length = b.length ∧
    (insertion_sort b).Perm b ∧
    (insertion_sort b).Sorted (· ≤ ·) := by
  rcases Nat.lt_or_ge b.length 1 with hb | hb
  · have : b = [] := List.length_eq_zero.mp (by omega)
    subst this
    exact ⟨rfl, List.Perm.refl _, List.sorted_nil⟩
  · have hrw : insertion_sort b = insOuter (b.length - 1) 1 b := rfl
    obtain ⟨rlen, rperm, rsort⟩ := insOuter_spec tot (b.length - 1) 1 b le_rfl (by omega)
      (fun p q hq1 hq2 => by
        have hz : p = 0 ∧ q = 0 := by omega
        rw [hz.1, hz.2])
    rw [hrw]
    refine ⟨rlen, rperm, ?_⟩
    rw [List.Sorted, List.pairwise_iff_getElem]
    intro a b' ha hb' hab
    have := rsort a b' (by omega) (by rw [rlen] at hb'; omega)
    rwa [getD_eq_getElem ha, getD_eq_getElem hb'] at this

end InsertionProof

/-! ## Bucket sort correctness -/

section SetSeqAppend

variable {α : Type} [Inhabited α] [Preorder α]
variable [DecidableRel ((· ≤ ·) : α → α → Prop)]
variable [DecidableRel ((· < ·) : α → α → Prop)]

theorem setSeq_append (l1 l2 : List α) : ∀ (arr : List α) (idx : ℕ),
    setSeq arr idx (l1 ++ l2) = setSeq (setSeq arr idx l1) (idx + l1.length) l2 := by
  induction l1 with
  | nil =>
    intro arr idx
    simp only [List.nil_append, List.length_nil, Nat.add_zero]
    rfl
  | cons v vs ih =>
    intro arr idx
    have h1 : setSeq arr idx ((v :: vs) ++ l2) = setSeq (arr.set idx v) (idx + 1) (vs ++ l2) :=
      rfl
    have h2 : setSeq arr idx (v :: vs) = setSeq (arr.set idx v) (idx + 1) vs := rfl
    rw [h1, ih, h2]
    have h3 : idx + 1 + vs.length = idx + (v :: vs).length := by
      simp only [List.length_cons]
      omega
    rw [h3]

end SetSeqAppend

section BucketProof

theorem pyInt_mono {p q : ℚ} (h : p ≤ q) : pyInt p ≤ pyInt q := by
  rw [pyInt, pyInt]
  by_cases hp : 0 ≤ p
  · rw [if_pos hp, if_pos (le_trans hp h)]
    exact Int.floor_mono h
  · rw [if_neg hp]
    by_cases hq : 0 ≤ q
    · rw [if_pos hq]
      have hc : ⌈p⌉ ≤ 0 := by
        have : ⌈p⌉ ≤ ⌈(0:ℚ)⌉ := Int.ceil_mono (le_of_not_le hp)
        rwa [Int.ceil_zero] at this
      have hf : (0:ℤ) ≤ ⌊q⌋ := Int.le_floor.mpr (by exact_mod_cast hq)
      omega
    · rw [if_neg hq]
      exact Int.ceil_mono h

theorem bucketIndex_bounds {n : ℕ} (hn : 1 ≤ n) {v : ℚ} (h0 : 0 ≤ v) (h1 : v < 1) :
    0 ≤ bucketIndex n v ∧ bucketIndex n v < (n : ℤ) := by
  have hnv : (0:ℚ) ≤ (n:ℚ) * v := mul_nonneg (by positivity) h0
  have hpy : pyInt ((n:ℚ) * v) = ⌊(n:ℚ) * v⌋ := by rw [pyInt, if_pos hnv]
  constructor
  · rw [bucketIndex, hpy]
    refine le_min (Int.le_floor.mpr (by exact_mod_cast hnv)) (by omega)
  · rw [bucketIndex]
    have := min_le_right (pyInt ((n:ℚ) * v)) ((n:ℤ) - 1)
    omega

theorem bucketIndex_mono {n : ℕ} {u v : ℚ} (h : u ≤ v) :
    bucketIndex n u ≤ bucketIndex n v := by
  rw [bucketIndex, bucketIndex]
  exact min_le_min (pyInt_mono (mul_le_mul_of_nonneg_left h (by positivity))) le_rfl

theorem flatten_set_append (v : ℚ) : ∀ (buckets : List (List ℚ)) (k : ℕ),
    k < buckets.length →
    (buckets.set k (buckets.getD k [] ++ [v])).flatten.Perm (buckets.flatten ++ [v]) := by
  intro buckets
  induction buckets with
  | nil =>
    intro k hk
    simp at hk
  | cons b bs ih =>
    intro k hk
    cases k with
    | zero =>
      rw [List.set_cons_zero, List.getD_cons_zero, List.flatten_cons, List.flatten_cons,
        List.append_assoc, List.append_assoc]
      exact List.Perm.append_left b List.perm_append_comm
    | succ k =>
      rw [List.set_cons_succ, List.getD_cons_succ, List.flatten_cons, List.flatten_cons,
        List.append_assoc]
      exact List.Perm.append_left b (ih k (by simpa using hk))

theorem flatten_replicate_nil (n : ℕ) : (List.replicate n ([] : List ℚ)).flatten = [] := by
  induction n with
  | zero => rfl
  | succ n ih => rw [List.replicate_succ, List.flatten_cons, List.nil_append, ih]

theorem getD_replicate_nil : ∀ (n k : ℕ), (List.replicate n ([] : List ℚ)).getD k [] = [] := by
  intro n
  induction n with
  | zero =>
    intro k
    cases k <;> rfl
  | succ n ih =>
    intro k
    cases k with
    | zero => rw [List.replicate_succ, List.getD_cons_zero]
    | succ k => rw [List.replicate_succ, List.getD_cons_succ, ih]

/-- The scatter loop succeeds on in-domain values, preserves the bucket
count, adds exactly the scattered values to the buckets (as a multiset),
and places every value in the bucket its `bucketIndex` selects. -/
theorem scatterLoop_spec {n : ℕ} (hn : 1 ≤ n) :
    ∀ (vals : List ℚ) (buckets : List (List ℚ)),
      buckets.length = n →
      (∀ v ∈ vals, 0 ≤ v ∧ v < 1) →
      ∃ out, scatterLoop n vals buckets = some out ∧
        out.length = n ∧
        out.flatten.Perm (buckets.flatten ++ vals) ∧
        (∀ k x, x ∈ out.getD k [] → x ∈ buckets.getD k [] ∨ bucketIndex n x = (k : ℤ)) := by
  intro vals
  induction vals with
  | nil =>
    intro buckets hlen hdom
    exact ⟨buckets, rfl, hlen, by simp, fun k x hx => Or.inl hx⟩
  | cons v rest ih =>
    intro buckets hlen hdom
    have hv := hdom v (List.mem_cons_self ..)
    obtain ⟨hb0, hb1⟩ := bucketIndex_bounds hn hv.1 hv.2
    have hbi : pyIdx buckets.length (bucketIndex n v) = bucketIndex n v := by
      rw [pyIdx, if_neg (by omega)]
    have hcond : 0 ≤ pyIdx buckets.length (bucketIndex n v) ∧
        pyIdx buckets.length (bucketIndex n v) < (buckets.length : ℤ) := by
      rw [hbi, hlen]
      exact ⟨hb0, hb1⟩
    set k := (pyIdx buckets.length (bucketIndex n v)).toNat with hkdef
    have hkz : (k : ℤ) = bucketIndex n v := by
      rw [hkdef, hbi]
      omega
    have hkn : k < buckets.length := by omega
    have hstep : scatterLoop n (v :: rest) buckets =
        scatterLoop n rest (buckets.set k ((buckets.getD k []) ++ [v])) := by
      simp only [scatterLoop]
      rw [if_pos hcond]
    set buckets2 := buckets.set k ((buckets.getD k []) ++ [v]) with hb2def
    obtain ⟨out, ho1, ho2, ho3, ho4⟩ := ih buckets2
      (by rw [hb2def, List.length_set, hlen])
      (fun w hw => hdom w (List.mem_cons_of_mem _ hw))
    refine ⟨out, by rw [hstep]; exact ho1, ho2, ?_, ?_⟩
    · have hfl : buckets2.flatten.Perm (buckets.flatten ++ [v]) :=
        flatten_set_append v buckets k hkn
      have hcomb := ho3.trans (hfl.append_right rest)
      have he : (buckets.flatten ++ [v]) ++ rest = buckets.flatten ++ (v :: rest) := by
        rw [List.append_assoc]
        rfl
      rwa [he] at hcomb
    · intro k' x hx
      rcases ho4 k' x hx with hold | hnew
      · by_cases hkk : k = k'
        · rw [← hkk, hb2def, getD_set_self hkn] at hold
          rcases List.mem_append.mp hold with h | h
          · exact Or.inl (by rwa [hkk] at h)
          · right
            have hxv : x = v := by simpa using h
            rw [hxv, ← hkk, hkz]
        · rw [hb2def, getD_set_ne hkk] at hold
          exact Or.inl hold
      · exact Or.inr hnew

theorem flatten_map_insertion_sort_perm (bs : List (List ℚ)) :
    (bs.map insertion_sort).flatten.Perm bs.flatten := by
  induction bs with
  | nil => exact List.Perm.refl _
  | cons b bs ih =>
    rw [List.map_cons, List.flatten_cons, List.flatten_cons]
    exact List.Perm.append ((insertion_sort_spec (fun a b => le_total a b) b).2.1) ih

theorem gatherOne_eq : ∀ (b : List ℚ) (arr : List ℚ) (idx : ℕ),
    gatherOne arr idx b = (setSeq arr idx b, idx + b.length) := by
  intro b
  induction b with
  | nil =>
    intro arr idx
    rfl
  | cons v vs ih =>
    intro arr idx
    have h1 : gatherOne arr idx (v :: vs) = gatherOne (arr.set idx v) (idx + 1) vs := rfl
    have h2 : setSeq arr idx (v :: vs) = setSeq (arr.set idx v) (idx + 1) vs := rfl
    rw [h1, h2, ih]
    have h3 : idx + 1 + vs.length = idx + (v :: vs).length := by
      simp only [List.length_cons]
      omega
    rw [h3]

theorem gatherAll_eq : ∀ (bs : List (List ℚ)) (arr : List ℚ) (idx : ℕ),
    gatherAll arr idx bs = setSeq arr idx bs.flatten := by
  intro bs
  induction bs with
  | nil =>
    intro arr idx
    rfl
  | cons b bs ih =>
    intro arr idx
    have h1 : gatherAll arr idx (b :: bs) =
        gatherAll (gatherOne arr idx b).1 (gatherOne arr idx b).2 bs := rfl
    rw [h1, gatherOne_eq]
    dsimp only
    rw [ih, List.flatten_cons, setSeq_append]

/-- `bucket_sort` sorts every list whose values all lie in `[0, 1)`. -/
theorem bucket_sort_spec (arr : List ℚ) (hdom : ∀ v ∈ arr, 0 ≤ v ∧ v < 1) :
    ∃ out, bucket_sort arr = some out ∧ out.Perm arr ∧ out.Sorted (· ≤ ·) := by
  rcases Nat.eq_zero_or_pos arr.length with h0 | hn
  · have harr : arr = [] := List.length_eq_zero.mp h0
    subst harr
    exact ⟨[], rfl, List.Perm.refl _, List.sorted_nil⟩
  · obtain ⟨bk, hb1, hb2, hb3, hb4⟩ :=
      scatterLoop_spec hn arr (List.replicate arr.length []) (by simp) hdom
    have hhom : ∀ k x, x ∈ bk.getD k [] → bucketIndex arr.length x = (k : ℤ) := by
      intro k x hx
      rcases hb4 k x hx with h | h
      · rw [getD_replicate_nil] at h
        simp at h
      · exact h
    have hbflat : bk.flatten.Perm arr := by
      have := hb3
      rwa [flatten_replicate_nil, List.nil_append] at this
    set sb := bk.map insertion_sort with hsb
    have hsbflat : sb.flatten.Perm arr := (flatten_map_insertion_sort_perm bk).trans hbflat
    have hstep : bucket_sort arr = some (gatherAll arr 0 sb) := by
      simp only [bucket_sort]
      rw [hb1]
    have hlenf : sb.flatten.length = arr.length := hsbflat.length_eq
    have hout : gatherAll arr 0 sb = sb.flatten := by
      rw [gatherAll_eq, setSeq_splice _ _ _ (by omega)]
      simp only [List.take_zero, List.nil_append, Nat.zero_add, hlenf, List.drop_length,
        List.append_nil]
    have hsorted : sb.flatten.Sorted (· ≤ ·) := by
      rw [List.Sorted, List.pairwise_flatten]
      constructor
      · intro l hl
        obtain ⟨b, hbmem, hbl⟩ := List.mem_map.mp hl
        rw [← hbl]
        exact (insertion_sort_spec (fun a b => le_total a b) b).2.2
      · rw [List.pairwise_iff_getElem]
        intro i j hi hj hij x hx y hy
        have hib : i < bk.length := by simpa [hsb] using hi
        have hjb : j < bk.length := by simpa [hsb] using hj
        have hxm : x ∈ bk.getD i [] := by
          rw [getD_eq_getElem hib]
          simp only [hsb, List.getElem_map] at hx
          exact ((insertion_sort_spec (fun a b => le_total a b) _).2.1.mem_iff).mp hx
        have hym : y ∈ bk.getD j [] := by
          rw [getD_eq_getElem hjb]
          simp only [hsb, List.getElem_map] at hy
          exact ((insertion_sort_spec (fun a b => le_total a b) _).2.1.mem_iff).mp hy
        have hxi := hhom i x hxm
        have hyj := hhom j y hym
        by_contra hxy
        have hyx : y ≤ x := (le_total x y).resolve_left hxy
        have := @bucketIndex_mono arr.length y x hyx
        rw [hxi, hyj] at this
        omega
    exact ⟨sb.flatten, by rw [hstep, hout], hsbflat, hsorted⟩

end BucketProof

/-! ## Quicksort recorder: engine agreement, replay, swap-index invariant -/

section QSProof

variable {α : Type} [Inhabited α] [Preorder α]
variable [DecidableRel ((· ≤ ·) : α → α → Prop)]
variable [DecidableRel ((· < ·) : α → α → Prop)]

theorem swap_self (l : List α) (i : ℤ) : swap l i i = l := by
  have h : swap l i i
      = (l.set (pyIdx l.length i).toNat (pyGet l i)).set
          (pyIdx (l.set (pyIdx l.length i).toNat (pyGet l i)).length i).toNat (pyGet l i) :=
    rfl
  rw [h, List.length_set, List.set_set]
  exact set_getD_self default

theorem qsReplay_cons (c : List α) (e : QSEvent α) (l : List (QSEvent α)) :
    qsReplay c (e :: l) = qsReplay (qsReplayStep c e) l := rfl

theorem qsReplay_append (c : List α) (l1 l2 : List (QSEvent α)) :
    qsReplay c (l1 ++ l2) = qsReplay (qsReplay c l1) l2 := by
  rw [qsReplay, qsReplay, qsReplay, List.foldl_append]

/-- `qsPartLoop` appends events, never touches `original`, evolves `data`
exactly as the engine's `partitionLoop` (the engine's self-swaps are
identities), returns the same boundary index, replays its own event delta
to its final data, and every `swap` event it pushes has distinct indices. -/
theorem qsPartLoop_spec (pivot : α) (lo hi : ℤ) :
    ∀ (k : ℕ) (st : QSState α) (i j : ℤ),
      ∃ δ : List (QSEvent α),
        (qsPartLoop pivot lo hi k st i j).1.events = st.events ++ δ ∧
        (qsPartLoop pivot lo hi k st i j).1.original = st.original ∧
        (qsPartLoop pivot lo hi k st i j).1.data = (partitionLoop pivot k st.data i j).1 ∧
        (qsPartLoop pivot lo hi k st i j).2 = (partitionLoop pivot k st.data i j).2 ∧
        qsReplay st.data δ = (qsPartLoop pivot lo hi k st i j).1.data ∧
        (∀ e ∈ δ, ∀ d l' h' p a b, e = QSEvent.swap d l' h' p a b → a ≠ b) := by
  intro k
  induction k with
  | zero =>
    intro st i j
    exact ⟨[], (List.append_nil _).symm, rfl, rfl, rfl, rfl, by simp⟩
  | succ k ih =>
    intro st i j
    by_cases hc : pyGet st.data j < pivot
    · by_cases hij : i + 1 ≠ j
      · have hstep : qsPartLoop pivot lo hi (k + 1) st i j =
            qsPartLoop pivot lo hi k
              ⟨st.original, swap st.data (i + 1) j, st.sset,
                (st.events ++ [QSEvent.compare st.data lo hi hi j]) ++
                  [QSEvent.swap st.data lo hi hi (i + 1) j]⟩ (i + 1) (j + 1) := by
          simp only [qsPartLoop, qsPush]
          rw [if_pos hc, if_pos hij]
        have heng : partitionLoop pivot (k + 1) st.data i j =
            partitionLoop pivot k (swap st.data (i + 1) j) (i + 1) (j + 1) := by
          simp only [partitionLoop]
          rw [if_pos hc]
        obtain ⟨δ, h1, h2, h3, h4, h5, h6⟩ := ih
          ⟨st.original, swap st.data (i + 1) j, st.sset,
            (st.events ++ [QSEvent.compare st.data lo hi hi j]) ++
              [QSEvent.swap st.data lo hi hi (i + 1) j]⟩ (i + 1) (j + 1)
        refine ⟨QSEvent.compare st.data lo hi hi j ::
            QSEvent.swap st.data lo hi hi (i + 1) j :: δ, ?_, ?_, ?_, ?_, ?_, ?_⟩
        · rw [hstep, h1]
          simp
        · rw [hstep, h2]
        · rw [hstep, h3, heng]
        · rw [hstep, h4, heng]
        · rw [hstep, qsReplay_cons, qsReplay_cons]
          exact h5
        · intro e he d l' h' p a b heq
          rcases List.mem_cons.mp he with rfl | he
          · cases heq
          · rcases List.mem_cons.mp he with rfl | he
            · cases heq
              exact hij
            · exact h6 e he d l' h' p a b heq
      · have hji : i + 1 = j := by
          by_contra hcon
          exact hij hcon
        have hstep : qsPartLoop pivot lo hi (k + 1) st i j =
            qsPartLoop pivot lo hi k
              ⟨st.original, st.data, st.sset,
                st.events ++ [QSEvent.compare st.data lo hi hi j]⟩ (i + 1) (j + 1) := by
          simp only [qsPartLoop, qsPush]
          rw [if_pos hc, if_neg hij]
        have heng : partitionLoop pivot (k + 1) st.data i j =
            partitionLoop pivot k st.data (i + 1) (j + 1) := by
          simp only [partitionLoop]
          rw [if_pos hc, hji, swap_self]
        obtain ⟨δ, h1, h2, h3, h4, h5, h6⟩ := ih
          ⟨st.original, st.data, st.sset,
            st.events ++ [QSEvent.compare st.data lo hi hi j]⟩ (i + 1) (j + 1)
        refine ⟨QSEvent.compare st.data lo hi hi j :: δ, ?_, ?_, ?_, ?_, ?_, ?_⟩
        · rw [hstep, h1]
          simp
        · rw [hstep, h2]
        · rw [hstep, h3, heng]
        · rw [hstep, h4, heng]
        · rw [hstep, qsReplay_cons]
          exact h5
        · intro e he d l' h' p a b heq
          rcases List.mem_cons.mp he with rfl | he
          · cases heq
          · exact h6 e he d l' h' p a b heq
    · have hstep : qsPartLoop pivot lo hi (k + 1) st i j =
          qsPartLoop pivot lo hi k
            ⟨st.original, st.data, st.sset,
              st.events ++ [QSEvent.compare st.data lo hi hi j]⟩ i (j + 1) := by
        simp only [qsPartLoop, qsPush]
        rw [if_neg hc]
      have heng : partitionLoop pivot (k + 1) st.data i j =
          partitionLoop pivot k st.data i (j + 1) := by
        simp only [partitionLoop]
        rw [if_neg hc]
      obtain ⟨δ, h1, h2, h3, h4, h5, h6⟩ := ih
        ⟨st.original, st.data, st.sset,
          st.events ++ [QSEvent.compare st.data lo hi hi j]⟩ i (j + 1)
      refine ⟨QSEvent.compare st.data lo hi hi j :: δ, ?_, ?_, ?_, ?_, ?_, ?_⟩
      · rw [hstep, h1]
        simp
      · rw [hstep, h2]
      · rw [hstep, h3, heng]
      · rw [hstep, h4, heng]
      · rw [hstep, qsReplay_cons]
        exact h5
      · intro e he d l' h' p a b heq
        rcases List.mem_cons.mp he with rfl | he
        · cases heq
        · exact h6 e he d l' h' p a b heq

/-- Same package for `qsPartition` against the engine's `partition`. -/
theorem qsPartition_spec (st : QSState α) (lo hi : ℤ) :
    ∃ δ : List (QSEvent α),
      (qsPartition st lo hi).1.events = st.events ++ δ ∧
      (qsPartition st lo hi).1.original = st.original ∧
      (qsPartition st lo hi).1.data = (partition st.data lo hi).1 ∧
      (qsPartition st lo hi).2 = (partition st.data lo hi).2 ∧
      qsReplay st.data δ = (qsPartition st lo hi).1.data ∧
      (∀ e ∈ δ, ∀ d l' h' p a b, e = QSEvent.swap d l' h' p a b → a ≠ b) := by
  obtain ⟨δ1, h1, h2, h3, h4, h5, h6⟩ := qsPartLoop_spec (pyGet st.data hi) lo hi
    (hi - lo).toNat
    ⟨st.original, st.data, st.sset, st.events ++ [QSEvent.pivot st.data lo hi hi]⟩
    (lo - 1) lo
  set p := qsPartLoop (pyGet st.data hi) lo hi (hi - lo).toNat
    ⟨st.original, st.data, st.sset, st.events ++ [QSEvent.pivot st.data lo hi hi]⟩
    (lo - 1) lo with hp
  set pe := partitionLoop (pyGet st.data hi) (hi - lo).toNat st.data (lo - 1) lo with hpe
  by_cases hpi : p.2 + 1 ≠ hi
  · have hstep : qsPartition st lo hi =
        (⟨p.1.original, swap p.1.data (p.2 + 1) hi, insert (p.2 + 1) p.1.sset,
          (p.1.events ++ [QSEvent.swap p.1.data lo hi hi (p.2 + 1) hi]) ++
            [QSEvent.sortedIdx (swap p.1.data (p.2 + 1) hi) lo hi (p.2 + 1)
              (insert (p.2 + 1) p.1.sset)]⟩, p.2 + 1) := by
      simp only [qsPartition, qsPush]
      rw [← hp, if_pos hpi]
    refine ⟨QSEvent.pivot st.data lo hi hi :: (δ1 ++
        [QSEvent.swap p.1.data lo hi hi (p.2 + 1) hi,
         QSEvent.sortedIdx (swap p.1.data (p.2 + 1) hi) lo hi (p.2 + 1)
           (insert (p.2 + 1) p.1.sset)]), ?_, ?_, ?_, ?_, ?_, ?_⟩
    · rw [hstep]
      simp only []
      rw [h1]
      simp
    · rw [hstep]
      simp only []
      exact h2
    · rw [hstep]
      simp only [partition]
      rw [h3, h4]
    · rw [hstep]
      simp only [partition]
      rw [h4]
    · rw [hstep, qsReplay_cons]
      simp only []
      rw [qsReplay_append]
      have hd : qsReplayStep st.data (QSEvent.pivot st.data lo hi hi) = st.data := rfl
      rw [hd, h5]
      rw [qsReplay_cons, qsReplay_cons]
      rfl
    · intro e he d l' h' pp a b heq
      rcases List.mem_cons.mp he with rfl | he
      · cases heq
      · rcases List.mem_append.mp he with he | he
        · exact h6 e he d l' h' pp a b heq
        · rcases List.mem_cons.mp he with rfl | he
          · cases heq
            exact hpi
          · rcases List.mem_cons.mp he with rfl | he
            · cases heq
            · simp at he
  · have hpieq : p.2 + 1 = hi := by
      by_contra hcon
      exact hpi hcon
    have hstep : qsPartition st lo hi =
        (⟨p.1.original, p.1.data, insert (p.2 + 1) p.1.sset,
          p.1.events ++ [QSEvent.sortedIdx p.1.data lo hi (p.2 + 1)
            (insert (p.2 + 1) p.1.sset)]⟩, p.2 + 1) := by
      simp only [qsPartition, qsPush]
      rw [← hp, if_neg hpi]
    refine ⟨QSEvent.pivot st.data lo hi hi :: (δ1 ++
        [QSEvent.sortedIdx p.1.data lo hi (p.2 + 1) (insert (p.2 + 1) p.1.sset)]),
        ?_, ?_, ?_, ?_, ?_, ?_⟩
    · rw [hstep]
      simp only []
      rw [h1]
      simp
    · rw [hstep]
      simp only []
      exact h2
    · rw [hstep]
      simp only [partition]
      rw [← hpe]
      have hpe1 : pe.1 = p.1.data := by
        rw [hpe]
        exact h3.symm
      have hpe2 : pe.2 = p.2 := by
        rw [hpe]
        exact h4.symm
      rw [hpe2, hpieq, swap_self, hpe1]
    · rw [hstep]
      simp only [partition]
      rw [h4]
    · rw [hstep, qsReplay_cons]
      simp only []
      rw [qsReplay_append]
      have hd : qsReplayStep st.data (QSEvent.pivot st.data lo hi hi) = st.data := rfl
      rw [hd, h5]
      rfl
    · intro e he d l' h' pp a b heq
      rcases List.mem_cons.mp he with rfl | he
      · cases heq
      · rcases List.mem_append.mp he with he | he
        · exact h6 e he d l' h' pp a b heq
        · rcases List.mem_cons.mp he with rfl | he
          · cases heq
          · simp at he

/-- Same package for the recorder's `qs` recursion against `quickSortF`. -/
theorem qsRun_spec : ∀ (f : ℕ) (st : QSState α) (lo hi : ℤ),
    ∃ δ : List (QSEvent α),
      (qsRun f st lo hi).events = st.events ++ δ ∧
      (qsRun f st lo hi).original = st.original ∧
      (qsRun f st lo hi).data = quickSortF f st.data lo hi ∧
      qsReplay st.data δ = (qsRun f st lo hi).data ∧
      (∀ e ∈ δ, ∀ d l' h' p a b, e = QSEvent.swap d l' h' p a b → a ≠ b) := by
  intro f
  induction f with
  | zero =>
    intro st lo hi
    exact ⟨[], (List.append_nil _).symm, rfl, rfl, rfl, by simp⟩
  | succ f ih =>
    intro st lo hi
    by_cases hlt : lo < hi
    · have hstep : qsRun (f + 1) st lo hi =
          qsRun f (qsRun f (qsPartition st lo hi).1 lo ((qsPartition st lo hi).2 - 1))
            ((qsPartition st lo hi).2 + 1) hi := by
        simp only [qsRun]
        rw [if_pos hlt]
      have heng : quickSortF (f + 1) st.data lo hi =
          quickSortF f (quickSortF f (partition st.data lo hi).1 lo
            ((partition st.data lo hi).2 - 1)) ((partition st.data lo hi).2 + 1) hi := by
        simp only [quickSortF]
        rw [if_pos hlt]
      obtain ⟨δ0, p1, p2, p3, p4, p5, p6⟩ := qsPartition_spec st lo hi
      obtain ⟨δ1, q1, q2, q3, q4, q5⟩ := ih (qsPartition st lo hi).1 lo
        ((qsPartition st lo hi).2 - 1)
      obtain ⟨δ2, r1, r2, r3, r4, r5⟩ := ih
        (qsRun f (qsPartition st lo hi).1 lo ((qsPartition st lo hi).2 - 1))
        ((qsPartition st lo hi).2 + 1) hi
      refine ⟨δ0 ++ (δ1 ++ δ2), ?_, ?_, ?_, ?_, ?_⟩
      · rw [hstep, r1, q1, p1]
        simp
      · rw [hstep, r2, q2, p2]
      · rw [hstep, r3, q3, p3, heng, p4]
      · rw [hstep, qsReplay_append, qsReplay_append, p5, q4, r4]
      · intro e he d l' h' p a b heq
        rcases List.mem_append.mp he with he | he
        · exact p6 e he d l' h' p a b heq
        · rcases List.mem_append.mp he with he | he
          · exact q5 e he d l' h' p a b heq
          · exact r5 e he d l' h' p a b heq
    · by_cases heq' : lo = hi
      · have hstep : qsRun (f + 1) st lo hi =
            ⟨st.original, st.data, insert lo st.sset,
              st.events ++ [QSEvent.sortedIdx st.data lo hi lo (insert lo st.sset)]⟩ := by
          simp only [qsRun, qsPush]
          rw [if_neg hlt, if_pos heq']
        have heng : quickSortF (f + 1) st.data lo hi = st.data := by
          simp only [quickSortF]
          rw [if_neg hlt]
        refine ⟨[QSEvent.sortedIdx st.data lo hi lo (insert lo st.sset)], ?_, ?_, ?_, ?_, ?_⟩
        · rw [hstep]
        · rw [hstep]
        · rw [hstep, heng]
        · rw [hstep]
          rfl
        · intro e he d l' h' p a b heqy
          rcases List.mem_cons.mp he with rfl | he
          · cases heqy
          · simp at he
      · have hstep : qsRun (f + 1) st lo hi = st := by
          simp only [qsRun]
          rw [if_neg hlt, if_neg heq']
        have heng : quickSortF (f + 1) st.data lo hi = st.data := by
          simp only [quickSortF]
          rw [if_neg hlt]
        exact ⟨[], by rw [hstep]; simp, by rw [hstep], by rw [hstep, heng], by rw [hstep]; rfl,
          by simp⟩

/-- The quicksort recorder: replaying its `swap` records onto a copy of the
input yields exactly `quickSort(original, 0, len - 1)`; the caller's list is
untouched; every logged `swap` has distinct indices. -/
theorem qs_record_spec (original : List α) :
    qsReplay original (QSAnim.record_events original).events
      = quickSort original 0 ((original.length : ℤ) - 1) ∧
    (QSAnim.record_events original).original = original ∧
    (∀ e ∈ (QSAnim.record_events original).events,
      ∀ d l' h' p a b, e = QSEvent.swap d l' h' p a b → a ≠ b) := by
  obtain ⟨δ, h1, h2, h3, h4, h5⟩ := qsRun_spec ((original.length : ℤ) - 1 - 0 + 1).toNat
    ⟨original, original, ∅, []⟩ 0 ((original.length : ℤ) - 1)
  have hrec : QSAnim.record_events original =
      qsPush (qsRun ((original.length : ℤ) - 1 - 0 + 1).toNat ⟨original, original, ∅, []⟩
        0 ((original.length : ℤ) - 1))
        (QSEvent.done
          (qsRun ((original.length : ℤ) - 1 - 0 + 1).toNat ⟨original, original, ∅, []⟩
            0 ((original.length : ℤ) - 1)).data
          (qsRun ((original.length : ℤ) - 1 - 0 + 1).toNat ⟨original, original, ∅, []⟩
            0 ((original.length : ℤ) - 1)).sset) := rfl
  refine ⟨?_, ?_, ?_⟩
  · rw [hrec]
    simp only [qsPush]
    rw [h1]
    simp only [List.nil_append]
    rw [qsReplay_append, h4]
    have hdone : qsReplay (qsRun ((original.length : ℤ) - 1 - 0 + 1).toNat
        ⟨original, original, ∅, []⟩ 0 ((original.length : ℤ) - 1)).data
        [QSEvent.done
          (qsRun ((original.length : ℤ) - 1 - 0 + 1).toNat ⟨original, original, ∅, []⟩
            0 ((original.length : ℤ) - 1)).data
          (qsRun ((original.length : ℤ) - 1 - 0 + 1).toNat ⟨original, original, ∅, []⟩
            0 ((original.length : ℤ) - 1)).sset] =
        (qsRun ((original.length : ℤ) - 1 - 0 + 1).toNat ⟨original, original, ∅, []⟩
          0 ((original.length : ℤ) - 1)).data := rfl
    rw [hdone, h3]
    rfl
  · rw [hrec]
    simp only [qsPush]
    exact h2
  · rw [hrec]
    simp only [qsPush]
    rw [h1]
    intro e he d l' h' p a b heq
    simp only [List.nil_append] at he
    rcases List.mem_append.mp he with he | he
    · exact h5 e he d l' h' p a b heq
    · rcases List.mem_cons.mp he with rfl | he
      · cases heq
      · simp at he

end QSProof

/-! ## Heapsort recorder: engine agreement and replay -/

section HSProof

variable {α : Type} [Inhabited α] [Preorder α]
variable [DecidableRel ((· ≤ ·) : α → α → Prop)]
variable [DecidableRel ((· < ·) : α → α → Prop)]

theorem hsReplay_cons (c : List α) (e : HSEvent α) (l : List (HSEvent α)) :
    hsReplay c (e :: l) = hsReplay (hsReplayStep c e) l := rfl

theorem hsReplay_append (c : List α) (l1 l2 : List (HSEvent α)) :
    hsReplay c (l1 ++ l2) = hsReplay (hsReplay c l1) l2 := by
  rw [hsReplay, hsReplay, hsReplay, List.foldl_append]

theorem heapifyF_trivial (f : ℕ) (arr : List α) : heapifyF f arr 1 0 = arr := by
  cases f with
  | zero => rfl
  | succ f =>
    rw [heapifyF_succ]
    have h : heapLargest arr 1 0 = 0 := by
      simp [heapLargest]
    rw [h]
    simp

/-- Step equation for `hsHeapifyF` through `heapLargest`. -/
theorem hsHeapifyF_succ (f : ℕ) (st : HSState α) (n i : ℕ) :
    hsHeapifyF (f + 1) st n i =
      if heapLargest st.arr n i ≠ i then
        hsHeapifyF f
          ⟨st.original, natSwap st.arr i (heapLargest st.arr n i),
            (((st.events ++
              [HSEvent.compare st.arr n i (if 2 * i + 1 < n then ((2 * i + 1 : ℕ) : ℤ) else -1)
                (if 2 * i + 2 < n then ((2 * i + 2 : ℕ) : ℤ) else -1) i]) ++
              [HSEvent.largestFound st.arr n i (heapLargest st.arr n i)]) ++
              [HSEvent.swap st.arr n i (heapLargest st.arr n i)]) ++
              [HSEvent.afterSwap (natSwap st.arr i (heapLargest st.arr n i)) n i
                (heapLargest st.arr n i)]⟩ n (heapLargest st.arr n i)
      else
        ⟨st.original, st.arr,
          ((st.events ++
            [HSEvent.compare st.arr n i (if 2 * i + 1 < n then ((2 * i + 1 : ℕ) : ℤ) else -1)
              (if 2 * i + 2 < n then ((2 * i + 2 : ℕ) : ℤ) else -1) i]) ++
            [HSEvent.largestFound st.arr n i (heapLargest st.arr n i)]) ++
            [HSEvent.heapifyDone st.arr n i]⟩ := rfl

/-- `hsHeapifyF` appends events, never touches `original`, evolves `arr`
exactly as the engine's `heapifyF`, and replays its event delta (the `swap`
records) to its final array. -/
theorem hsHeapifyF_spec : ∀ (f : ℕ) (st : HSState α) (n i : ℕ),
    ∃ δ : List (HSEvent α),
      (hsHeapifyF f st n i).events = st.events ++ δ ∧
      (hsHeapifyF f st n i).original = st.original ∧
      (hsHeapifyF f st n i).arr = heapifyF f st.arr n i ∧
      hsReplay st.arr δ = (hsHeapifyF f st n i).arr := by
  intro f
  induction f with
  | zero =>
    intro st n i
    exact ⟨[], (List.append_nil _).symm, rfl, rfl, rfl⟩
  | succ f ih =>
    intro st n i
    rw [hsHeapifyF_succ, heapifyF_succ]
    by_cases hbr : heapLargest st.arr n i ≠ i
    · rw [if_pos hbr, if_pos hbr]
      obtain ⟨δ, h1, h2, h3, h4⟩ := ih
        ⟨st.original, natSwap st.arr i (heapLargest st.arr n i),
          (((st.events ++
            [HSEvent.compare st.arr n i (if 2 * i + 1 < n then ((2 * i + 1 : ℕ) : ℤ) else -1)
              (if 2 * i + 2 < n then ((2 * i + 2 : ℕ) : ℤ) else -1) i]) ++
            [HSEvent.largestFound st.arr n i (heapLargest st.arr n i)]) ++
            [HSEvent.swap st.arr n i (heapLargest st.arr n i)]) ++
            [HSEvent.afterSwap (natSwap st.arr i (heapLargest st.arr n i)) n i
              (heapLargest st.arr n i)]⟩ n (heapLargest st.arr n i)
      refine ⟨HSEvent.compare st.arr n i (if 2 * i + 1 < n then ((2 * i + 1 : ℕ) : ℤ) else -1)
          (if 2 * i + 2 < n then ((2 * i + 2 : ℕ) : ℤ) else -1) i ::
        HSEvent.largestFound st.arr n i (heapLargest st.arr n i) ::
        HSEvent.swap st.arr n i (heapLargest st.arr n i) ::
        HSEvent.afterSwap (natSwap st.arr i (heapLargest st.arr n i)) n i
          (heapLargest st.arr n i) :: δ, ?_, ?_, ?_, ?_⟩
      · rw [h1]
        simp
      · rw [h2]
      · rw [h3]
      · rw [hsReplay_cons, hsReplay_cons, hsReplay_cons, hsReplay_cons]
        exact h4
    · rw [if_neg hbr, if_neg hbr]
      refine ⟨[HSEvent.compare st.arr n i (if 2 * i + 1 < n then ((2 * i + 1 : ℕ) : ℤ) else -1)
          (if 2 * i + 2 < n then ((2 * i + 2 : ℕ) : ℤ) else -1) i,
        HSEvent.largestFound st.arr n i (heapLargest st.arr n i),
        HSEvent.heapifyDone st.arr n i], ?_, ?_, ?_, ?_⟩
      · simp
      · rfl
      · rfl
      · rfl

/-- Same package for the build phase. -/
theorem hsBuild_spec (n : ℕ) : ∀ (k : ℕ) (st : HSState α),
    ∃ δ : List (HSEvent α),
      (hsBuild n k st).events = st.events ++ δ ∧
      (hsBuild n k st).original = st.original ∧
      (hsBuild n k st).arr = buildLoop n k st.arr ∧
      hsReplay st.arr δ = (hsBuild n k st).arr := by
  intro k
  induction k with
  | zero =>
    intro st
    exact ⟨[], (List.append_nil _).symm, rfl, rfl, rfl⟩
  | succ k ih =>
    intro st
    have hstep : hsBuild n (k + 1) st =
        hsBuild n k (hsHeapifyF n ⟨st.original, st.arr,
          st.events ++ [HSEvent.startHeapify st.arr n k]⟩ n k) := rfl
    have heng : buildLoop n (k + 1) st.arr = buildLoop n k (heapifyF n st.arr n k) := rfl
    obtain ⟨δ1, g1, g2, g3, g4⟩ := hsHeapifyF_spec n
      ⟨st.original, st.arr, st.events ++ [HSEvent.startHeapify st.arr n k]⟩ n k
    obtain ⟨δ2, h1, h2, h3, h4⟩ := ih
      (hsHeapifyF n ⟨st.original, st.arr, st.events ++ [HSEvent.startHeapify st.arr n k]⟩ n k)
    refine ⟨HSEvent.startHeapify st.arr n k :: (δ1 ++ δ2), ?_, ?_, ?_, ?_⟩
    · rw [hstep, h1, g1]
      simp
    · rw [hstep, h2, g2]
    · rw [hstep, h3, g3, heng]
    · rw [hstep, hsReplay_cons, hsReplay_append]
      have hid : hsReplayStep st.arr (HSEvent.startHeapify st.arr n k) = st.arr := rfl
      rw [hid, g4, h4]

/-- Same package for the extract phase: the `extract` records carry the
swap of positions `0` and `size`. -/
theorem hsExtract_spec : ∀ (s : ℕ) (st : HSState α),
    ∃ δ : List (HSEvent α),
      (hsExtract s st).events = st.events ++ δ ∧
      (hsExtract s st).original = st.original ∧
      (hsExtract s st).arr = extractLoop s st.arr ∧
      hsReplay st.arr δ = (hsExtract s st).arr := by
  intro s
  induction s with
  | zero =>
    intro st
    exact ⟨[], (List.append_nil _).symm, rfl, rfl, rfl⟩
  | succ s ih =>
    intro st
    by_cases hs : 1 < s + 1
    · have hstep : hsExtract (s + 1) st =
          hsExtract s (hsHeapifyF (s + 1)
            ⟨st.original, natSwap st.arr 0 (s + 1),
              (st.events ++ [HSEvent.extract st.arr (s + 2) (s + 1)]) ++
                [HSEvent.afterExtract (natSwap st.arr 0 (s + 1)) (s + 1) (s + 1)]⟩
            (s + 1) 0) := by
        have h0 : hsExtract (s + 1) st =
            hsExtract s (if 1 < s + 1 then hsHeapifyF (s + 1)
              ⟨st.original, natSwap st.arr 0 (s + 1),
                (st.events ++ [HSEvent.extract st.arr (s + 2) (s + 1)]) ++
                  [HSEvent.afterExtract (natSwap st.arr 0 (s + 1)) (s + 1) (s + 1)]⟩
              (s + 1) 0
            else ⟨st.original, natSwap st.arr 0 (s + 1),
              (st.events ++ [HSEvent.extract st.arr (s + 2) (s + 1)]) ++
                [HSEvent.afterExtract (natSwap st.arr 0 (s + 1)) (s + 1) (s + 1)]⟩) := rfl
        rw [h0, if_pos hs]
      have heng : extractLoop (s + 1) st.arr =
          extractLoop s (heapifyF (s + 1) (natSwap st.arr 0 (s + 1)) (s + 1) 0) := rfl
      obtain ⟨δ1, g1, g2, g3, g4⟩ := hsHeapifyF_spec (s + 1)
        ⟨st.original, natSwap st.arr 0 (s + 1),
          (st.events ++ [HSEvent.extract st.arr (s + 2) (s + 1)]) ++
            [HSEvent.afterExtract (natSwap st.arr 0 (s + 1)) (s + 1) (s + 1)]⟩ (s + 1) 0
      obtain ⟨δ2, h1, h2, h3, h4⟩ := ih (hsHeapifyF (s + 1)
        ⟨st.original, natSwap st.arr 0 (s + 1),
          (st.events ++ [HSEvent.extract st.arr (s + 2) (s + 1)]) ++
            [HSEvent.afterExtract (natSwap st.arr 0 (s + 1)) (s + 1) (s + 1)]⟩ (s + 1) 0)
      refine ⟨HSEvent.extract st.arr (s + 2) (s + 1) ::
          HSEvent.afterExtract (natSwap st.arr 0 (s + 1)) (s + 1) (s + 1) :: (δ1 ++ δ2),
          ?_, ?_, ?_, ?_⟩
      · rw [hstep, h1, g1]
        simp
      · rw [hstep, h2, g2]
      · rw [hstep, h3, g3, heng]
      · rw [hstep, hsReplay_cons, hsReplay_cons, hsReplay_append]
        have hid : hsReplayStep (hsReplayStep st.arr (HSEvent.extract st.arr (s + 2) (s + 1)))
            (HSEvent.afterExtract (natSwap st.arr 0 (s + 1)) (s + 1) (s + 1)) =
            natSwap st.arr 0 (s + 1) := rfl
        rw [hid, g4, h4]
    · have hs0 : s = 0 := by omega
      subst hs0
      have hstep : hsExtract 1 st =
          ⟨st.original, natSwap st.arr 0 1,
            (st.events ++ [HSEvent.extract st.arr 2 1]) ++
              [HSEvent.afterExtract (natSwap st.arr 0 1) 1 1]⟩ := rfl
      have heng : extractLoop 1 st.arr = heapifyF 1 (natSwap st.arr 0 1) 1 0 := rfl
      refine ⟨[HSEvent.extract st.arr 2 1,
          HSEvent.afterExtract (natSwap st.arr 0 1) 1 1], ?_, ?_, ?_, ?_⟩
      · rw [hstep]
        simp
      · rw [hstep]
      · rw [hstep, heng, heapifyF_trivial]
      · rw [hstep]
        rfl

/-- The heapsort recorder: its working array ends exactly at
`heapSort(original)`, replaying its `swap` and `extract` records onto a
copy of the input reproduces that result, and the caller's list is
untouched. -/
theorem hs_record_spec (original : List α) :
    hsReplay original (HSAnim.record_events original).events = heapSort original ∧
    (HSAnim.record_events original).arr = heapSort original ∧
    (HSAnim.record_events original).original = original := by
  obtain ⟨δ1, g1, g2, g3, g4⟩ := hsBuild_spec original.length (original.length / 2)
    ⟨original, original, [HSEvent.phase original false]⟩
  set stB := hsBuild original.length (original.length / 2)
    ⟨original, original, [HSEvent.phase original false]⟩ with hstB
  obtain ⟨δ2, h1, h2, h3, h4⟩ := hsExtract_spec (original.length - 1)
    ⟨stB.original, stB.arr,
      (stB.events ++ [HSEvent.heapReady stB.arr]) ++ [HSEvent.phase stB.arr true]⟩
  set stE := hsExtract (original.length - 1)
    ⟨stB.original, stB.arr,
      (stB.events ++ [HSEvent.heapReady stB.arr]) ++ [HSEvent.phase stB.arr true]⟩ with hstE
  have hrec : HSAnim.record_events original =
      ⟨stE.original, stE.arr, stE.events ++ [HSEvent.done stE.arr]⟩ := rfl
  have harr : stE.arr = heapSort original := by
    rw [hstE]
    have h3' : stE.arr = extractLoop (original.length - 1) stB.arr := h3
    rw [hstE] at h3'
    rw [h3', g3]
    rfl
  refine ⟨?_, ?_, ?_⟩
  · rw [hrec]
    have hev : stE.events = ((([HSEvent.phase original false] ++ δ1) ++
        [HSEvent.heapReady stB.arr]) ++ [HSEvent.phase stB.arr true]) ++ δ2 := by
      rw [hstE]
      have h1' : stE.events = (stB.events ++ [HSEvent.heapReady stB.arr]) ++
          [HSEvent.phase stB.arr true] ++ δ2 := h1
      rw [hstE] at h1'
      rw [h1', g1]
    simp only []
    rw [hev]
    rw [hsReplay_append, hsReplay_append, hsReplay_append, hsReplay_append, hsReplay_append]
    have e1 : hsReplay original [HSEvent.phase original false] = original := rfl
    rw [e1, g4]
    have e2 : hsReplay stB.arr [HSEvent.heapReady stB.arr] = stB.arr := rfl
    have e3 : hsReplay stB.arr [HSEvent.phase stB.arr true] = stB.arr := rfl
    rw [e2, e3]
    have h4' : hsReplay stB.arr δ2 = stE.arr := h4
    rw [h4']
    have e4 : hsReplay stE.arr [HSEvent.done stE.arr] = stE.arr := rfl
    rw [e4, harr]
  · rw [hrec]
    simp only []
    exact harr
  · rw [hrec]
    simp only []
    have h2' : stE.original = stB.original := h2
    rw [h2', g2]

end HSProof

/-! ## Bucket sort recorder: engine agreement and replay -/

section BSHelpers

theorem take_append_cons {γ : Type} (A : List γ) (x : γ) (B : List γ) :
    (A ++ x :: B).take (A.length + 1) = A ++ [x] := by
  rw [List.take_append_eq_append_take]
  simp

theorem drop_append_cons {γ : Type} (A : List γ) (x : γ) (B : List γ) :
    (A ++ x :: B).drop (A.length + 1) = B := by
  rw [List.drop_append_eq_append_drop]
  simp

theorem getD_drop0 {l : List ℚ} {p m : ℕ} (h : p + m < l.length) :
    (l.drop p).getD m 0 = l.getD (p + m) 0 := getD_drop' h

theorem getD_map_val (arr : List ℚ) (l : List ℕ) (k : ℕ) (hk : k < l.length) :
    (l.map fun oi => arr.getD oi 0).getD k 0 = arr.getD (l.getD k 0) 0 := by
  rw [getD_eq_getElem (by rw [List.length_map]; exact hk) 0, List.getElem_map,
    getD_eq_getElem hk 0]

theorem getD_map_bucket (arr : List ℚ) (l : List (List ℕ)) (k : ℕ) :
    (l.map (List.map fun oi => arr.getD oi 0)).getD k [] =
      (l.getD k []).map fun oi => arr.getD oi 0 := by
  rcases Nat.lt_or_ge k l.length with hk | hk
  · rw [getD_eq_getElem (by rw [List.length_map]; exact hk) ([] : List ℚ),
      List.getElem_map, getD_eq_getElem hk ([] : List ℕ)]
  · rw [List.getD_eq_default _ _ (by simpa using hk), List.getD_eq_default _ _ hk]
    rfl

theorem insLoop_rat_succ (key : ℚ) (b : List ℚ) (t : ℕ) :
    insLoop key b (t + 1) =
      if b.getD t 0 > key then insLoop key (b.set (t + 1) (b.getD t 0)) t
      else (b, t + 1) := rfl

theorem insOuter_rat_succ (c i : ℕ) (b : List ℚ) :
    insOuter (c + 1) i b =
      insOuter c (i + 1)
        ((insLoop (b.getD i 0) b i).1.set (insLoop (b.getD i 0) b i).2 (b.getD i 0)) := rfl

theorem bsReplay_cons (orig c : List ℚ) (e : BSEvent) (l : List BSEvent) :
    bsReplay orig c (e :: l) = bsReplay orig (bsReplayStep orig c e) l := rfl

theorem bsReplay_append (orig c : List ℚ) (l1 l2 : List BSEvent) :
    bsReplay orig c (l1 ++ l2) = bsReplay orig (bsReplay orig c l1) l2 := by
  rw [bsReplay, bsReplay, bsReplay, List.foldl_append]

theorem bsReplay_nongather (orig : List ℚ) : ∀ (l : List BSEvent) (c : List ℚ),
    (∀ e ∈ l, ∀ b s o d, e ≠ BSEvent.gather b s o d) → bsReplay orig c l = c := by
  intro l
  induction l with
  | nil =>
    intro c _
    rfl
  | cons e l ih =>
    intro c h
    have he := h e (List.mem_cons_self ..)
    have hstep : bsReplayStep orig c e = c := by
      cases e with
      | gather b s o d => exact absurd rfl (he b s o d)
      | scatter a b c' => rfl
      | bucketDone b => rfl
      | isortStart a b => rfl
      | isortKey a b c' => rfl
      | isortCompare a b c' d' k cm => rfl
      | isortShift a b c' d' => rfl
      | isortPlace a b c' => rfl
      | gatherStart => rfl
      | done => rfl
    rw [bsReplay_cons, hstep]
    exact ih c fun e' he' => h e' (List.mem_cons_of_mem _ he')

end BSHelpers

section BSScatterRel

/-- The recorder's scatter loop fails exactly when the engine's does, and on
success its index buckets are the engine's value buckets under the
original-value map; the caller's list and the event-delta structure are as
stated. -/
theorem bsScatter_rel (n : ℕ) (arr : List ℚ) : ∀ (vs : List ℚ) (oi : ℕ) (st : BSState),
    vs = arr.drop oi →
    (bsScatter n vs oi st = none ∧
      scatterLoop n vs (st.buckets.map (List.map fun k => arr.getD k 0)) = none) ∨
    (∃ st2, bsScatter n vs oi st = some st2 ∧
      scatterLoop n vs (st.buckets.map (List.map fun k => arr.getD k 0)) =
        some (st2.buckets.map (List.map fun k => arr.getD k 0)) ∧
      st2.caller = st.caller ∧
      st2.buckets.length = st.buckets.length ∧
      (∃ δ, st2.events = st.events ++ δ ∧
        ∀ e ∈ δ, ∀ b s o d, e ≠ BSEvent.gather b s o d)) := by
  intro vs
  induction vs with
  | nil =>
    intro oi st _
    right
    exact ⟨st, rfl, rfl, rfl, rfl, [], (List.append_nil _).symm, by simp⟩
  | cons v rest ih =>
    intro oi st hdrop
    have hoi : oi < arr.length := by
      have hlen := congrArg List.length hdrop
      rw [List.length_drop] at hlen
      simp only [List.length_cons] at hlen
      omega
    have hv : v = arr.getD oi 0 := by
      have h0 := congrArg (fun l => l.getD 0 (0 : ℚ)) hdrop
      simp only [List.getD_cons_zero] at h0
      rw [h0, getD_drop0 (by omega)]
      simp
    have hrest : rest = arr.drop (oi + 1) := by
      have h2 : (v :: rest).drop 1 = rest := rfl
      rw [← h2, hdrop]
      exact List.drop_drop 1 oi arr
    have hlenM : (st.buckets.map (List.map fun k => arr.getD k 0)).length =
        st.buckets.length := List.length_map ..
    by_cases hcond : 0 ≤ pyIdx st.buckets.length (bucketIndex n v) ∧
        pyIdx st.buckets.length (bucketIndex n v) < (st.buckets.length : ℤ)
    · have hstep : bsScatter n (v :: rest) oi st =
          bsScatter n rest (oi + 1)
            ⟨st.caller,
              st.buckets.set (pyIdx st.buckets.length (bucketIndex n v)).toNat
                ((st.buckets.getD (pyIdx st.buckets.length (bucketIndex n v)).toNat []) ++ [oi]),
              st.events ++ [BSEvent.scatter oi v (bucketIndex n v)]⟩ := by
        simp only [bsScatter, bsPush]
        rw [if_pos hcond]
      have hcondM : 0 ≤ pyIdx (st.buckets.map (List.map fun k => arr.getD k 0)).length
          (bucketIndex n v) ∧
          pyIdx (st.buckets.map (List.map fun k => arr.getD k 0)).length (bucketIndex n v) <
            ((st.buckets.map (List.map fun k => arr.getD k 0)).length : ℤ) := by
        rw [hlenM]
        exact hcond
      have hengstep : scatterLoop n (v :: rest)
            (st.buckets.map (List.map fun k => arr.getD k 0)) =
          scatterLoop n rest
            ((st.buckets.map (List.map fun k => arr.getD k 0)).set
              (pyIdx (st.buckets.map (List.map fun k => arr.getD k 0)).length
                (bucketIndex n v)).toNat
              (((st.buckets.map (List.map fun k => arr.getD k 0)).getD
                (pyIdx (st.buckets.map (List.map fun k => arr.getD k 0)).length
                  (bucketIndex n v)).toNat []) ++ [v])) := by
        simp only [scatterLoop]
        rw [if_pos hcondM]
      have hmapset : (st.buckets.set (pyIdx st.buckets.length (bucketIndex n v)).toNat
            ((st.buckets.getD (pyIdx st.buckets.length (bucketIndex n v)).toNat []) ++ [oi])).map
              (List.map fun k => arr.getD k 0) =
          (st.buckets.map (List.map fun k => arr.getD k 0)).set
            (pyIdx (st.buckets.map (List.map fun k => arr.getD k 0)).length
              (bucketIndex n v)).toNat
            (((st.buckets.map (List.map fun k => arr.getD k 0)).getD
              (pyIdx (st.buckets.map (List.map fun k => arr.getD k 0)).length
                (bucketIndex n v)).toNat []) ++ [v]) := by
        rw [hlenM, List.map_set, List.map_append, getD_map_bucket]
        have hsing : [oi].map (fun k => arr.getD k 0) = [v] := by
          rw [hv]
          rfl
        rw [hsing]
      rcases ih (oi + 1)
        ⟨st.caller,
          st.buckets.set (pyIdx st.buckets.length (bucketIndex n v)).toNat
            ((st.buckets.getD (pyIdx st.buckets.length (bucketIndex n v)).toNat []) ++ [oi]),
          st.events ++ [BSEvent.scatter oi v (bucketIndex n v)]⟩ hrest with
        ⟨hn1, hn2⟩ | ⟨st2, hs1, hs2, hc2, hl2, δ, hev, hng⟩
      · left
        constructor
        · rw [hstep]
          exact hn1
        · rw [hengstep, ← hmapset]
          exact hn2
      · right
        refine ⟨st2, by rw [hstep]; exact hs1, ?_, by rw [hc2], ?_,
          BSEvent.scatter oi v (bucketIndex n v) :: δ, ?_, ?_⟩
        · rw [hengstep, ← hmapset]
          exact hs2
        · rw [hl2]
          exact List.length_set ..
        · rw [hev]
          simp
        · intro e he b s o d
          rcases List.mem_cons.mp he with rfl | he
          · intro hcon
            cases hcon
          · exact hng e he b s o d
    · left
      constructor
      · simp only [bsScatter, bsPush]
        rw [if_neg hcond]
      · simp only [scatterLoop]
        rw [if_neg (by rw [hlenM]; exact hcond)]

end BSScatterRel

section BSLockstep

/-- The recorder's inner insertion loop runs in lockstep with the engine's
`insLoop` on the value list `bucket.map (arr.getD · 0)`. -/
theorem bsInsLoop_lockstep (arr : List ℚ) (key : ℚ) (keyOi bi : ℕ) :
    ∀ (t : ℕ) (bucket : List ℕ) (evts : List BSEvent), t < bucket.length →
      (bsInsLoop key keyOi bi (bucket.map fun oi => arr.getD oi 0) bucket t evts).1 =
        (insLoop key (bucket.map fun oi => arr.getD oi 0) t).1 ∧
      (bsInsLoop key keyOi bi (bucket.map fun oi => arr.getD oi 0) bucket t evts).2.1.map
          (fun oi => arr.getD oi 0) =
        (insLoop key (bucket.map fun oi => arr.getD oi 0) t).1 ∧
      (bsInsLoop key keyOi bi (bucket.map fun oi => arr.getD oi 0) bucket t evts).2.1.length =
        bucket.length ∧
      (bsInsLoop key keyOi bi (bucket.map fun oi => arr.getD oi 0) bucket t evts).2.2.1 =
        (insLoop key (bucket.map fun oi => arr.getD oi 0) t).2 ∧
      (∃ δ, (bsInsLoop key keyOi bi (bucket.map fun oi => arr.getD oi 0) bucket t evts).2.2.2 =
        evts ++ δ ∧ ∀ e ∈ δ, ∀ b s o d, e ≠ BSEvent.gather b s o d) := by
  intro t
  induction t with
  | zero =>
    intro bucket evts _
    exact ⟨rfl, rfl, rfl, rfl, [], (List.append_nil _).symm, by simp⟩
  | succ t ih =>
    intro bucket evts ht
    by_cases hc : (bucket.map fun oi => arr.getD oi 0).getD t 0 > key
    · have hstep : bsInsLoop key keyOi bi (bucket.map fun oi => arr.getD oi 0) bucket
            (t + 1) evts =
          bsInsLoop key keyOi bi
            ((bucket.map fun oi => arr.getD oi 0).set (t + 1)
              ((bucket.map fun oi => arr.getD oi 0).getD t 0))
            (bucket.set (t + 1) (bucket.getD t 0)) t
            ((evts ++ [BSEvent.isortCompare bi t (bucket.getD t 0) keyOi key
              ((bucket.map fun oi => arr.getD oi 0).getD t 0)]) ++
              [BSEvent.isortShift bi t (t + 1)
                ((bucket.set (t + 1) (bucket.getD t 0)).getD (t + 1) 0)]) := by
        simp only [bsInsLoop]
        rw [if_pos hc]
      have hvals1 : (bucket.map fun oi => arr.getD oi 0).set (t + 1)
            ((bucket.map fun oi => arr.getD oi 0).getD t 0) =
          (bucket.set (t + 1) (bucket.getD t 0)).map fun oi => arr.getD oi 0 := by
        rw [List.map_set, getD_map_val arr bucket t (by omega)]
      have heng : insLoop key (bucket.map fun oi => arr.getD oi 0) (t + 1) =
          insLoop key ((bucket.map fun oi => arr.getD oi 0).set (t + 1)
            ((bucket.map fun oi => arr.getD oi 0).getD t 0)) t := by
        rw [insLoop_rat_succ, if_pos hc]
      obtain ⟨g1, g2, g3, g4, δ, gev, gng⟩ := ih (bucket.set (t + 1) (bucket.getD t 0))
        ((evts ++ [BSEvent.isortCompare bi t (bucket.getD t 0) keyOi key
          ((bucket.map fun oi => arr.getD oi 0).getD t 0)]) ++
          [BSEvent.isortShift bi t (t + 1)
            ((bucket.set (t + 1) (bucket.getD t 0)).getD (t + 1) 0)])
        (by rw [List.length_set]; omega)
      rw [hstep, heng, hvals1]
      refine ⟨g1, g2, by rw [g3, List.length_set], g4,
        BSEvent.isortCompare bi t (bucket.getD t 0) keyOi key
          ((bucket.map fun oi => arr.getD oi 0).getD t 0) ::
        BSEvent.isortShift bi t (t + 1)
          ((bucket.set (t + 1) (bucket.getD t 0)).getD (t + 1) 0) :: δ, ?_, ?_⟩
      · rw [gev]
        simp
      · intro e he b s o d
        rcases List.mem_cons.mp he with rfl | he
        · intro hcon
          cases hcon
        · rcases List.mem_cons.mp he with rfl | he
          · intro hcon
            cases hcon
          · exact gng e he b s o d
    · have hstep : bsInsLoop key keyOi bi (bucket.map fun oi => arr.getD oi 0) bucket
            (t + 1) evts =
          ((bucket.map fun oi => arr.getD oi 0), bucket, t + 1, evts) := by
        simp only [bsInsLoop]
        rw [if_neg hc]
      have heng : insLoop key (bucket.map fun oi => arr.getD oi 0) (t + 1) =
          ((bucket.map fun oi => arr.getD oi 0), t + 1) := by
        rw [insLoop_rat_succ, if_neg hc]
      rw [hstep, heng]
      exact ⟨rfl, rfl, rfl, rfl, [], (List.append_nil _).symm, by simp⟩

/-- The recorder's outer insertion loop runs in lockstep with the engine's
`insOuter`. -/
theorem bsInsOuter_lockstep (arr : List ℚ) (bi : ℕ) :
    ∀ (c i : ℕ) (bucket : List ℕ) (evts : List BSEvent),
      c + i = bucket.length → 1 ≤ i →
      (bsInsOuter bi c i (bucket.map fun oi => arr.getD oi 0) bucket evts).1 =
        insOuter c i (bucket.map fun oi => arr.getD oi 0) ∧
      (bsInsOuter bi c i (bucket.map fun oi => arr.getD oi 0) bucket evts).2.1.map
          (fun oi => arr.getD oi 0) =
        insOuter c i (bucket.map fun oi => arr.getD oi 0) ∧
      (bsInsOuter bi c i (bucket.map fun oi => arr.getD oi 0) bucket evts).2.1.length =
        bucket.length ∧
      (∃ δ, (bsInsOuter bi c i (bucket.map fun oi => arr.getD oi 0) bucket evts).2.2 =
        evts ++ δ ∧ ∀ e ∈ δ, ∀ b s o d, e ≠ BSEvent.gather b s o d) := by
  intro c
  induction c with
  | zero =>
    intro i bucket evts _ _
    exact ⟨rfl, rfl, rfl, [], (List.append_nil _).symm, by simp⟩
  | succ c ih =>
    intro i bucket evts hci hi
    have hib : i < bucket.length := by omega
    have hkey : (bucket.map fun oi => arr.getD oi 0).getD i 0 =
        arr.getD (bucket.getD i 0) 0 := getD_map_val arr bucket i hib
    have hstep : bsInsOuter bi (c + 1) i (bucket.map fun oi => arr.getD oi 0) bucket evts =
        bsInsOuter bi c (i + 1)
          ((bsInsLoop ((bucket.map fun oi => arr.getD oi 0).getD i 0) (bucket.getD i 0) bi
              (bucket.map fun oi => arr.getD oi 0) bucket i
              (evts ++ [BSEvent.isortKey bi i (bucket.getD i 0)])).1.set
            (bsInsLoop ((bucket.map fun oi => arr.getD oi 0).getD i 0) (bucket.getD i 0) bi
              (bucket.map fun oi => arr.getD oi 0) bucket i
              (evts ++ [BSEvent.isortKey bi i (bucket.getD i 0)])).2.2.1
            ((bucket.map fun oi => arr.getD oi 0).getD i 0))
          ((bsInsLoop ((bucket.map fun oi => arr.getD oi 0).getD i 0) (bucket.getD i 0) bi
              (bucket.map fun oi => arr.getD oi 0) bucket i
              (evts ++ [BSEvent.isortKey bi i (bucket.getD i 0)])).2.1.set
            (bsInsLoop ((bucket.map fun oi => arr.getD oi 0).getD i 0) (bucket.getD i 0) bi
              (bucket.map fun oi => arr.getD oi 0) bucket i
              (evts ++ [BSEvent.isortKey bi i (bucket.getD i 0)])).2.2.1
            (bucket.getD i 0))
          ((bsInsLoop ((bucket.map fun oi => arr.getD oi 0).getD i 0) (bucket.getD i 0) bi
              (bucket.map fun oi => arr.getD oi 0) bucket i
              (evts ++ [BSEvent.isortKey bi i (bucket.getD i 0)])).2.2.2 ++
            [BSEvent.isortPlace bi
              (bsInsLoop ((bucket.map fun oi => arr.getD oi 0).getD i 0) (bucket.getD i 0) bi
                (bucket.map fun oi => arr.getD oi 0) bucket i
                (evts ++ [BSEvent.isortKey bi i (bucket.getD i 0)])).2.2.1
              (bucket.getD i 0)]) := by
      simp only [bsInsOuter]
    obtain ⟨L1, L2, L3, L4, δL, Lev, Lng⟩ := bsInsLoop_lockstep arr
      ((bucket.map fun oi => arr.getD oi 0).getD i 0) (bucket.getD i 0) bi i bucket
      (evts ++ [BSEvent.isortKey bi i (bucket.getD i 0)]) hib
    have hbucket1 : ((bsInsLoop ((bucket.map fun oi => arr.getD oi 0).getD i 0)
          (bucket.getD i 0) bi (bucket.map fun oi => arr.getD oi 0) bucket i
          (evts ++ [BSEvent.isortKey bi i (bucket.getD i 0)])).2.1.set
          (bsInsLoop ((bucket.map fun oi => arr.getD oi 0).getD i 0) (bucket.getD i 0) bi
            (bucket.map fun oi => arr.getD oi 0) bucket i
            (evts ++ [BSEvent.isortKey bi i (bucket.getD i 0)])).2.2.1
          (bucket.getD i 0)).map (fun oi => arr.getD oi 0) =
        ((bsInsLoop ((bucket.map fun oi => arr.getD oi 0).getD i 0) (bucket.getD i 0) bi
            (bucket.map fun oi => arr.getD oi 0) bucket i
            (evts ++ [BSEvent.isortKey bi i (bucket.getD i 0)])).1.set
          (bsInsLoop ((bucket.map fun oi => arr.getD oi 0).getD i 0) (bucket.getD i 0) bi
            (bucket.map fun oi => arr.getD oi 0) bucket i
            (evts ++ [BSEvent.isortKey bi i (bucket.getD i 0)])).2.2.1
          ((bucket.map fun oi => arr.getD oi 0).getD i 0)) := by
      rw [List.map_set, L2, L1, hkey]
    have hengstep : insOuter (c + 1) i (bucket.map fun oi => arr.getD oi 0) =
        insOuter c (i + 1)
          ((insLoop ((bucket.map fun oi => arr.getD oi 0).getD i 0)
              (bucket.map fun oi => arr.getD oi 0) i).1.set
            (insLoop ((bucket.map fun oi => arr.getD oi 0).getD i 0)
              (bucket.map fun oi => arr.getD oi 0) i).2
            ((bucket.map fun oi => arr.getD oi 0).getD i 0)) := insOuter_rat_succ ..
    have hargs : ((bsInsLoop ((bucket.map fun oi => arr.getD oi 0).getD i 0)
          (bucket.getD i 0) bi (bucket.map fun oi => arr.getD oi 0) bucket i
          (evts ++ [BSEvent.isortKey bi i (bucket.getD i 0)])).1.set
          (bsInsLoop ((bucket.map fun oi => arr.getD oi 0).getD i 0) (bucket.getD i 0) bi
            (bucket.map fun oi => arr.getD oi 0) bucket i
            (evts ++ [BSEvent.isortKey bi i (bucket.getD i 0)])).2.2.1
          ((bucket.map fun oi => arr.getD oi 0).getD i 0)) =
        ((insLoop ((bucket.map fun oi => arr.getD oi 0).getD i 0)
            (bucket.map fun oi => arr.getD oi 0) i).1.set
          (insLoop ((bucket.map fun oi => arr.getD oi 0).getD i 0)
            (bucket.map fun oi => arr.getD oi 0) i).2
          ((bucket.map fun oi => arr.getD oi 0).getD i 0)) := by
      rw [L1, L4]
    obtain ⟨G1, G2, G3, δG, Gev, Gng⟩ := ih (i + 1)
      ((bsInsLoop ((bucket.map fun oi => arr.getD oi 0).getD i 0) (bucket.getD i 0) bi
          (bucket.map fun oi => arr.getD oi 0) bucket i
          (evts ++ [BSEvent.isortKey bi i (bucket.getD i 0)])).2.1.set
        (bsInsLoop ((bucket.map fun oi => arr.getD oi 0).getD i 0) (bucket.getD i 0) bi
          (bucket.map fun oi => arr.getD oi 0) bucket i
          (evts ++ [BSEvent.isortKey bi i (bucket.getD i 0)])).2.2.1
        (bucket.getD i 0))
      ((bsInsLoop ((bucket.map fun oi => arr.getD oi 0).getD i 0) (bucket.getD i 0) bi
          (bucket.map fun oi => arr.getD oi 0) bucket i
          (evts ++ [BSEvent.isortKey bi i (bucket.getD i 0)])).2.2.2 ++
        [BSEvent.isortPlace bi
          (bsInsLoop ((bucket.map fun oi => arr.getD oi 0).getD i 0) (bucket.getD i 0) bi
            (bucket.map fun oi => arr.getD oi 0) bucket i
            (evts ++ [BSEvent.isortKey bi i (bucket.getD i 0)])).2.2.1
          (bucket.getD i 0)])
      (by rw [List.length_set, L3]; omega) (by omega)
    rw [hstep, hengstep]
    rw [← hargs, ← hbucket1]
    refine ⟨G1, G2, by rw [G3, List.length_set, L3], ?_⟩
    refine ⟨BSEvent.isortKey bi i (bucket.getD i 0) :: (δL ++
      (BSEvent.isortPlace bi
        (bsInsLoop ((bucket.map fun oi => arr.getD oi 0).getD i 0) (bucket.getD i 0) bi
          (bucket.map fun oi => arr.getD oi 0) bucket i
          (evts ++ [BSEvent.isortKey bi i (bucket.getD i 0)])).2.2.1
        (bucket.getD i 0) :: δG)), ?_, ?_⟩
    · rw [Gev, Lev]
      simp
    · intro e he b s o d
      rcases List.mem_cons.mp he with rfl | he
      · intro hcon
        cases hcon
      · rcases List.mem_append.mp he with he | he
        · exact Lng e he b s o d
        · rcases List.mem_cons.mp he with rfl | he
          · intro hcon
            cases hcon
          · exact Gng e he b s o d

/-- One bucket of the recorder's insertion-sort phase against the engine's
`insertion_sort`. -/
theorem bsIsortBucket_spec (arr : List ℚ) (bi : ℕ) (bucket : List ℕ)
    (evts : List BSEvent) :
    (bsIsortBucket arr bi bucket evts).1.map (fun oi => arr.getD oi 0) =
      insertion_sort (bucket.map fun oi => arr.getD oi 0) ∧
    (bsIsortBucket arr bi bucket evts).1.length = bucket.length ∧
    ∃ δ, (bsIsortBucket arr bi bucket evts).2 = evts ++ δ ∧
      ∀ e ∈ δ, ∀ b s o d, e ≠ BSEvent.gather b s o d := by
  by_cases hb : bucket.length ≤ 1
  · have hins : insertion_sort (bucket.map fun oi => arr.getD oi 0) =
        bucket.map fun oi => arr.getD oi 0 := by
      have h0 : (bucket.map fun oi => arr.getD oi 0).length - 1 = 0 := by
        rw [List.length_map]
        omega
      show insOuter ((bucket.map fun oi => arr.getD oi 0).length - 1) 1
        (bucket.map fun oi => arr.getD oi 0) = bucket.map fun oi => arr.getD oi 0
      rw [h0]
      rfl
    by_cases hb1 : bucket.length = 1
    · have hstep : bsIsortBucket arr bi bucket evts =
          (bucket, evts ++ [BSEvent.bucketDone bi]) := by
        simp only [bsIsortBucket]
        rw [if_pos hb, if_pos hb1]
      rw [hstep, hins]
      exact ⟨rfl, rfl, [BSEvent.bucketDone bi], rfl, by
        intro e he b s o d
        rcases List.mem_cons.mp he with rfl | he
        · intro hcon
          cases hcon
        · simp at he⟩
    · have hstep : bsIsortBucket arr bi bucket evts = (bucket, evts) := by
        simp only [bsIsortBucket]
        rw [if_pos hb, if_neg hb1]
      rw [hstep, hins]
      exact ⟨rfl, rfl, [], (List.append_nil _).symm, by simp⟩
  · have hstep : bsIsortBucket arr bi bucket evts =
        ((bsInsOuter bi ((bucket.map fun oi => arr.getD oi 0).length - 1) 1
            (bucket.map fun oi => arr.getD oi 0) bucket
            (evts ++ [BSEvent.isortStart bi bucket.length])).2.1,
          (bsInsOuter bi ((bucket.map fun oi => arr.getD oi 0).length - 1) 1
            (bucket.map fun oi => arr.getD oi 0) bucket
            (evts ++ [BSEvent.isortStart bi bucket.length])).2.2 ++
          [BSEvent.bucketDone bi]) := by
      simp only [bsIsortBucket]
      rw [if_neg hb]
    obtain ⟨G1, G2, G3, δG, Gev, Gng⟩ := bsInsOuter_lockstep arr bi
      ((bucket.map fun oi => arr.getD oi 0).length - 1) 1 bucket
      (evts ++ [BSEvent.isortStart bi bucket.length])
      (by rw [List.length_map]; omega) le_rfl
    rw [hstep]
    refine ⟨G2, G3, BSEvent.isortStart bi bucket.length :: (δG ++ [BSEvent.bucketDone bi]),
      ?_, ?_⟩
    · rw [Gev]
      simp
    · intro e he b s o d
      rcases List.mem_cons.mp he with rfl | he
      · intro hcon
        cases hcon
      · rcases List.mem_append.mp he with he | he
        · exact Gng e he b s o d
        · rcases List.mem_cons.mp he with rfl | he
          · intro hcon
            cases hcon
          · simp at he

/-- The whole insertion-sort phase of the recorder against mapping the
engine's `insertion_sort` over the buckets positioned from `bi` on. -/
theorem bsIsortAll_spec (arr : List ℚ) : ∀ (k bi : ℕ) (st : BSState),
    bi + k = st.buckets.length →
    (bsIsortAll arr k bi st).caller = st.caller ∧
    (bsIsortAll arr k bi st).buckets.length = st.buckets.length ∧
    (bsIsortAll arr k bi st).buckets.map (List.map fun oi => arr.getD oi 0) =
      ((st.buckets.map (List.map fun oi => arr.getD oi 0)).take bi ++
        ((st.buckets.map (List.map fun oi => arr.getD oi 0)).drop bi).map insertion_sort) ∧
    ∃ δ, (bsIsortAll arr k bi st).events = st.events ++ δ ∧
      ∀ e ∈ δ, ∀ b s o d, e ≠ BSEvent.gather b s o d := by
  intro k
  induction k with
  | zero =>
    intro bi st hbi
    have hbiM : bi = (st.buckets.map (List.map fun oi => arr.getD oi 0)).length := by
      rw [List.length_map]
      omega
    refine ⟨rfl, rfl, ?_, [], (List.append_nil _).symm, by simp⟩
    rw [hbiM, List.drop_length, List.take_length, List.map_nil, List.append_nil]
    rfl
  | succ k ih =>
    intro bi st hbi
    have hbilt : bi < st.buckets.length := by omega
    have hstep : bsIsortAll arr (k + 1) bi st =
        bsIsortAll arr k (bi + 1)
          ⟨st.caller,
            st.buckets.set bi (bsIsortBucket arr bi (st.buckets.getD bi []) st.events).1,
            (bsIsortBucket arr bi (st.buckets.getD bi []) st.events).2⟩ := rfl
    obtain ⟨B1, B2, δB, Bev, Bng⟩ := bsIsortBucket_spec arr bi (st.buckets.getD bi [])
      st.events
    obtain ⟨I1, I2, I3, δI, Iev, Ing⟩ := ih (bi + 1)
      ⟨st.caller,
        st.buckets.set bi (bsIsortBucket arr bi (st.buckets.getD bi []) st.events).1,
        (bsIsortBucket arr bi (st.buckets.getD bi []) st.events).2⟩
      (by
        have : (st.buckets.set bi
            (bsIsortBucket arr bi (st.buckets.getD bi []) st.events).1).length =
            st.buckets.length := List.length_set ..
        rw [show (⟨st.caller,
          st.buckets.set bi (bsIsortBucket arr bi (st.buckets.getD bi []) st.events).1,
          (bsIsortBucket arr bi (st.buckets.getD bi []) st.events).2⟩ : BSState).buckets =
          st.buckets.set bi (bsIsortBucket arr bi (st.buckets.getD bi []) st.events).1
          from rfl, this]
        omega)
    rw [hstep]
    have hMset : (st.buckets.set bi
          (bsIsortBucket arr bi (st.buckets.getD bi []) st.events).1).map
          (List.map fun oi => arr.getD oi 0) =
        (st.buckets.map (List.map fun oi => arr.getD oi 0)).set bi
          (insertion_sort ((st.buckets.map (List.map fun oi => arr.getD oi 0)).getD bi [])) := by
      rw [List.map_set, B1, getD_map_bucket]
    have hbiM : bi < (st.buckets.map (List.map fun oi => arr.getD oi 0)).length := by
      rw [List.length_map]
      omega
    have hsetform : (st.buckets.map (List.map fun oi => arr.getD oi 0)).set bi
          (insertion_sort ((st.buckets.map (List.map fun oi => arr.getD oi 0)).getD bi [])) =
        (st.buckets.map (List.map fun oi => arr.getD oi 0)).take bi ++
          insertion_sort ((st.buckets.map (List.map fun oi => arr.getD oi 0)).getD bi []) ::
          (st.buckets.map (List.map fun oi => arr.getD oi 0)).drop (bi + 1) := by
      rw [List.set_eq_take_append_cons_drop, if_pos hbiM]
    have htake : ((st.buckets.map (List.map fun oi => arr.getD oi 0)).take bi).length = bi := by
      rw [List.length_take]
      omega
    refine ⟨?_, ?_, ?_, ?_⟩
    · rw [I1]
    · rw [I2]
      exact List.length_set ..
    · rw [I3]
      have hM1 : (⟨st.caller,
          st.buckets.set bi (bsIsortBucket arr bi (st.buckets.getD bi []) st.events).1,
          (bsIsortBucket arr bi (st.buckets.getD bi []) st.events).2⟩ : BSState).buckets.map
          (List.map fun oi => arr.getD oi 0) =
          (st.buckets.map (List.map fun oi => arr.getD oi 0)).take bi ++
            insertion_sort ((st.buckets.map (List.map fun oi => arr.getD oi 0)).getD bi []) ::
            (st.buckets.map (List.map fun oi => arr.getD oi 0)).drop (bi + 1) := by
        rw [show (⟨st.caller,
          st.buckets.set bi (bsIsortBucket arr bi (st.buckets.getD bi []) st.events).1,
          (bsIsortBucket arr bi (st.buckets.getD bi []) st.events).2⟩ : BSState).buckets =
          st.buckets.set bi (bsIsortBucket arr bi (st.buckets.getD bi []) st.events).1
          from rfl, hMset, hsetform]
      rw [hM1]
      have htA := take_append_cons
        ((st.buckets.map (List.map fun oi => arr.getD oi 0)).take bi)
        (insertion_sort ((st.buckets.map (List.map fun oi => arr.getD oi 0)).getD bi []))
        ((st.buckets.map (List.map fun oi => arr.getD oi 0)).drop (bi + 1))
      rw [htake] at htA
      have hdA := drop_append_cons
        ((st.buckets.map (List.map fun oi => arr.getD oi 0)).take bi)
        (insertion_sort ((st.buckets.map (List.map fun oi => arr.getD oi 0)).getD bi []))
        ((st.buckets.map (List.map fun oi => arr.getD oi 0)).drop (bi + 1))
      rw [htake] at hdA
      rw [htA, hdA]
      have hdropbi : (st.buckets.map (List.map fun oi => arr.getD oi 0)).drop bi =
          (st.buckets.map (List.map fun oi => arr.getD oi 0)).getD bi [] ::
          (st.buckets.map (List.map fun oi => arr.getD oi 0)).drop (bi + 1) := by
        rw [getD_eq_getElem hbiM]
        exact List.drop_eq_getElem_cons hbiM
      rw [hdropbi, List.map_cons, List.append_assoc]
      rfl
    · refine ⟨δB ++ δI, ?_, ?_⟩
      · rw [Iev]
        have hev2 : (⟨st.caller,
            st.buckets.set bi (bsIsortBucket arr bi (st.buckets.getD bi []) st.events).1,
            (bsIsortBucket arr bi (st.buckets.getD bi []) st.events).2⟩ : BSState).events =
            st.events ++ δB := Bev
        rw [hev2, List.append_assoc]
      · intro e he b s o d
        rcases List.mem_append.mp he with he | he
        · exact Bng e he b s o d
        · exact Ing e he b s o d

end BSLockstep

section BSGather

/-- Replaying the `gather` records of one bucket writes its original values
consecutively. -/
theorem bsGatherOne_spec (orig : List ℚ) (bi : ℕ) :
    ∀ (b : List ℕ) (slot dest : ℕ) (evts : List BSEvent),
      (bsGatherOne bi b slot dest evts).1 = dest + b.length ∧
      ∃ δ, (bsGatherOne bi b slot dest evts).2 = evts ++ δ ∧
        ∀ c : List ℚ, bsReplay orig c δ = setSeq c dest (b.map fun oi => orig.getD oi 0) := by
  intro b
  induction b with
  | nil =>
    intro slot dest evts
    exact ⟨rfl, [], (List.append_nil _).symm, fun c => rfl⟩
  | cons oi rest ih =>
    intro slot dest evts
    have hstep : bsGatherOne bi (oi :: rest) slot dest evts =
        bsGatherOne bi rest (slot + 1) (dest + 1)
          (evts ++ [BSEvent.gather bi slot oi dest]) := rfl
    obtain ⟨h1, δ, hev, hrep⟩ := ih (slot + 1) (dest + 1)
      (evts ++ [BSEvent.gather bi slot oi dest])
    rw [hstep]
    refine ⟨by rw [h1, List.length_cons]; omega, BSEvent.gather bi slot oi dest :: δ, ?_, ?_⟩
    · rw [hev]
      simp
    · intro c
      rw [bsReplay_cons]
      have hone : bsReplayStep orig c (BSEvent.gather bi slot oi dest) =
          c.set dest (orig.getD oi 0) := rfl
      rw [hone, hrep]
      rfl

/-- Replaying all `gather` records writes the flattened (value-mapped)
buckets starting at `dest`. -/
theorem bsGatherAll_spec (orig : List ℚ) :
    ∀ (bs : List (List ℕ)) (bi dest : ℕ) (evts : List BSEvent),
      ∃ δ, (bsGatherAll bs bi dest evts).2 = evts ++ δ ∧
        ∀ c : List ℚ, bsReplay orig c δ =
          setSeq c dest ((bs.map (List.map fun oi => orig.getD oi 0)).flatten) := by
  intro bs
  induction bs with
  | nil =>
    intro bi dest evts
    exact ⟨[], (List.append_nil _).symm, fun c => rfl⟩
  | cons b rest ih =>
    intro bi dest evts
    have hstep : bsGatherAll (b :: rest) bi dest evts =
        bsGatherAll rest (bi + 1) (bsGatherOne bi b 0 dest evts).1
          (bsGatherOne bi b 0 dest evts).2 := rfl
    obtain ⟨h1, δ1, hev1, hrep1⟩ := bsGatherOne_spec orig bi b 0 dest evts
    obtain ⟨δ2, hev2, hrep2⟩ := ih (bi + 1) (bsGatherOne bi b 0 dest evts).1
      (bsGatherOne bi b 0 dest evts).2
    rw [hstep]
    refine ⟨δ1 ++ δ2, by rw [hev2, hev1, List.append_assoc], ?_⟩
    intro c
    rw [bsReplay_append, hrep1, hrep2, h1, List.map_cons, List.flatten_cons, setSeq_append]
    have hlb : (b.map fun oi => orig.getD oi 0).length = b.length := List.length_map ..
    rw [hlb]

end BSGather

section BSRecord

/-- The bucket-sort recorder fails (`IndexError`) exactly when `bucket_sort`
does; on success, replaying its event log (whose only array mutations are
the `gather` records) onto a copy of the input reproduces `bucket_sort`'s
output, and the caller's list is recorded untouched. -/
theorem bs_record_spec (arr : List ℚ) :
    (BSAnim.record_events arr = none ∧ bucket_sort arr = none) ∨
    (∃ st out, BSAnim.record_events arr = some st ∧ bucket_sort arr = some out ∧
      st.caller = arr ∧ bsReplay arr arr st.events = out) := by
  have hM0 : (List.replicate arr.length ([] : List ℕ)).map
      (List.map fun k => arr.getD k 0) = List.replicate arr.length ([] : List ℚ) := by
    rw [List.map_replicate]
    rfl
  rcases bsScatter_rel arr.length arr arr 0 ⟨arr, List.replicate arr.length [], []⟩
    (List.drop_zero arr).symm with ⟨hn1, hn2⟩ | ⟨st1, hs1, hs2, hc1, hl1, δ1, hev1, hng1⟩
  · left
    constructor
    · simp only [BSAnim.record_events]
      rw [hn1]
    · have hn2' : scatterLoop arr.length arr
          ((List.replicate arr.length ([] : List ℕ)).map (List.map fun k => arr.getD k 0)) =
          none := hn2
      rw [hM0] at hn2'
      simp only [bucket_sort]
      rw [hn2']
  · right
    have hs2' : scatterLoop arr.length arr
        ((List.replicate arr.length ([] : List ℕ)).map (List.map fun k => arr.getD k 0)) =
        some (st1.buckets.map (List.map fun k => arr.getD k 0)) := hs2
    rw [hM0] at hs2'
    have hl1' : st1.buckets.length = arr.length := by
      have : st1.buckets.length = (List.replicate arr.length ([] : List ℕ)).length := hl1
      rwa [List.length_replicate] at this
    have hc1' : st1.caller = arr := hc1
    have hev1' : st1.events = δ1 := by
      have : st1.events = [] ++ δ1 := hev1
      rwa [List.nil_append] at this
    obtain ⟨I1, I2, I3, δ2, Iev, Ing⟩ := bsIsortAll_spec arr arr.length 0 st1
      (by omega)
    obtain ⟨δ3, Gev, Grep⟩ := bsGatherAll_spec arr (bsIsortAll arr arr.length 0 st1).buckets
      0 0 ((bsIsortAll arr arr.length 0 st1).events ++ [BSEvent.gatherStart])
    have hrec : BSAnim.record_events arr = some
        ⟨(bsIsortAll arr arr.length 0 st1).caller,
          (bsIsortAll arr arr.length 0 st1).buckets,
          (bsGatherAll (bsIsortAll arr arr.length 0 st1).buckets 0 0
            ((bsIsortAll arr arr.length 0 st1).events ++ [BSEvent.gatherStart])).2 ++
            [BSEvent.done]⟩ := by
      simp only [BSAnim.record_events, bsPush]
      rw [hs1]
    have hmap3 : (bsIsortAll arr arr.length 0 st1).buckets.map
        (List.map fun oi => arr.getD oi 0) =
        (st1.buckets.map (List.map fun oi => arr.getD oi 0)).map insertion_sort := by
      rw [I3, List.take_zero, List.drop_zero, List.nil_append]
    have heng : bucket_sort arr = some (gatherAll arr 0
        ((st1.buckets.map (List.map fun k => arr.getD k 0)).map insertion_sort)) := by
      simp only [bucket_sort]
      rw [hs2']
    refine ⟨_, _, hrec, heng, hc1'.symm ▸ I1, ?_⟩
    have hflat : gatherAll arr 0
        ((st1.buckets.map (List.map fun k => arr.getD k 0)).map insertion_sort) =
        setSeq arr 0 (((bsIsortAll arr arr.length 0 st1).buckets.map
          (List.map fun oi => arr.getD oi 0)).flatten) := by
      rw [gatherAll_eq, hmap3]
    rw [hflat]
    have hevfull : (⟨(bsIsortAll arr arr.length 0 st1).caller,
        (bsIsortAll arr arr.length 0 st1).buckets,
        (bsGatherAll (bsIsortAll arr arr.length 0 st1).buckets 0 0
          ((bsIsortAll arr arr.length 0 st1).events ++ [BSEvent.gatherStart])).2 ++
          [BSEvent.done]⟩ : BSState).events =
        ((δ1 ++ δ2) ++ [BSEvent.gatherStart]) ++ (δ3 ++ [BSEvent.done]) := by
      rw [show (⟨(bsIsortAll arr arr.length 0 st1).caller,
        (bsIsortAll arr arr.length 0 st1).buckets,
        (bsGatherAll (bsIsortAll arr arr.length 0 st1).buckets 0 0
          ((bsIsortAll arr arr.length 0 st1).events ++ [BSEvent.gatherStart])).2 ++
          [BSEvent.done]⟩ : BSState).events =
        (bsGatherAll (bsIsortAll arr arr.length 0 st1).buckets 0 0
          ((bsIsortAll arr arr.length 0 st1).events ++ [BSEvent.gatherStart])).2 ++
          [BSEvent.done] from rfl]
      rw [Gev, Iev, hev1']
      simp
    rw [hevfull, bsReplay_append, bsReplay_append]
    have hpre : bsReplay arr arr ((δ1 ++ δ2) ++ [BSEvent.gatherStart]) = arr := by
      apply bsReplay_nongather
      intro e he b s o d
      rcases List.mem_append.mp he with he | he
      · rcases List.mem_append.mp he with he | he
        · exact hng1 e he b s o d
        · exact Ing e he b s o d
      · rcases List.mem_cons.mp he with rfl | he
        · intro hcon
          cases hcon
        · simp at he
    rw [hpre]
    rw [Grep]
    apply bsReplay_nongather
    intro e he b s o d
    rcases List.mem_cons.mp he with rfl | he
    · intro hcon
      cases hcon
    · simp at he

end BSRecord

/-! ## Mergesort stability over `Keyed` values -/

section Stability

theorem keyed_tot : ∀ a b : Keyed, a ≤ b ∨ b ≤ a := fun a b => Nat.le_total a.val b.val

/-- The engine's merge is stable: filtering a merge of sorted runs at one
key value is the concatenation of the runs' filters (left run first). -/
theorem merge_filter_keyed (v : ℕ) :
    ∀ l1 l2 : List Keyed, l1.Sorted (· ≤ ·) → l2.Sorted (· ≤ ·) →
      (List.merge l1 l2 fun a b => decide (a ≤ b)).filter (fun x => decide (x.val = v)) =
        l1.filter (fun x => decide (x.val = v)) ++ l2.filter (fun x => decide (x.val = v)) := by
  intro l1
  induction l1 with
  | nil =>
    intro l2 _ _
    rw [List.nil_merge, List.filter_nil, List.nil_append]
  | cons a l1 ih1 =>
    intro l2
    induction l2 with
    | nil =>
      intro _ _
      rw [merge_nil_right, List.filter_nil, List.append_nil]
    | cons b l2 ih2 =>
      intro h1 h2
      obtain ⟨ha1, h1t⟩ := List.sorted_cons.mp h1
      obtain ⟨hb2, h2t⟩ := List.sorted_cons.mp h2
      rw [List.cons_merge_cons]
      by_cases hab : a ≤ b
      · rw [if_pos (by simpa using hab)]
        by_cases hav : decide (a.val = v) = true
        · rw [List.filter_cons, List.filter_cons, if_pos hav, if_pos hav,
            ih1 (b :: l2) h1t h2]
          rfl
        · rw [List.filter_cons, List.filter_cons, if_neg hav, if_neg hav,
            ih1 (b :: l2) h1t h2]
      · rw [if_neg (by simpa using hab)]
        have hba : b.val < a.val := Nat.lt_of_not_le hab
        by_cases hbv : decide (b.val = v) = true
        · have hfilnil : (a :: l1).filter (fun x => decide (x.val = v)) = [] := by
            rw [List.filter_eq_nil_iff]
            intro x hx
            have hax : a.val ≤ x.val := by
              rcases List.mem_cons.mp hx with rfl | hx
              · exact le_rfl
              · exact ha1 x hx
            have hbvv : b.val = v := by simpa using hbv
            simp only [decide_eq_true_eq]
            omega
          rw [List.filter_cons, if_pos hbv, ih2 h1 h2t]
          simp only [hfilnil, List.nil_append]
          rw [List.filter_cons, if_pos hbv]
        · rw [List.filter_cons, if_neg hbv, ih2 h1 h2t]
          have hb2f : List.filter (fun x => decide (x.val = v)) (b :: l2) =
              List.filter (fun x => decide (x.val = v)) l2 := by
            rw [List.filter_cons, if_neg hbv]
          rw [hb2f]

theorem SegSort_filter_keyed (v : ℕ) : ∀ (n : ℕ) (s : List Keyed), s.length ≤ n →
    (SegSort s).filter (fun x => decide (x.val = v)) =
      s.filter (fun x => decide (x.val = v)) := by
  intro n
  induction n with
  | zero =>
    intro s hs
    rw [SegSort_eq_of_le (by omega)]
  | succ n ih =>
    intro s hs
    by_cases hlen : s.length ≤ 1
    · rw [SegSort_eq_of_le hlen]
    · rw [SegSort_eq_of_gt (by omega)]
      rw [merge_filter_keyed v _ _ (SegSort_sorted keyed_tot _) (SegSort_sorted keyed_tot _),
        ih (s.take ((s.length - 1) / 2 + 1)) (by rw [List.length_take]; omega),
        ih (s.drop ((s.length - 1) / 2 + 1)) (by rw [List.length_drop]; omega),
        ← List.filter_append, List.take_append_drop]

/-- `mergeSort` keeps equal-keyed elements in input order. -/
theorem mergeSort_stable_keyed (arr : List Keyed) (v : ℕ) :
    (mergeSort arr 0 ((arr.length : ℤ) - 1)).filter (fun x => decide (x.val = v)) =
      arr.filter (fun x => decide (x.val = v)) := by
  rw [mergeSort_eq_SegSort]
  exact SegSort_filter_keyed v arr.length arr le_rfl

end Stability

section TieLeft

variable {α : Type} [Inhabited α] [Preorder α]
variable [DecidableRel ((· ≤ ·) : α → α → Prop)]
variable [DecidableRel ((· < ·) : α → α → Prop)]

/-- On a tie, the two-pointer loop of `merge` takes from the left run: the
comparison is `L[i] <= R[j]`, not `<`. -/
theorem mergeLoop_left_on_tie (L R : List α) (f : ℕ) (arr : List α) (i j : ℕ) (k : ℤ)
    (hi : i < L.length) (hj : j < R.length)
    (hle : L.getD i default ≤ R.getD j default)
    (_hge : R.getD j default ≤ L.getD i default) :
    mergeLoop L R (f + 1) arr i j k =
      mergeLoop L R f (pySet arr k (L.getD i default)) (i + 1) j (k + 1) := by
  simp only [mergeLoop]
  rw [if_pos ⟨hi, hj⟩, if_pos hle]

end TieLeft

/-! ## Concrete rational evaluations -/

section RatEval

theorem ceil_eq_neg_floor_neg (q : ℚ) : ⌈q⌉ = -⌊-q⌋ := by
  rw [← Int.ceil_neg, neg_neg]

/-- `bucket_sort` silently returns an unsorted array on this out-of-domain
input: `-1/2` lands in the last bucket through Python's negative indexing. -/
theorem bucket_sort_silent_wrong :
    bucket_sort [-(1:ℚ)/2, 1/4] = some [1/4, -(1:ℚ)/2] := by
  norm_num [bucket_sort, scatterLoop, bucketIndex, pyInt, pyIdx, ceil_eq_neg_floor_neg,
    insertion_sort, insOuter, gatherAll, gatherOne, List.replicate]

theorem bucket_sort_neg_two : bucket_sort [(-2 : ℚ)] = none := by
  norm_num [bucket_sort, scatterLoop, bucketIndex, pyInt, pyIdx, ceil_eq_neg_floor_neg,
    List.replicate]

theorem bs_record_neg_two : BSAnim.record_events [(-2 : ℚ)] = none := by
  norm_num [BSAnim.record_events, bsScatter, bucketIndex, pyInt, pyIdx,
    ceil_eq_neg_floor_neg, List.replicate]

end RatEval

/-! ## Visible failure for far-out-of-domain values -/

section BadValue

theorem scatterLoop_none_of_bad (n : ℕ) :
    ∀ (vals : List ℚ) (buckets : List (List ℚ)),
      buckets.length = n →
      (∃ v ∈ vals, bucketIndex n v < -(n : ℤ)) →
      scatterLoop n vals buckets = none := by
  intro vals
  induction vals with
  | nil =>
    intro buckets _ hex
    simp at hex
  | cons v rest ih =>
    intro buckets hlen hex
    by_cases hcond : 0 ≤ pyIdx buckets.length (bucketIndex n v) ∧
        pyIdx buckets.length (bucketIndex n v) < (buckets.length : ℤ)
    · have hstep : scatterLoop n (v :: rest) buckets =
          scatterLoop n rest (buckets.set (pyIdx buckets.length (bucketIndex n v)).toNat
            ((buckets.getD (pyIdx buckets.length (bucketIndex n v)).toNat []) ++ [v])) := by
        simp only [scatterLoop]
        rw [if_pos hcond]
      rcases hex with ⟨w, hw, hbad⟩
      rcases List.mem_cons.mp hw with rfl | hw
      · exfalso
        have h1 := hcond.1
        rw [pyIdx, if_pos (by omega), hlen] at h1
        omega
      · rw [hstep]
        exact ih _ (by rw [List.length_set, hlen]) ⟨w, hw, hbad⟩
    · simp only [scatterLoop]
      rw [if_neg hcond]

/-- When some value's bucket index falls below `-n`, Python's negative
indexing no longer saves the access and `bucket_sort` raises. -/
theorem bucket_sort_none_of_bad (arr : List ℚ)
    (h : ∃ v ∈ arr, bucketIndex arr.length v < -(arr.length : ℤ)) :
    bucket_sort arr = none := by
  simp only [bucket_sort]
  rw [scatterLoop_none_of_bad arr.length arr _ (List.length_replicate ..) h]

end BadValue

/-! ## Single-element recorder runs -/

section SingleElement

variable {α : Type} [Inhabited α] [Preorder α]
variable [DecidableRel ((· ≤ ·) : α → α → Prop)]
variable [DecidableRel ((· < ·) : α → α → Prop)]

theorem qs_record_single (x : α) : QSAnim.record_events [x] =
    ⟨[x], [x], insert 0 ∅,
      [QSEvent.sortedIdx [x] 0 0 0 (insert 0 ∅), QSEvent.done [x] (insert 0 ∅)]⟩ := rfl

theorem hs_record_single (x : α) : HSAnim.record_events [x] =
    ⟨[x], [x],
      [HSEvent.phase [x] false, HSEvent.heapReady [x], HSEvent.phase [x] true,
        HSEvent.done [x]]⟩ := by
  unfold HSAnim.record_events
  simp only [List.length_singleton]
  norm_num
  rfl

theorem bs_record_single {x : ℚ} (h0 : 0 ≤ x) (h1 : x < 1) :
    BSAnim.record_events [x] = some
      ⟨[x], [[0]],
        [BSEvent.scatter 0 x 0, BSEvent.bucketDone 0, BSEvent.gatherStart,
          BSEvent.gather 0 0 0 0, BSEvent.done]⟩ := by
  have hfl : ⌊x⌋ = 0 := by
    rw [Int.floor_eq_zero_iff]
    exact ⟨h0, h1⟩
  have hb : bucketIndex 1 x = 0 := by
    have hx1 : ((1 : ℕ) : ℚ) * x = x := by
      push_cast
      ring
    rw [bucketIndex, hx1, pyInt, if_pos h0, hfl]
    norm_num
  have hs1 : bsScatter 1 [x] 0 ⟨[x], [[]], []⟩ =
      some ⟨[x], [[0]], [BSEvent.scatter 0 x 0]⟩ := by
    simp only [bsScatter, bsPush, hb]
    norm_num [pyIdx]
  have hrec : BSAnim.record_events [x] =
      (match bsScatter 1 [x] 0 ⟨[x], [[]], []⟩ with
       | none => none
       | some st =>
         let st1 := bsIsortAll [x] 1 0 st
         let st2 := bsPush st1 BSEvent.gatherStart
         let p := bsGatherAll st2.buckets 0 0 st2.events
         some { st2 with events := p.2 ++ [BSEvent.done] }) := rfl
  rw [hrec, hs1]
  rfl

end SingleElement

theorem bucket_sort_half : bucket_sort [(1:ℚ)/2] = some [(1:ℚ)/2] := by
  norm_num [bucket_sort, scatterLoop, bucketIndex, pyInt, pyIdx, insertion_sort,
    insOuter, gatherAll, gatherOne, List.replicate]

/-! ## The claims -/

section Claims

variable {α : Type} [Inhabited α] [Preorder α]
variable [DecidableRel ((· ≤ ·) : α → α → Prop)]
variable [DecidableRel ((· < ·) : α → α → Prop)]

/-- C1: every engine sorts — `quickSort` over `[0, n-1]`, `heapSort`,
`mergeSort` over `[0, n-1]` on any list over a decidable total preorder, and
`bucket_sort` on rational lists under its values-in-`[0, 1)` precondition,
each produce a permutation of the input that is non-decreasing under the
comparison relation. -/
theorem C1_sort_engines_correct (tot : ∀ a b : α, a ≤ b ∨ b ≤ a) (arr : List α)
    (qarr : List ℚ) (hdom : ∀ v ∈ qarr, 0 ≤ v ∧ v < 1) :
    ((quickSort arr 0 ((arr.length : ℤ) - 1)).Perm arr ∧
      (quickSort arr 0 ((arr.length : ℤ) - 1)).Sorted (· ≤ ·)) ∧
    ((heapSort arr).Perm arr ∧ (heapSort arr).Sorted (· ≤ ·)) ∧
    ((mergeSort arr 0 ((arr.length : ℤ) - 1)).Perm arr ∧
      (mergeSort arr 0 ((arr.length : ℤ) - 1)).Sorted (· ≤ ·)) ∧
    (∃ out, bucket_sort qarr = some out ∧ out.Perm qarr ∧ out.Sorted (· ≤ ·)) :=
  ⟨quickSort_perm_sorted tot arr,
   heapSort_perm_sorted tot arr,
   by
     rw [mergeSort_eq_SegSort]
     exact ⟨SegSort_perm arr, SegSort_sorted tot arr⟩,
   bucket_sort_spec qarr hdom⟩

theorem C1_witness :
    (∀ a b : ℤ, a ≤ b ∨ b ≤ a) ∧ (∀ v ∈ [(1:ℚ)/2, 1/4], 0 ≤ v ∧ v < 1) ∧
    (((quickSort [(5:ℤ), 3, 8, 4, 2] 0 (([(5:ℤ), 3, 8, 4, 2].length : ℤ) - 1)).Perm
        [5, 3, 8, 4, 2] ∧
      (quickSort [(5:ℤ), 3, 8, 4, 2] 0
        (([(5:ℤ), 3, 8, 4, 2].length : ℤ) - 1)).Sorted (· ≤ ·)) ∧
    ((heapSort [(5:ℤ), 3, 8, 4, 2]).Perm [5, 3, 8, 4, 2] ∧
      (heapSort [(5:ℤ), 3, 8, 4, 2]).Sorted (· ≤ ·)) ∧
    ((mergeSort [(5:ℤ), 3, 8, 4, 2] 0 (([(5:ℤ), 3, 8, 4, 2].length : ℤ) - 1)).Perm
        [5, 3, 8, 4, 2] ∧
      (mergeSort [(5:ℤ), 3, 8, 4, 2] 0
        (([(5:ℤ), 3, 8, 4, 2].length : ℤ) - 1)).Sorted (· ≤ ·)) ∧
    (∃ out, bucket_sort [(1:ℚ)/2, 1/4] = some out ∧ out.Perm [(1:ℚ)/2, 1/4] ∧
      out.Sorted (· ≤ ·))) :=
  ⟨fun a b => le_total a b, by norm_num,
   C1_sort_engines_correct (fun a b => le_total a b) [(5:ℤ), 3, 8, 4, 2]
     [(1:ℚ)/2, 1/4] (by norm_num)⟩

/-- C2 (amended): replay equivalence holds with the full set of
mutation-bearing records — the quicksort log's `swap` records alone replay
to `quickSort`'s output, the heapsort log needs its `extract` records (whose
mutation is the swap of positions `0` and `idx`) in addition to its `swap`
records, and the bucket-sort log's `gather` records replay to `bucket_sort`'s
output whenever the sort completes. -/
theorem C2_replay_equivalence (original : List α) (qarr : List ℚ) :
    qsReplay original (QSAnim.record_events original).events =
      quickSort original 0 ((original.length : ℤ) - 1) ∧
    hsReplay original (HSAnim.record_events original).events = heapSort original ∧
    (∀ out, bucket_sort qarr = some out →
      ∃ st, BSAnim.record_events qarr = some st ∧ bsReplay qarr qarr st.events = out) := by
  refine ⟨(qs_record_spec original).1, (hs_record_spec original).1, ?_⟩
  intro out hout
  rcases bs_record_spec qarr with ⟨_, hn2⟩ | ⟨st, out', h1, h2, _, h4⟩
  · rw [hout] at hn2
    cases hn2
  · refine ⟨st, h1, ?_⟩
    rw [hout] at h2
    injection h2 with h5
    rw [h4, h5]

/-- C2 (counterexample): replaying only the `swap` records of the heapsort
log does not reproduce `heapSort`'s output — on `[2, 1]` the only mutation
is logged as an `extract` record, so the swap-only replay returns the input
unsorted. -/
theorem C2_counterexample :
    hsReplaySwapOnly [(2:ℤ), 1] (HSAnim.record_events [(2:ℤ), 1]).events ≠
      heapSort [(2:ℤ), 1] := by decide

theorem C2_witness :
    qsReplay [(2:ℤ), 1] (QSAnim.record_events [(2:ℤ), 1]).events =
      quickSort [(2:ℤ), 1] 0 (([(2:ℤ), 1].length : ℤ) - 1) ∧
    hsReplay [(2:ℤ), 1] (HSAnim.record_events [(2:ℤ), 1]).events = heapSort [(2:ℤ), 1] ∧
    bucket_sort [(1:ℚ)/2] = some [(1:ℚ)/2] ∧
    (∃ st, BSAnim.record_events [(1:ℚ)/2] = some st ∧
      bsReplay [(1:ℚ)/2] [(1:ℚ)/2] st.events = [(1:ℚ)/2]) :=
  ⟨(C2_replay_equivalence [(2:ℤ), 1] [(1:ℚ)/2]).1,
   (C2_replay_equivalence [(2:ℤ), 1] [(1:ℚ)/2]).2.1,
   bucket_sort_half,
   (C2_replay_equivalence [(2:ℤ), 1] [(1:ℚ)/2]).2.2 [(1:ℚ)/2] bucket_sort_half⟩

/-- C3: mergesort is stable — on `(value, original_index)` pairs compared by
value, `mergeSort` preserves the relative input order of equal-valued
elements (the filter at any key value is unchanged), and the two-pointer
merge loop takes from the left run on ties via its `L[i] <= R[j]` test. -/
theorem C3_mergesort_stability :
    (∀ (arr : List Keyed) (v : ℕ),
      (mergeSort arr 0 ((arr.length : ℤ) - 1)).filter (fun x => decide (x.val = v)) =
        arr.filter (fun x => decide (x.val = v))) ∧
    (∀ (L R arr2 : List Keyed) (f i j : ℕ) (k : ℤ),
      i < L.length → j < R.length →
      L.getD i default ≤ R.getD j default →
      R.getD j default ≤ L.getD i default →
      mergeLoop L R (f + 1) arr2 i j k =
        mergeLoop L R f (pySet arr2 k (L.getD i default)) (i + 1) j (k + 1)) :=
  ⟨mergeSort_stable_keyed,
   fun L R arr2 f i j k hi hj hle hge =>
     mergeLoop_left_on_tie L R f arr2 i j k hi hj hle hge⟩

theorem C3_witness :
    ((mergeSort [(⟨1, 0⟩ : Keyed), ⟨1, 1⟩, ⟨0, 2⟩] 0
        (([(⟨1, 0⟩ : Keyed), ⟨1, 1⟩, ⟨0, 2⟩].length : ℤ) - 1)).filter
        (fun x => decide (x.val = 1)) =
      [(⟨1, 0⟩ : Keyed), ⟨1, 1⟩, ⟨0, 2⟩].filter (fun x => decide (x.val = 1))) ∧
    ((0 : ℕ) < [(⟨1, 5⟩ : Keyed)].length ∧ (0 : ℕ) < [(⟨1, 7⟩ : Keyed)].length ∧
      [(⟨1, 5⟩ : Keyed)].getD 0 default ≤ [(⟨1, 7⟩ : Keyed)].getD 0 default ∧
      [(⟨1, 7⟩ : Keyed)].getD 0 default ≤ [(⟨1, 5⟩ : Keyed)].getD 0 default) ∧
    mergeLoop [(⟨1, 5⟩ : Keyed)] [(⟨1, 7⟩ : Keyed)] 3 [⟨1, 5⟩, ⟨1, 7⟩] 0 0 0 =
      mergeLoop [(⟨1, 5⟩ : Keyed)] [(⟨1, 7⟩ : Keyed)] 2
        (pySet [⟨1, 5⟩, ⟨1, 7⟩] 0 ([(⟨1, 5⟩ : Keyed)].getD 0 default)) 1 0 1 :=
  ⟨C3_mergesort_stability.1 [⟨1, 0⟩, ⟨1, 1⟩, ⟨0, 2⟩] 1,
   ⟨by decide, by decide, by decide, by decide⟩,
   C3_mergesort_stability.2 [⟨1, 5⟩] [⟨1, 7⟩] [⟨1, 5⟩, ⟨1, 7⟩] 2 0 0 0
     (by decide) (by decide) (by decide) (by decide)⟩

/-- C4 (amended): `bucket_sort` fails visibly (the Python `IndexError`,
modelled as `none`) only when some value's clamped bucket index falls below
`-n`; any such input makes the whole call fail.  (Out-of-domain values whose
index stays within `[-n, n)` are silently accepted through Python's negative
indexing — see the counterexample.) -/
theorem C4_bucket_error_behavior (arr : List ℚ)
    (h : ∃ v ∈ arr, bucketIndex arr.length v < -(arr.length : ℤ)) :
    bucket_sort arr = none :=
  bucket_sort_none_of_bad arr h

/-- C4 (counterexample): on `[-1/2, 1/4]` — which contains a value outside
`[0, 1)` — `bucket_sort` does not fail: it silently returns the unsorted
array `[1/4, -1/2]` as if the sort completed. -/
theorem C4_counterexample :
    (∃ v ∈ [-(1:ℚ)/2, 1/4], ¬(0 ≤ v ∧ v < 1)) ∧
    bucket_sort [-(1:ℚ)/2, 1/4] = some [1/4, -(1:ℚ)/2] ∧
    ¬ ([(1:ℚ)/4, -(1:ℚ)/2].Sorted (· ≤ ·)) := by
  refine ⟨⟨-(1:ℚ)/2, by norm_num, by norm_num⟩, bucket_sort_silent_wrong, ?_⟩
  intro hcon
  obtain ⟨hall, _⟩ := List.sorted_cons.mp hcon
  have := hall (-(1:ℚ)/2) (List.mem_cons_self ..)
  norm_num at this

theorem C4_witness :
    (∃ v ∈ [(-2:ℚ)], bucketIndex [(-2:ℚ)].length v < -(([(-2:ℚ)].length : ℤ))) ∧
    bucket_sort [(-2:ℚ)] = none := by
  have hbad : ∃ v ∈ [(-2:ℚ)], bucketIndex [(-2:ℚ)].length v < -(([(-2:ℚ)].length : ℤ)) := by
    refine ⟨-2, by norm_num, ?_⟩
    norm_num [bucketIndex, pyInt, ceil_eq_neg_floor_neg]
  exact ⟨hbad, C4_bucket_error_behavior [(-2:ℚ)] hbad⟩

/-- C5 (amended): empty and single-element inputs are error-free no-ops for
`quickSort`, `heapSort` and `mergeSort` on any element type, and for
`bucket_sort` when the single element lies in its `[0, 1)` domain.  (A
single out-of-domain element can raise — see the counterexample.) -/
theorem C5_empty_singleton (x : α) (y : ℚ) (h0 : 0 ≤ y) (h1 : y < 1) :
    quickSort ([] : List α) 0 (-1) = [] ∧ quickSort [x] 0 0 = [x] ∧
    heapSort ([] : List α) = [] ∧ heapSort [x] = [x] ∧
    mergeSort ([] : List α) 0 (-1) = [] ∧ mergeSort [x] 0 0 = [x] ∧
    bucket_sort ([] : List ℚ) = some [] ∧ bucket_sort [y] = some [y] := by
  have hhs0 : heapSort ([] : List α) = [] := by
    unfold heapSort
    norm_num
    rfl
  have hhs1 : heapSort [x] = [x] := by
    unfold heapSort
    norm_num
    rfl
  refine ⟨rfl, rfl, hhs0, hhs1, rfl, rfl, rfl, ?_⟩
  obtain ⟨out, ho, hp, _⟩ := bucket_sort_spec [y] (by
    intro v hv
    rw [List.mem_singleton] at hv
    subst hv
    exact ⟨h0, h1⟩)
  have hout : out = [y] := List.perm_singleton.mp hp
  rw [ho, hout]

/-- C5 (counterexample): `bucket_sort` on the single-element sequence
`[-2]` raises (`IndexError`, modelled as `none`) instead of succeeding. -/
theorem C5_counterexample :
    bucket_sort [(-2 : ℚ)] = none ∧ [(-2 : ℚ)].length = 1 :=
  ⟨bucket_sort_neg_two, rfl⟩

theorem C5_witness :
    ((0:ℚ) ≤ 1/2 ∧ (1:ℚ)/2 < 1) ∧
    (quickSort ([] : List ℤ) 0 (-1) = [] ∧ quickSort [(7:ℤ)] 0 0 = [7] ∧
     heapSort ([] : List ℤ) = [] ∧ heapSort [(7:ℤ)] = [7] ∧
     mergeSort ([] : List ℤ) 0 (-1) = [] ∧ mergeSort [(7:ℤ)] 0 0 = [7] ∧
     bucket_sort ([] : List ℚ) = some [] ∧ bucket_sort [(1:ℚ)/2] = some [(1:ℚ)/2]) :=
  ⟨⟨by norm_num, by norm_num⟩,
   C5_empty_singleton (7:ℤ) ((1:ℚ)/2) (by norm_num) (by norm_num)⟩

/-- C6 (amended): on a single-element input the quicksort and heapsort
recorders leave the working copy equal to the input, emit no `compare`
records, and emit a minimal log whose only informative records report the
element already in place; the bucket-sort recorder does the same when the
element lies in `[0, 1)`.  (Out of that domain it can raise instead — see
the counterexample.) -/
theorem C6_single_element_recorders (x : α) (y : ℚ) (h0 : 0 ≤ y) (h1 : y < 1) :
    (QSAnim.record_events [x]).data = [x] ∧
    (QSAnim.record_events [x]).events =
      [QSEvent.sortedIdx [x] 0 0 0 (insert 0 ∅), QSEvent.done [x] (insert 0 ∅)] ∧
    (∀ d lo hi p j, QSEvent.compare d lo hi p j ∉ (QSAnim.record_events [x]).events) ∧
    (HSAnim.record_events [x]).arr = [x] ∧
    (HSAnim.record_events [x]).events =
      [HSEvent.phase [x] false, HSEvent.heapReady [x], HSEvent.phase [x] true,
        HSEvent.done [x]] ∧
    (∀ d n i l r lg, HSEvent.compare d n i l r lg ∉ (HSAnim.record_events [x]).events) ∧
    BSAnim.record_events [y] = some
      ⟨[y], [[0]],
        [BSEvent.scatter 0 y 0, BSEvent.bucketDone 0, BSEvent.gatherStart,
          BSEvent.gather 0 0 0 0, BSEvent.done]⟩ ∧
    (∀ st, BSAnim.record_events [y] = some st →
      ∀ b sj oj ko k c, BSEvent.isortCompare b sj oj ko k c ∉ st.events) := by
  refine ⟨?_, ?_, ?_, ?_, ?_, ?_, bs_record_single h0 h1, ?_⟩
  · rw [qs_record_single]
  · rw [qs_record_single]
  · intro d lo hi p j
    rw [qs_record_single]
    simp
  · rw [hs_record_single]
  · rw [hs_record_single]
  · intro d n i l r lg
    rw [hs_record_single]
    simp
  · intro st hst
    rw [bs_record_single h0 h1] at hst
    injection hst with h
    rw [← h]
    intro b sj oj ko k c
    simp

/-- C6 (counterexample): the bucket-sort recorder on the single-element
sequence `[-2]` raises (`IndexError`, modelled as `none`) rather than
returning the element with an "already sorted" record. -/
theorem C6_counterexample :
    BSAnim.record_events [(-2 : ℚ)] = none ∧ [(-2 : ℚ)].length = 1 :=
  ⟨bs_record_neg_two, rfl⟩

theorem C6_witness :
    ((0:ℚ) ≤ 1/2 ∧ (1:ℚ)/2 < 1) ∧
    (QSAnim.record_events [(3:ℤ)]).data = [3] ∧
    BSAnim.record_events [(1:ℚ)/2] = some
      ⟨[(1:ℚ)/2], [[0]],
        [BSEvent.scatter 0 (1/2) 0, BSEvent.bucketDone 0, BSEvent.gatherStart,
          BSEvent.gather 0 0 0 0, BSEvent.done]⟩ :=
  ⟨⟨by norm_num, by norm_num⟩,
   (C6_single_element_recorders (3:ℤ) ((1:ℚ)/2) (by norm_num) (by norm_num)).1,
   (C6_single_element_recorders (3:ℤ) ((1:ℚ)/2) (by norm_num) (by norm_num)).2.2.2.2.2.2.1⟩

/-- C7: for a nonempty rational sequence with all values in `[0, 1)`, every
bucket index `min(int(n*v), n-1)` lies in `[0, n-1]` and the scatter loop
performs only in-bounds accesses (it completes without `IndexError`). -/
theorem C7_bucket_index_in_bounds (arr : List ℚ) (hn : 1 ≤ arr.length)
    (hdom : ∀ v ∈ arr, 0 ≤ v ∧ v < 1) :
    (∀ v ∈ arr, 0 ≤ bucketIndex arr.length v ∧
      bucketIndex arr.length v < (arr.length : ℤ)) ∧
    ∃ out, scatterLoop arr.length arr (List.replicate arr.length []) = some out := by
  refine ⟨fun v hv => bucketIndex_bounds hn (hdom v hv).1 (hdom v hv).2, ?_⟩
  obtain ⟨out, h, _⟩ := scatterLoop_spec hn arr (List.replicate arr.length [])
    (List.length_replicate ..) hdom
  exact ⟨out, h⟩

theorem C7_witness :
    (1 ≤ [(1:ℚ)/2, 1/4].length ∧ ∀ v ∈ [(1:ℚ)/2, 1/4], 0 ≤ v ∧ v < 1) ∧
    ((∀ v ∈ [(1:ℚ)/2, 1/4], 0 ≤ bucketIndex [(1:ℚ)/2, 1/4].length v ∧
      bucketIndex [(1:ℚ)/2, 1/4].length v < ([(1:ℚ)/2, 1/4].length : ℤ)) ∧
    ∃ out, scatterLoop [(1:ℚ)/2, 1/4].length [(1:ℚ)/2, 1/4]
      (List.replicate [(1:ℚ)/2, 1/4].length []) = some out) :=
  ⟨⟨by norm_num, by norm_num⟩,
   C7_bucket_index_in_bounds [(1:ℚ)/2, 1/4] (by norm_num) (by norm_num)⟩

/-- C8: each recorder is pure with respect to its input — the caller's list
object is never written (the quicksort and heapsort recorders work on the
copy `data = original[:]` / `arr = original[:]`; the bucket-sort recorder
only reads its argument). -/
theorem C8_recorder_purity (original : List α) (qarr : List ℚ) :
    (QSAnim.record_events original).original = original ∧
    (HSAnim.record_events original).original = original ∧
    (∀ st, BSAnim.record_events qarr = some st → st.caller = qarr) := by
  refine ⟨(qs_record_spec original).2.1, (hs_record_spec original).2.2, ?_⟩
  intro st hst
  rcases bs_record_spec qarr with ⟨hn1, _⟩ | ⟨st', out, h1, _, h3, _⟩
  · rw [hst] at hn1
    cases hn1
  · rw [hst] at h1
    injection h1 with h
    rw [h]
    exact h3

theorem C8_witness :
    (QSAnim.record_events [(1:ℤ), 2]).original = [1, 2] ∧
    (HSAnim.record_events [(1:ℤ), 2]).original = [1, 2] ∧
    (⟨[(1:ℚ)/2], [[0]],
      [BSEvent.scatter 0 (1/2) 0, BSEvent.bucketDone 0, BSEvent.gatherStart,
        BSEvent.gather 0 0 0 0, BSEvent.done]⟩ : BSState).caller = [(1:ℚ)/2] :=
  ⟨(C8_recorder_purity [(1:ℤ), 2] [(1:ℚ)/2]).1,
   (C8_recorder_purity [(1:ℤ), 2] [(1:ℚ)/2]).2.1,
   (C8_recorder_purity [(1:ℤ), 2] [(1:ℚ)/2]).2.2 _
     (bs_record_single (by norm_num) (by norm_num))⟩

/-- C9: `quickSort` on `[5, 3, 8, 4, 2]` over `[0, 4]` yields
`[2, 3, 4, 5, 8]`, and the first event of the quicksort recorder on that
input is the `pivot` record of the initial call, whose pivot (index `4`,
the last element) has value `2`. -/
theorem C9_concrete_quicksort :
    quickSort [(5:ℤ), 3, 8, 4, 2] 0 4 = [2, 3, 4, 5, 8] ∧
    (QSAnim.record_events [(5:ℤ), 3, 8, 4, 2]).events.head? =
      some (QSEvent.pivot [5, 3, 8, 4, 2] 0 4 4) ∧
    pyGet [(5:ℤ), 3, 8, 4, 2] 4 = 2 := by decide

/-- C10: every `swap` record the quicksort recorder emits has distinct
indices — the scan pushes one only when `i != j` and the pivot placement
only when `pi != hi`, so the log never contains a self-swap. -/
theorem C10_no_self_swap (original : List α) :
    ∀ e ∈ (QSAnim.record_events original).events,
      ∀ d lo hi p a b, e = QSEvent.swap d lo hi p a b → a ≠ b :=
  (qs_record_spec original).2.2

theorem C10_witness :
    QSEvent.swap [(2:ℤ), 1] 0 1 1 0 1 ∈ (QSAnim.record_events [(2:ℤ), 1]).events ∧
    (0 : ℤ) ≠ 1 :=
  ⟨by decide,
   C10_no_self_swap [(2:ℤ), 1] (QSEvent.swap [(2:ℤ), 1] 0 1 1 0 1) (by decide)
     [(2:ℤ), 1] 0 1 1 0 1 rfl⟩

end Claims

end AlgoAnalysis
